import Mathlib

/-!
# Verification development for the memento-mcp memory subsystem

Shallow embedding of the fragment-based memory core:
`FragmentFactory` (PII redaction, truncation, keyword extraction, tier
inference), `FragmentStore` (PostgreSQL CRUD, maintenance sweeps, the DDL's
cascade and row-visibility policy), `FragmentIndex`/`FragmentSearch`
(Redis layer and the three-tier cascade), `NLIClassifier`, the
`MemoryConsolidator` pipeline and the `MemoryManager` facade.

Modelling conventions:
* JavaScript numbers that carry fractional values (`importance`, NLI scores,
  similarities) are rationals (`ℚ`); timestamps are integers (`ℤ`,
  milliseconds, so one day is `86400000`).
* `SHA-256` content hashing is an abstract parameter `hash : String → String`
  of the environment; the code only ever compares hash values for equality.
* PostgreSQL `LN` is the abstract parameter `ln : ℚ → ℚ` (it only feeds
  `utility_score`, which no branch condition reads).
* External collaborators (embedding provider, Gemini, the NLI model, Redis)
  are environment parameters, mirroring the availability flags and network
  fallbacks of the source.
* JS strings are treated as their character lists (`String.toList`); the
  sources under test only manipulate BMP text, where JS `.length` agrees
  with the character count.
-/

/-! ## Character classes of the four PII regexes -/

/-- `[a-zA-Z0-9]` (JS `\w` minus underscore; the API-key body class). -/
def isAlnumCh (c : Char) : Bool := c.isAlpha || c.isDigit

/-- `[0-9A-Za-z-_]`, the `AIza…` body class. -/
def isApi2Ch (c : Char) : Bool := isAlnumCh c || c = '-' || c = '_'

/-- `[a-zA-Z0-9._%+-]`, the e-mail local-part class. -/
def isLclCh (c : Char) : Bool :=
  isAlnumCh c || c = '.' || c = '_' || c = '%' || c = '+' || c = '-'

/-- `[a-zA-Z0-9.-]`, the e-mail domain class. -/
def isDomCh (c : Char) : Bool := isAlnumCh c || c = '.' || c = '-'

/-- `[a-zA-Z]`, the top-level-domain class. -/
def isLtrCh (c : Char) : Bool := c.isAlpha

/-- JS `\s` (common whitespace). -/
def jsWsCh (c : Char) : Bool := c.isWhitespace

/-- `[^\s,]`, the password-value class. -/
def isValCh (c : Char) : Bool := !jsWsCh c && !(c = ',')

/-- Length of the maximal run of characters satisfying `p` at the head. -/
def runLen (p : Char → Bool) : List Char → ℕ
  | [] => 0
  | c :: rest => if p c then runLen p rest + 1 else 0

/-! ## The four ordered substitutions of `FragmentFactory._redactPII`

Each JS `String.replace(/re/g, repl)` is modelled as a leftmost scan: at every
position the matcher is tried; on a match the replacement is emitted and the
scan resumes after the matched text, otherwise the character is copied and the
scan advances by one.  The per-rule matchers spell out the backtracking
semantics of the corresponding regex. -/

/-- Fuel-driven body of the global-replace scanner (structural recursion so
that the kernel can evaluate it; every step consumes at least one character,
so fuel equal to the input length never runs out). -/
def scanGo (m : List Char → Option (ℕ × List Char)) : ℕ → List Char → List Char
  | _, [] => []
  | 0, l => l
  | f + 1, c :: rest =>
    match m (c :: rest) with
    | some (n, r) => r ++ scanGo m f (rest.drop (n - 1))
    | none => c :: scanGo m f rest

/-- Generic global-replace scanner.  `m l` returns the matched length
(always ≥ 1 for the rules below) and the replacement text; on a match the
scan resumes after the matched text, otherwise one character is copied. -/
def scanRepl (m : List Char → Option (ℕ × List Char)) (l : List Char) : List Char :=
  scanGo m l.length l

/-- Rule 1 matcher: `sk-[a-zA-Z0-9]{32,}|AIza[0-9A-Za-z-_]{35}`.
`sk-` takes the whole greedy run (at least 32); `AIza` takes exactly 35. -/
def r1MatchAt : List Char → Option (ℕ × List Char)
  | 's' :: 'k' :: '-' :: rest =>
      if runLen isAlnumCh rest ≥ 32
      then some (3 + runLen isAlnumCh rest, "[REDACTED_API_KEY]".toList)
      else none
  | 'A' :: 'I' :: 'z' :: 'a' :: rest =>
      if runLen isApi2Ch rest ≥ 35
      then some (4 + 35, "[REDACTED_API_KEY]".toList)
      else none
  | _ => none

/-- Rightmost index `d` of a `'.'` in the domain run that is followed by a
letter run of length ≥ 2, together with that run's length.  This is the
backtracking order of `[a-zA-Z0-9.-]+\.[a-zA-Z]{2,}`: the domain part is
greedy, so the last viable dot wins. -/
def emailDomSplit : List Char → Option (ℕ × ℕ)
  | [] => none
  | c :: rest =>
    match emailDomSplit rest with
    | some (d, t) => some (d + 1, t)
    | none =>
      if c = '.' && runLen isLtrCh rest ≥ 2
      then some (0, runLen isLtrCh rest)
      else none

/-- Rule 2 matcher: `[a-zA-Z0-9._%+-]+@[a-zA-Z0-9.-]+\.[a-zA-Z]{2,}`.
The local part must be the maximal run (its class excludes `@`), the domain
run is split at the last dot followed by ≥ 2 letters, and the dot must leave
a non-empty domain part before it. -/
def r2MatchAt (l : List Char) : Option (ℕ × List Char) :=
  let L := runLen isLclCh l
  if L = 0 then none else
  match l.drop L with
  | '@' :: rest =>
    let D := runLen isDomCh rest
    match emailDomSplit (rest.take D) with
    | some (d, t) =>
      if d ≥ 1 then some (L + 1 + d + 1 + t, "[REDACTED_EMAIL]".toList) else none
    | none => none
  | _ => none

/-- Case-insensitive (ASCII) test that `kw` occurs at the head of `l`. -/
def ciHeadEq : List Char → List Char → Bool
  | [], _ => true
  | _ :: _, [] => false
  | k :: ks, c :: cs => (k.toLower = c.toLower) && ciHeadEq ks cs

/-- Keyword alternatives of rule 3, in the source's alternation order. -/
def pwdKeywords : List (List Char) :=
  ["password".toList, "passwd".toList, "pwd".toList,
   "비밀번호".toList, "비번".toList]

/-- Rule 3 matcher: `(password|passwd|pwd|비밀번호|비번)\s*[:=]\s*[^\s,]+` with
the `i` flag; the replacement re-emits the matched keyword text verbatim
followed by `": [REDACTED_PWD]"`. -/
def r3MatchAt (l : List Char) : Option (ℕ × List Char) :=
  match pwdKeywords.find? (fun kw => ciHeadEq kw l) with
  | none => none
  | some kw =>
    let k := kw.length
    let w1 := runLen jsWsCh (l.drop k)
    match l.drop (k + w1) with
    | c :: rest2 =>
      if c = ':' || c = '=' then
        let w2 := runLen jsWsCh rest2
        let v := runLen isValCh (rest2.drop w2)
        if v ≥ 1 then some (k + w1 + 1 + w2 + v, l.take k ++ ": [REDACTED_PWD]".toList)
        else none
      else none
    | [] => none

/-- `[-\s]` (the optional phone separators). -/
def isSepCh (c : Char) : Bool := c = '-' || jsWsCh c

/-- Options for an optional greedy separator at the head: consume it if
present, then backtrack to consuming nothing. -/
def sepOpts : List Char → List ℕ
  | c :: _ => if isSepCh c then [1, 0] else [0]
  | [] => [0]

/-- Backtracking search for the phone-pattern tail `[-\s]?\d{3,4}[-\s]?\d{4}`
(after the leading `01[016789]`), returning the consumed length. -/
def r4Tail (l : List Char) : Option ℕ :=
  (sepOpts l).findSome? fun s1 =>
    let l1 := l.drop s1
    [4, 3].findSome? fun n1 =>
      if runLen Char.isDigit l1 ≥ n1 then
        let l2 := l1.drop n1
        (sepOpts l2).findSome? fun s2 =>
          let l3 := l2.drop s2
          if runLen Char.isDigit l3 ≥ 4 then some (s1 + n1 + s2 + 4) else none
      else none

/-- Rule 4 matcher: `01[016789][-\s]?\d{3,4}[-\s]?\d{4}`. -/
def r4MatchAt : List Char → Option (ℕ × List Char)
  | '0' :: '1' :: c :: rest =>
      if c = '0' || c = '1' || c = '6' || c = '7' || c = '8' || c = '9' then
        match r4Tail rest with
        | some n => some (3 + n, "[REDACTED_PHONE]".toList)
        | none => none
      else none
  | _ => none

/-- `FragmentFactory._redactPII`: the four ordered global substitutions. -/
def redactPII (s : String) : String :=
  String.mk (scanRepl r4MatchAt (scanRepl r3MatchAt
    (scanRepl r2MatchAt (scanRepl r1MatchAt s.toList))))

/-! ## Small JS-string utilities -/

/-- JS `String.length` (character count; BMP assumption, see header). -/
def jsLen (s : String) : ℕ := s.toList.length

/-- JS `String.substring(0, n)`. -/
def jsTake (n : ℕ) (s : String) : String := String.mk (s.toList.take n)

/-- JS `String.trim()`. -/
def jsTrim (s : String) : String :=
  String.mk (((s.toList.dropWhile jsWsCh).reverse.dropWhile jsWsCh).reverse)

/-- JS `String.toLowerCase()` (ASCII; the sources lowercase keywords only). -/
def jsLower (s : String) : String := String.mk (s.toList.map Char.toLower)

/-- `Math.ceil(n / 4)` on naturals. -/
def ceilDiv4 (n : ℕ) : ℕ := (n + 3) / 4

/-- Stable insertion sort; `lt a b` means `a` must come strictly before `b`.
Elements that are not strictly ordered keep their original relative order,
matching the stable `Array.prototype.sort` of modern JS engines and the
deterministic reading of SQL `ORDER BY`. -/
def stIns (lt : α → α → Bool) (a : α) : List α → List α
  | [] => [a]
  | b :: bs => if lt b a then b :: stIns lt a bs else a :: b :: bs

/-- See `stIns`. -/
def stableSortBy (lt : α → α → Bool) : List α → List α
  | [] => []
  | x :: xs => stIns lt x (stableSortBy lt xs)

/-- First-occurrence membership-preserving deduplication keyed by `key`. -/
def firstDedupBy (key : α → β) [DecidableEq β] : List α → List α :=
  go []
where
  go (seen : List β) : List α → List α
    | [] => []
    | x :: xs => if key x ∈ seen then go seen xs else x :: go (key x :: seen) xs

/-! ## Data model

The row types mirror `memory-schema.sql`: `fragments`, `fragment_links`
(`UNIQUE (from_id, to_id)`, both endpoints `ON DELETE CASCADE`) and
`fragment_versions` (`ON DELETE CASCADE`). -/

/-- One row of `agent_memory.fragments`. -/
structure Fragment where
  fid : String
  content : String
  topic : String
  keywords : List String
  ftype : String
  importance : ℚ
  contentHash : String
  source : Option String
  linkedTo : List String
  agentId : String
  accessCount : ℕ
  accessedAt : Option ℤ
  createdAt : ℤ
  ttlTier : String
  estimatedTokens : ℕ
  utilityScore : ℚ
  verifiedAt : Option ℤ
  hasEmbedding : Bool
  isAnchor : Bool
deriving DecidableEq, Repr

/-- One row of `agent_memory.fragment_links` (the serial id and created_at
play no role in any claim). -/
structure Link where
  fromId : String
  toId : String
  relationType : String
deriving DecidableEq, Repr

/-- One row of `agent_memory.fragment_versions`. -/
structure VersionRow where
  fragmentId : String
  content : String
  topic : String
  keywords : List String
  ftype : String
  importance : ℚ
  amendedAt : ℤ
  amendedBy : String
deriving DecidableEq, Repr

/-- The durable store. -/
structure DBState where
  fragments : List Fragment
  links : List Link
  versions : List VersionRow
deriving DecidableEq, Repr

/-- Softmax scores produced by `classifyNLI`. -/
structure NLIScores where
  entailment : ℚ
  neutral : ℚ
  contradiction : ℚ
deriving DecidableEq, Repr

/-- Verdict of `detectContradiction`. -/
structure NLIVerdict where
  contradicts : Bool
  confidence : ℚ
  needsEscalation : Bool
deriving DecidableEq, Repr

/-- Parsed JSON verdict of `_askGeminiContradiction` (its internal catch
turns any failure into `contradicts = false`). -/
structure GeminiVerdict where
  contradicts : Bool
deriving DecidableEq, Repr

/-- External collaborators and ambient values, mirroring the availability
flags and oracles the source consults.  `hash` stands for the 16-hex SHA-256
prefix (`computeContentHash`), `ln` for PostgreSQL `LN`, `sim` for pgvector
cosine similarity between two stored embeddings (keyed by fragment id),
`qsim` for similarity of a query text's embedding against a stored one, and
`sample` for Redis `SRANDMEMBER`. -/
structure Env where
  now : ℤ
  hash : String → String
  enc : Option (String → ℕ)
  openaiKey : Bool
  embedOk : Bool
  sim : String → String → ℚ
  qsim : String → String → ℚ
  nliAvail : Bool
  nli : String → String → Option NLIScores
  cliAvail : Bool
  gemini : String → String → GeminiVerdict
  ln : ℚ → ℚ
  sample : List String → ℕ → List String

/-- One day of the model's millisecond clock (SQL `INTERVAL '1 day'`,
JS `86400000`). -/
def dayMs : ℤ := 86400000

/-- The row-visibility policy `fragment_isolation_policy`: a caller sees its
own rows, the shared `default` pool, and everything when it is a maintenance
principal. -/
def visibleTo (agentId rowAgent : String) : Bool :=
  rowAgent = agentId || rowAgent = "default" || agentId = "system" || agentId = "admin"

/-! ## FragmentFactory -/

/-- `countTokens`: precise tokenizer when available, `ceil(length / 4)`
fallback. -/
def countTokens (env : Env) (text : String) : ℕ :=
  match env.enc with
  | some e => e text
  | none => ceilDiv4 (jsLen text)

/-- `IMPORTANCE_WEIGHT` lookup (`|| 0.5` for unknown types). -/
def importanceWeightFor (t : String) : ℚ :=
  if t = "error" then 0.9
  else if t = "decision" then 0.8
  else if t = "procedure" then 0.7
  else if t = "preference" then 0.95
  else if t = "relation" then 0.6
  else if t = "fact" then 0.5
  else 0.5

/-- `FragmentFactory._inferTTL` (first match wins). -/
def inferTTL (ftype : String) (importance : ℚ) : String :=
  if ftype = "preference" then "permanent"
  else if importance ≥ 0.8 then "permanent"
  else if ftype = "error" || ftype = "procedure" then "hot"
  else if importance ≥ 0.5 then "warm"
  else "cold"

/-- Characters kept by the keyword splitter: JS `\w`, whitespace, and the
Hangul ranges `ㄱ-ㅎ` and `가-힣`; every other character becomes a space. -/
def keepKwCh (c : Char) : Bool :=
  c.isAlpha || c.isDigit || c = '_' || jsWsCh c ||
  (0x3131 ≤ c.toNat && c.toNat ≤ 0x314E) || (0xAC00 ≤ c.toNat && c.toNat ≤ 0xD7A3)

/-- Split a character list on whitespace runs (JS `split(/\s+/)`; the
possible leading empty piece is dropped later by the length filter either
way, so empty pieces are omitted here). -/
def splitWsGo : List Char → List Char → List (List Char)
  | acc, [] => if acc.isEmpty then [] else [acc.reverse]
  | acc, c :: rest =>
    if jsWsCh c then
      if acc.isEmpty then splitWsGo [] rest else acc.reverse :: splitWsGo [] rest
    else splitWsGo (c :: acc) rest

/-- The bilingual stopword set of `extractKeywords`. -/
def kwStopwords : List String :=
  ["이", "그", "저", "것", "수", "등", "및", "를", "을", "에",
   "의", "가", "는", "은", "도", "로", "와", "과", "한", "하",
   "the", "a", "an", "is", "are", "was", "were", "be", "been",
   "have", "has", "had", "do", "does", "did", "will", "would",
   "should", "could", "can", "may", "might", "this", "that",
   "with", "from", "for", "and", "but", "or", "not", "in",
   "on", "at", "to", "of", "it", "its", "by", "as"]

/-- Insertion-ordered frequency count (JS `Map` iteration order). -/
def bumpFreq (w : String) : List (String × ℕ) → List (String × ℕ)
  | [] => [(w, 1)]
  | (x, n) :: rest => if x = w then (x, n + 1) :: rest else (x, n) :: bumpFreq w rest

/-- `FragmentFactory.extractKeywords`: lowercase, strip non-word characters,
split, drop stopwords and one-character words, rank by term frequency
(stable, count descending), take the top `maxCount`. -/
def extractKeywords (text : String) (maxCount : ℕ := 5) : List String :=
  let cleaned := (jsLower text).toList.map (fun c => if keepKwCh c then c else ' ')
  let words := (splitWsGo [] cleaned).map String.mk
  let words := words.filter (fun w => jsLen w > 1 && !(kwStopwords.contains w))
  let freq := words.foldl (fun m w => bumpFreq w m) []
  ((stableSortBy (fun a b => a.2 > b.2) freq).take maxCount).map (·.1)

/-- Caller-supplied fields of `FragmentFactory.create` (absent JS arguments
are `none`; `isAnchor` already carries the `|| false` default). -/
structure CreateParams where
  content : String
  topic : Option String := none
  ftype : Option String := none
  keywords : Option (List String) := none
  importance : Option ℚ := none
  source : Option String := none
  linkedTo : Option (List String) := none
  agentId : Option String := none
  isAnchor : Bool := false
deriving Repr

/-- `FragmentFactory.create`: trim, redact, truncate to 300 characters with
an ellipsis, fill type/importance/keyword defaults, infer the tier and hash
the redacted truncated content.  `freshId` stands for the random
`frag-<16 hex>` id.  Fields the factory does not produce (counters,
timestamps, embedding) are given the database defaults; `FragmentStore.insert`
never reads them from the in-memory object. -/
def factoryCreate (env : Env) (freshId : String) (p : CreateParams) :
    Except String Fragment :=
  let rawContent := jsTrim p.content
  if rawContent = "" then .error "Fragment content is required" else
  let redacted := redactPII rawContent
  let truncated :=
    if jsLen redacted > 300 then jsTake 300 redacted ++ "..." else redacted
  let ftype := match p.ftype with
    | some t => if t = "" then "fact" else t
    | none => "fact"
  let importance := p.importance.getD (importanceWeightFor ftype)
  let keywords := match p.keywords with
    | some ks => if ks.isEmpty then extractKeywords truncated else ks.map jsLower
    | none => extractKeywords truncated
  .ok {
    fid := freshId
    content := truncated
    topic := (match p.topic with
      | some t => if t = "" then "general" else t
      | none => "general")
    keywords := keywords
    ftype := ftype
    importance := importance
    source := p.source
    linkedTo := p.linkedTo.getD []
    agentId := (match p.agentId with
      | some a => if a = "" then "default" else a
      | none => "default")
    accessCount := 0
    accessedAt := none
    createdAt := 0
    ttlTier := inferTTL ftype importance
    contentHash := env.hash truncated
    estimatedTokens := countTokens env truncated
    utilityScore := 1
    verifiedAt := none
    hasEmbedding := false
    isAnchor := p.isAnchor }

/-! ## FragmentStore

The RLS-aware `FragmentStore` class (the one the claims cite).  Every query
runs through `queryWithAgentVector(agentId, …)`, so reads and row-targeting
writes see only rows admitted by `visibleTo`.  Maintenance sweeps run as
`"system"` and see everything. -/

/-- `FragmentStore.getById` (RLS-scoped). -/
def storeGetById (id agentId : String) (db : DBState) : Option Fragment :=
  (db.fragments.filter (fun r => visibleTo agentId r.agentId && r.fid = id)).head?

/-- Comparator for `ORDER BY importance DESC, accessed_at DESC NULLS LAST`. -/
def ltImpAccessed (a b : Fragment) : Bool :=
  a.importance > b.importance ||
  (a.importance = b.importance &&
    (match a.accessedAt, b.accessedAt with
     | some x, some y => x > y
     | some _, none => true
     | none, _ => false))

/-- `FragmentStore.getByIds` (RLS-scoped, importance/recency ordered). -/
def storeGetByIds (ids : List String) (agentId : String) (db : DBState) :
    List Fragment :=
  if ids.isEmpty then []
  else stableSortBy ltImpAccessed
    (db.fragments.filter (fun r => visibleTo agentId r.agentId && ids.contains r.fid))

/-- `FragmentStore.insert`.  The duplicate pre-check is RLS-scoped; when it
finds a row the function returns that id immediately (the store is not
touched).  Otherwise the row is written; the global `UNIQUE (content_hash)`
index fires `ON CONFLICT (content_hash) DO UPDATE SET importance =
GREATEST(old, new), accessed_at = NOW()` when an (invisible) row already
holds the hash.  JS falsiness of `0` is preserved for `importance` and
`estimated_tokens`; the insert column list omits `is_anchor`, so the stored
row always gets the DDL default `FALSE`. -/
def storeInsert (env : Env) (frag : Fragment) (db : DBState) :
    String × DBState :=
  let agentId := if frag.agentId = "" then "default" else frag.agentId
  let contentHash := env.hash frag.content
  match (db.fragments.filter
      (fun r => visibleTo agentId r.agentId && r.contentHash = contentHash)).head? with
  | some dup => (dup.fid, db)
  | none =>
    let hasEmb := decide (frag.importance > 0.5) && env.openaiKey && env.embedOk
    let estTokens :=
      if frag.estimatedTokens = 0 then ceilDiv4 (jsLen frag.content)
      else frag.estimatedTokens
    match (db.fragments.filter (fun r => r.contentHash = contentHash)).head? with
    | some r =>
      let bumped := max r.importance (if frag.importance = 0 then 0.5 else frag.importance)
      (r.fid, { db with fragments := db.fragments.map (fun x =>
        if x.fid = r.fid then { x with importance := bumped, accessedAt := some env.now }
        else x) })
    | none =>
      let newRow : Fragment := {
        fid := frag.fid
        content := frag.content
        topic := frag.topic
        keywords := frag.keywords
        ftype := frag.ftype
        importance := if frag.importance = 0 then 0.5 else frag.importance
        contentHash := contentHash
        source := frag.source
        linkedTo := frag.linkedTo
        agentId := agentId
        accessCount := 0
        accessedAt := none
        createdAt := env.now
        ttlTier := if frag.ttlTier = "" then "warm" else frag.ttlTier
        estimatedTokens := estTokens
        utilityScore := 1
        verifiedAt := some env.now
        hasEmbedding := hasEmb
        isAnchor := false }
      (frag.fid, { db with fragments := db.fragments ++ [newRow] })

/-- `FragmentStore.archiveVersion`: snapshot the current row into
`fragment_versions`. -/
def archiveVersion (env : Env) (frag : Fragment) (agentId : String)
    (db : DBState) : DBState :=
  { db with versions := db.versions ++
      [{ fragmentId := frag.fid, content := frag.content, topic := frag.topic,
         keywords := frag.keywords, ftype := frag.ftype,
         importance := frag.importance, amendedAt := env.now,
         amendedBy := agentId }] }

/-- Caller-supplied patch of `FragmentStore.update` (`undefined` = `none`). -/
structure UpdatePatch where
  content : Option String := none
  topic : Option String := none
  keywords : Option (List String) := none
  ftype : Option String := none
  importance : Option ℚ := none
  isAnchor : Option Bool := none
deriving Repr

/-- Result of `FragmentStore.update`. -/
inductive UpdateOutcome
  | notFound
  | merged (existingId : String)
  | unchanged (row : Fragment)
  | applied (row : Option Fragment)
deriving DecidableEq, Repr

/-- Whether the patch sets no column at all (empty `setClauses`). -/
def patchIsEmpty (u : UpdatePatch) : Bool :=
  u.content.isNone && u.topic.isNone && u.keywords.isNone && u.ftype.isNone &&
  u.importance.isNone && u.isAnchor.isNone

/-- The `SET` clauses of `FragmentStore.update` applied to one row (all
values are bind parameters, so every targeted row receives the same patch);
a content change rewrites the hash and nulls the embedding, and any change
bumps `verified_at` and `accessed_at`. -/
def applyPatch (env : Env) (u : UpdatePatch) (r : Fragment) : Fragment :=
  let r := match u.content with
    | some c => { r with content := c, contentHash := env.hash c, hasEmbedding := false }
    | none => r
  let r := match u.topic with
    | some t => { r with topic := t } | none => r
  let r := match u.keywords with
    | some ks => { r with keywords := ks } | none => r
  let r := match u.ftype with
    | some t => { r with ftype := t } | none => r
  let r := match u.importance with
    | some i => { r with importance := i } | none => r
  let r := match u.isAnchor with
    | some a => { r with isAnchor := a } | none => r
  { r with verifiedAt := some env.now, accessedAt := some env.now }

/-- `FragmentStore.update` (the claims' version): fetch, archive the
pre-amendment state, then — only on a content change — check the new hash
against other visible rows and bail out with `{merged, existingId}`; note the
archive precedes that check.  Otherwise apply the patch under RLS. -/
def storeUpdate (env : Env) (id : String) (u : UpdatePatch) (agentId : String)
    (db : DBState) : UpdateOutcome × DBState :=
  match storeGetById id agentId db with
  | none => (.notFound, db)
  | some existing =>
    let db := archiveVersion env existing agentId db
    let mergedWith : Option String :=
      match u.content with
      | some c =>
        ((db.fragments.filter (fun r =>
            visibleTo agentId r.agentId && r.contentHash = env.hash c &&
            r.fid ≠ id)).head?).map (·.fid)
      | none => none
    match mergedWith with
    | some existingId => (.merged existingId, db)
    | none =>
      if patchIsEmpty u then (.unchanged existing, db)
      else
        let frags := db.fragments.map (fun r =>
          if visibleTo agentId r.agentId && r.fid = id then applyPatch env u r else r)
        let db := { db with fragments := frags }
        (.applied ((frags.filter (fun r =>
            visibleTo agentId r.agentId && r.fid = id)).head?), db)

/-- The effective `FragmentStore.delete`.  The class body defines `delete`
twice; under JS semantics the later definition wins, and it only issues
`DELETE FROM fragments WHERE id = $1` under RLS.  The earlier definition
(which also pruned `linked_to` arrays) is dead code.  Edge and version rows
still disappear through the DDL's `ON DELETE CASCADE`; no `linked_to` array
is touched. -/
def storeDelete (id agentId : String) (db : DBState) : Bool × DBState :=
  let hit := db.fragments.any (fun r => visibleTo agentId r.agentId && r.fid = id)
  if hit then
    (true,
     { fragments := db.fragments.filter (fun r =>
         !(visibleTo agentId r.agentId && r.fid = id)),
       links := db.links.filter (fun l => l.fromId ≠ id && l.toId ≠ id),
       versions := db.versions.filter (fun v => v.fragmentId ≠ id) })
  else (false, db)

/-- The CHECK constraint of `fragment_links.relation_type`. -/
def allowedRelationTypes : List String :=
  ["related", "caused_by", "resolved_by", "part_of", "contradicts", "superseded_by"]

/-- `FragmentStore.createLink`: upsert the edge on the unique ordered pair
(`ON CONFLICT (from_id, to_id) DO UPDATE SET relation_type`), then maintain
both `linked_to` mirrors idempotently (RLS-scoped updates).  The foreign
keys require both endpoints to exist, and the CHECK constraint restricts the
relation type; a violation fails the statement leaving the store unchanged
(callers catch the error). -/
def createLink (fromId toId relationType agentId : String) (db : DBState) :
    DBState :=
  if db.fragments.any (·.fid = fromId) && db.fragments.any (·.fid = toId) &&
     allowedRelationTypes.contains relationType then
    let links :=
      if db.links.any (fun l => l.fromId = fromId && l.toId = toId) then
        db.links.map (fun l =>
          if l.fromId = fromId && l.toId = toId then { l with relationType } else l)
      else db.links ++ [({ fromId, toId, relationType } : Link)]
    let frags := db.fragments.map (fun r =>
      if visibleTo agentId r.agentId && r.fid = fromId && !(r.linkedTo.contains toId)
      then { r with linkedTo := r.linkedTo ++ [toId] } else r)
    let frags := frags.map (fun r =>
      if visibleTo agentId r.agentId && r.fid = toId && !(r.linkedTo.contains fromId)
      then { r with linkedTo := r.linkedTo ++ [fromId] } else r)
    { fragments := frags, links := links, versions := db.versions }
  else db

/-- Options of `FragmentStore.searchByKeywords` (JS falsiness preserved:
`type`/`topic` conditions are added for non-empty strings, `minImportance`
for non-zero values, `limit || 20`). -/
structure KwSearchOpts where
  ftype : Option String := none
  topic : Option String := none
  minImportance : Option ℚ := none
  isAnchor : Option Bool := none
  limit : Option ℕ := none
  agentId : Option String := none
deriving Repr

/-- Comparator for `ORDER BY importance DESC, created_at DESC`. -/
def ltImpCreated (a b : Fragment) : Bool :=
  a.importance > b.importance ||
  (a.importance = b.importance && a.createdAt > b.createdAt)

/-- Whether a row is the source of a `superseded_by` edge (such rows are
excluded from both durable searches). -/
def isSupersededSource (db : DBState) (fid : String) : Bool :=
  db.links.any (fun l => l.fromId = fid && l.relationType = "superseded_by")

/-- `FragmentStore.searchByKeywords`: GIN array-overlap (`keywords && $1`)
plus optional predicates, excluding superseded sources. -/
def storeSearchByKeywords (keywords : List String) (o : KwSearchOpts)
    (db : DBState) : List Fragment :=
  let agentId := match o.agentId with
    | some a => if a = "" then "default" else a
    | none => "default"
  let passes := fun (r : Fragment) =>
    visibleTo agentId r.agentId &&
    r.keywords.any (fun k => keywords.contains k) &&
    (match o.ftype with | some t => if t = "" then true else r.ftype = t | none => true) &&
    (match o.topic with | some t => if t = "" then true else r.topic = t | none => true) &&
    (match o.minImportance with
     | some m => if m = 0 then true else decide (r.importance ≥ m)
     | none => true) &&
    (match o.isAnchor with | some a => r.isAnchor = a | none => true) &&
    !(isSupersededSource db r.fid)
  let limit := match o.limit with
    | some n => if n = 0 then 20 else n
    | none => 20
  (stableSortBy ltImpCreated (db.fragments.filter passes)).take limit

/-- `FragmentStore.searchBySemantic`: cosine similarity of the query
embedding (`env.qsim queryText`) over embedded rows, similarity floor,
superseded-source exclusion, ascending-distance order, limit. -/
def storeSearchBySemantic (env : Env) (queryText : String) (limit : ℕ)
    (minSimilarity : ℚ) (agentId : String) (db : DBState) :
    List (Fragment × ℚ) :=
  let rows := db.fragments.filter (fun r =>
    visibleTo agentId r.agentId && r.hasEmbedding &&
    decide (env.qsim queryText r.fid ≥ minSimilarity) &&
    !(isSupersededSource db r.fid))
  let sorted := stableSortBy
    (fun (a b : Fragment) => env.qsim queryText a.fid > env.qsim queryText b.fid) rows
  (sorted.take limit).map (fun r => (r, env.qsim queryText r.fid))

/-- `FragmentStore.incrementAccess` (batched, RLS-scoped). -/
def incrementAccess (env : Env) (ids : List String) (agentId : String)
    (db : DBState) : DBState :=
  if ids.isEmpty then db
  else { db with fragments := db.fragments.map (fun r =>
    if visibleTo agentId r.agentId && ids.contains r.fid then
      { r with accessCount := r.accessCount + 1, accessedAt := some env.now }
    else r) }

/-- Eviction predicate of `FragmentStore.deleteExpired`.  Note
`array_length(linked_to, 1)` is `NULL` for an empty array, so the two array
conditions demand a non-empty `linked_to` of length < 2. -/
def isExpiredRow (now : ℤ) (r : Fragment) : Bool :=
  r.importance < 0.1 && r.ttlTier ≠ "permanent" && r.isAnchor = false &&
  (match r.accessedAt with
   | none => true
   | some t => t < now - 90 * dayMs) &&
  r.createdAt < now - 90 * dayMs &&
  !r.linkedTo.isEmpty && r.linkedTo.length < 2

/-- `FragmentStore.deleteExpired` (runs as `system`); edge and version rows
of the removed fragments disappear through `ON DELETE CASCADE`. -/
def deleteExpired (env : Env) (db : DBState) : ℕ × DBState :=
  let victims := (db.fragments.filter (isExpiredRow env.now)).map (·.fid)
  (victims.length,
   { fragments := db.fragments.filter (fun r => !(isExpiredRow env.now r)),
     links := db.links.filter (fun l =>
       !(victims.contains l.fromId) && !(victims.contains l.toId)),
     versions := db.versions.filter (fun v => !(victims.contains v.fragmentId)) })

/-- `FragmentStore.decayImportance`: 0.5 % daily decay for non-permanent,
non-preference, non-anchor rows inactive for at least one day. -/
def decayImportance (env : Env) (db : DBState) : DBState :=
  { db with fragments := db.fragments.map (fun r =>
    if r.ttlTier ≠ "permanent" && r.ftype ≠ "preference" && r.isAnchor = false &&
       (match r.accessedAt with
        | none => true
        | some t => t < env.now - dayMs) then
      { r with importance := r.importance * 0.995 }
    else r) }

/-- `FragmentStore.transitionTTL`: three promotion sweeps then the
warm→cold demotion, exactly in source order.  None of the four statements
filters on `is_anchor`. -/
def transitionTTL (env : Env) (db : DBState) : DBState :=
  let s1 := db.fragments.map (fun r =>
    if r.ftype = "preference" && r.ttlTier ≠ "permanent"
    then { r with ttlTier := "permanent" } else r)
  let s2 := s1.map (fun r =>
    if r.linkedTo.length ≥ 5 && r.ttlTier ≠ "permanent"
    then { r with ttlTier := "permanent" } else r)
  let s3 := s2.map (fun r =>
    if r.importance ≥ 0.8 && r.ttlTier ≠ "permanent"
    then { r with ttlTier := "permanent" } else r)
  let s4 := s3.map (fun r =>
    if r.ttlTier = "warm" &&
       (r.importance < 0.3 ||
        (match r.accessedAt with
         | none => r.createdAt < env.now - 30 * dayMs
         | some t => t < env.now - 30 * dayMs)) then
      { r with ttlTier := "cold" } else r)
  { db with fragments := s4 }

/-- `FragmentStore.generateMissingEmbeddings`: top-`batchSize` embedding-less
rows of importance > 0.5, backfilled one by one when the provider works. -/
def generateMissingEmbeddings (env : Env) (batchSize : ℕ) (db : DBState) :
    ℕ × DBState :=
  if !env.openaiKey then (0, db)
  else
    let rows := (stableSortBy (fun (a b : Fragment) => a.importance > b.importance)
      (db.fragments.filter (fun r => !r.hasEmbedding && r.importance > 0.5))).take
      batchSize
    if env.embedOk then
      let ids := rows.map (·.fid)
      (rows.length, { db with fragments := db.fragments.map (fun r =>
        if ids.contains r.fid then { r with hasEmbedding := true } else r) })
    else (0, db)

/-! ## Redis layer (`FragmentIndex`)

All operations are guarded by the client-ready flag and are no-ops when the
in-memory store is unreachable.  Redis sets are modelled as insertion-ordered
duplicate-free lists (set-command output order is a determinization; every
claim below exercises this layer only with the store unreachable or through
membership). -/

/-- A search-result record (the JS objects flowing through
`FragmentSearch`/`recall`: a fragment row plus the optional `similarity`
field injected by L3, the `relation_type` of link-expanded rows, and the
`metadata.stale` annotation). -/
structure Hit where
  frag : Fragment
  similarity : Option ℚ := none
  relationType : Option String := none
  stale : Bool := false
deriving DecidableEq, Repr

/-- A working-memory entry (`frag:wm:<session>` list element). -/
structure WMEntry where
  wid : String
  content : String
  ftype : String
  topic : String
  importance : ℚ
  estimatedTokens : ℕ
  addedAt : ℤ
deriving DecidableEq, Repr

/-- A `memory_evaluation` queue element. -/
structure EvalJob where
  fragmentId : String
  agentId : String
  ftype : String
  content : String
deriving DecidableEq, Repr

/-- A `frag:pending_contradictions` queue element. -/
structure PendingEntry where
  idA : String
  idB : String
  contentA : String
  contentB : String
deriving DecidableEq, Repr

/-- The in-memory store: the `frag:*` keyspaces plus the two queues and the
consolidation watermark key. -/
structure RedisState where
  ready : Bool
  kwSets : List (String × List String)
  topicSets : List (String × List String)
  typeSets : List (String × List String)
  recent : List (String × ℤ)
  hotCache : List (String × Hit)
  sessSets : List (String × List String)
  wm : List (String × List WMEntry)
  evalQueue : List EvalJob
  pendingContradictions : List PendingEntry
  contradictionCheckAt : Option ℤ
deriving DecidableEq, Repr

/-- Association-list read. -/
def alGet (k : String) (m : List (String × α)) : Option α :=
  (m.find? (·.1 = k)).map (·.2)

/-- `SADD`: insert into the set at `k` (created on demand). -/
def saddL (k id : String) : List (String × List String) → List (String × List String)
  | [] => [(k, [id])]
  | (x, s) :: rest =>
    if x = k then (x, if s.contains id then s else s ++ [id]) :: rest
    else (x, s) :: saddL k id rest

/-- `SREM`. -/
def sremL (k id : String) (m : List (String × List String)) :
    List (String × List String) :=
  m.map (fun (x, s) => if x = k then (x, s.filter (· ≠ id)) else (x, s))

/-- `ZADD` on the `recent` ordering. -/
def zaddL (id : String) (score : ℤ) : List (String × ℤ) → List (String × ℤ)
  | [] => [(id, score)]
  | (x, s) :: rest =>
    if x = id then (x, score) :: rest else (x, s) :: zaddL id score rest

/-- `FragmentIndex.index`: register a fragment in the keyword/topic/type
sets, the recency ordering and (optionally) the session set. -/
def indexFragment (env : Env) (frag : Fragment) (sessionId : Option String)
    (rd : RedisState) : RedisState :=
  if !rd.ready then rd
  else
    let kws := frag.keywords.foldl (fun m kw => saddL (jsLower kw) frag.fid m) rd.kwSets
    let rd := { rd with kwSets := kws }
    let rd := { rd with topicSets := saddL frag.topic frag.fid rd.topicSets }
    let rd := { rd with typeSets := saddL frag.ftype frag.fid rd.typeSets }
    let rd := { rd with recent := zaddL frag.fid env.now rd.recent }
    match sessionId with
    | some sid =>
      if sid ≠ "" then { rd with sessSets := saddL sid frag.fid rd.sessSets } else rd
    | none => rd

/-- `FragmentIndex.deindex`. -/
def deindexFragment (fid : String) (keywords : List String)
    (topic ftype : String) (rd : RedisState) : RedisState :=
  if !rd.ready then rd
  else
    let kws := keywords.foldl (fun m kw => sremL (jsLower kw) fid m) rd.kwSets
    let rd := { rd with kwSets := kws }
    let rd := if topic ≠ "" then { rd with topicSets := sremL topic fid rd.topicSets } else rd
    let rd := if ftype ≠ "" then { rd with typeSets := sremL ftype fid rd.typeSets } else rd
    { rd with recent := rd.recent.filter (·.1 ≠ fid),
              hotCache := rd.hotCache.filter (·.1 ≠ fid) }

/-- `FragmentIndex.searchByKeywords` (L1): set intersection first (ordered by
the first set), union fallback when fewer than `minResults` ids came back and
at least two keys were given. -/
def l1SearchByKeywords (keywords : List String) (minResults : ℕ)
    (rd : RedisState) : List String :=
  if !rd.ready || keywords.isEmpty then []
  else
    let sets := keywords.map (fun kw => (alGet (jsLower kw) rd.kwSets).getD [])
    let inter := match sets with
      | [] => []
      | s :: rest => s.filter (fun id => rest.all (·.contains id))
    if inter.length < minResults && keywords.length > 1 then
      (sets.foldl (· ++ ·) []).eraseDups
    else inter

/-- `FragmentIndex.searchByTopic`. -/
def l1SearchByTopic (topic : String) (rd : RedisState) : List String :=
  if !rd.ready then [] else (alGet topic rd.topicSets).getD []

/-- `FragmentIndex.searchByType`. -/
def l1SearchByType (ftype : String) (rd : RedisState) : List String :=
  if !rd.ready then [] else (alGet ftype rd.typeSets).getD []

/-- `FragmentIndex.getRecent` (`ZREVRANGE 0 count-1`). -/
def l1GetRecent (count : ℕ) (rd : RedisState) : List String :=
  if !rd.ready then []
  else ((stableSortBy (fun (a b : String × ℤ) => a.2 > b.2) rd.recent).take count).map (·.1)

/-- `FragmentIndex.cacheFragment` (hot cache write). -/
def cacheFragment (fid : String) (h : Hit) (rd : RedisState) : RedisState :=
  if !rd.ready then rd
  else { rd with hotCache := (rd.hotCache.filter (·.1 ≠ fid)) ++ [(fid, h)] }

/-- `FragmentIndex.getCachedFragment`. -/
def getCachedFragment (fid : String) (rd : RedisState) : Option Hit :=
  if !rd.ready then none else alGet fid rd.hotCache

/-- `FragmentIndex._enforceWmBudget`, including the source's removal rule:
the scan skips protected entries (importance > 0.8) while subtracting the
others until the total fits, but the rebuild drops exactly the unprotected
entries among the first `removed` positions. -/
def enforceWmBudget (parsed : List WMEntry) : List WMEntry :=
  let totalToks := (parsed.map (·.estimatedTokens)).sum
  if totalToks ≤ 500 then parsed
  else
    let removed := countRemoved parsed totalToks
    if removed > 0 then
      (parsed.enum.filter (fun (i, p) =>
        !(i < removed && p.importance ≤ 0.8))).map (·.2)
    else parsed
where
  /-- The scan loop: walk entries in order while the running total exceeds
  the ceiling, skipping protected entries and counting the rest. -/
  countRemoved : List WMEntry → ℕ → ℕ
    | [], _ => 0
    | p :: rest, tot =>
      if tot ≤ 500 then 0
      else if p.importance > 0.8 then countRemoved rest tot
      else countRemoved rest (tot - p.estimatedTokens) + 1

/-- `FragmentIndex.addToWorkingMemory`: append the entry (JS falsiness of a
zero importance/token count preserved) and enforce the budget. -/
def addToWorkingMemory (env : Env) (sessionId : String) (frag : Fragment)
    (rd : RedisState) : RedisState :=
  if !rd.ready || sessionId = "" then rd
  else
    let entry : WMEntry := {
      wid := frag.fid
      content := frag.content
      ftype := frag.ftype
      topic := frag.topic
      importance := if frag.importance = 0 then 0.5 else frag.importance
      estimatedTokens :=
        if frag.estimatedTokens = 0 then ceilDiv4 (jsLen frag.content)
        else frag.estimatedTokens
      addedAt := env.now }
    let cur := (alGet sessionId rd.wm).getD []
    let rebuilt := enforceWmBudget (cur ++ [entry])
    { rd with wm := (rd.wm.filter (·.1 ≠ sessionId)) ++ [(sessionId, rebuilt)] }

/-- `FragmentIndex.getWorkingMemory`. -/
def getWorkingMemory (sessionId : String) (rd : RedisState) : List WMEntry :=
  if !rd.ready || sessionId = "" then [] else (alGet sessionId rd.wm).getD []

/-- `FragmentIndex.clearWorkingMemory`. -/
def clearWorkingMemory (sessionId : String) (rd : RedisState) : RedisState :=
  if !rd.ready || sessionId = "" then rd
  else { rd with wm := rd.wm.filter (·.1 ≠ sessionId) }

/-- `FragmentIndex.pruneKeywordIndexes`: any keyword set above the cap loses
`size − 1000` members chosen by `SRANDMEMBER` (the environment's sampler). -/
def pruneKeywordIndexes (env : Env) (rd : RedisState) : RedisState :=
  if !rd.ready then rd
  else { rd with kwSets := rd.kwSets.map (fun (k, s) =>
    if s.length > 1000 then
      (k, s.filter (fun id => !((env.sample s (s.length - 1000)).contains id)))
    else (k, s)) }

/-- Modelled from the spec: `redis.js` (and with it `pushToQueue`) is not
under `src/`; §5 describes the evaluation queue as a FIFO durable list in
the in-memory store written best-effort, so the job is appended when the
store is reachable and dropped otherwise. -/
def pushToQueue (job : EvalJob) (rd : RedisState) : RedisState :=
  if !rd.ready then rd else { rd with evalQueue := rd.evalQueue ++ [job] }

/-! ## FragmentSearch (the three-tier cascade) -/

/-- `MEMORY_CONFIG.ranking` and friends (`config/memory.js`). -/
def activationThreshold : ℕ := 100

/-- `MEMORY_CONFIG.ranking.importanceWeight`. -/
def importanceWeightCfg : ℚ := 0.6

/-- `MEMORY_CONFIG.ranking.recencyWeight`. -/
def recencyWeightCfg : ℚ := 0.4

/-- `MEMORY_CONFIG.linkedFragmentLimit`. -/
def linkedFragmentLimit : ℕ := 10

/-- `MEMORY_CONFIG.staleThresholds` (days), with the `?? default` lookup. -/
def staleThresholdFor (ftype : String) : ℕ :=
  if ftype = "procedure" then 30
  else if ftype = "fact" then 60
  else if ftype = "decision" then 90
  else 60

/-- Query parameters of `FragmentSearch.search`. -/
structure SearchQuery where
  keywords : List String := []
  topic : Option String := none
  ftype : Option String := none
  text : Option String := none
  tokenBudget : Option ℕ := none
  minImportance : Option ℚ := none
  fragmentCount : ℕ := 0
deriving Repr

/-- Result shape `{ fragments, totalTokens, searchPath, count }` (the path is
kept as its stage list rather than the joined display string). -/
structure SearchResult where
  fragments : List Hit
  totalTokens : ℕ
  searchPath : List String
  count : ℕ
deriving Repr

/-- `FragmentSearch._searchL1`: build the candidate sets for the supplied
filters and intersect them; with no filter at all fall back to the recency
ordering (top 20). -/
def searchL1 (q : SearchQuery) (rd : RedisState) : List String :=
  let sets : List (List String) :=
    (if !q.keywords.isEmpty then [l1SearchByKeywords q.keywords 3 rd] else []) ++
    (match q.topic with
     | some t => if t ≠ "" then [l1SearchByTopic t rd] else []
     | none => []) ++
    (match q.ftype with
     | some t => if t ≠ "" then [l1SearchByType t rd] else []
     | none => [])
  match sets with
  | [] => l1GetRecent 20 rd
  | [s] => s
  | s :: rest => s.filter (fun id => rest.all (·.contains id))

/-- `FragmentSearch._tryHotCache`: fetch up to 30 ids from the hot cache,
keeping entries that carry a non-empty content. -/
def tryHotCache (ids : List String) (rd : RedisState) : List Hit :=
  (ids.take 30).filterMap (fun id =>
    match getCachedFragment id rd with
    | some h => if h.frag.content ≠ "" then some h else none
    | none => none)

/-- `FragmentSearch._searchL2`: durable keyword search (limit 30,
`minImportance || 0.1`) plus id-fetch of L1 ids that were not materialised;
`FragmentSearch` passes no agent, so the store defaults to the `default`
scope. -/
def searchL2 (q : SearchQuery) (excludeIds : List String) (db : DBState) :
    List Fragment :=
  let opts : KwSearchOpts := {
    ftype := q.ftype
    topic := q.topic
    minImportance := some (match q.minImportance with
      | some m => if m = 0 then 0.1 else m
      | none => 0.1)
    limit := some 30 }
  let results := if !q.keywords.isEmpty
    then storeSearchByKeywords q.keywords opts db else []
  if !excludeIds.isEmpty then
    let got := results.map (·.fid)
    let missing := excludeIds.filter (fun id => !got.contains id)
    if !missing.isEmpty then results ++ storeGetByIds missing "default" db
    else results
  else results

/-- `FragmentSearch._searchL3`: embed the query text and run the cosine
search (`limit 10`, `minSim 0.3`); any provider failure degrades to an empty
result. -/
def searchL3 (env : Env) (text : String) (db : DBState) : List Hit :=
  if !env.embedOk then []
  else (storeSearchBySemantic env text 10 0.3 "default" db).map
    (fun (f, s) => { frag := f, similarity := some s })

/-- `FragmentSearch._computeRankScore`. -/
def computeRankScore (env : Env) (f : Fragment) : ℚ :=
  let ageDays : ℚ := ((env.now - f.createdAt : ℤ) : ℚ) / 86400000
  let recency := max 0 (1 - ageDays / 90)
  f.importance * importanceWeightCfg + recency * recencyWeightCfg

/-- JS truthiness of an optional similarity (`undefined` and `0` are falsy). -/
def truthySim : Option ℚ → Bool
  | none => false
  | some q => q ≠ 0

/-- One step of `_deduplicate`'s map building: keep the first occurrence
unless the newcomer carries a (truthy) higher similarity. -/
def dedupStep (h : Hit) : List Hit → List Hit
  | [] => [h]
  | x :: xs =>
    if x.frag.fid = h.frag.fid then
      (if truthySim h.similarity &&
          (!truthySim x.similarity || h.similarity.getD 0 > x.similarity.getD 0)
       then h else x) :: xs
    else x :: dedupStep h xs

/-- `FragmentSearch._deduplicate`: id-based dedup preferring the variant with
the higher similarity, then composite ranking when the store size reaches the
activation threshold and plain importance ordering otherwise. -/
def deduplicateHits (env : Env) (hits : List Hit) (fragmentCount : ℕ) :
    List Hit :=
  let uniq := hits.foldl (fun acc h => dedupStep h acc) []
  if fragmentCount ≥ activationThreshold then
    stableSortBy (fun a b => computeRankScore env a.frag > computeRankScore env b.frag) uniq
  else
    stableSortBy (fun a b => a.frag.importance > b.frag.importance) uniq

/-- `FragmentSearch._trimToTokenBudget`: accumulate in rank order against a
character budget of `4 · tokenBudget`, stopping at the first fragment whose
content length would overflow it.  The charge is the content length — not
the stored `estimated_tokens`. -/
def trimToTokenBudget (hits : List Hit) (tokenBudget : ℕ) : List Hit :=
  go hits 0
where
  go : List Hit → ℕ → List Hit
    | [], _ => []
    | h :: rest, used =>
      let cost := jsLen h.frag.content
      if used + cost > tokenBudget * 4 then []
      else h :: go rest (used + cost)

/-- `FragmentSearch._estimateTokens`: `ceil(total characters / 4)`. -/
def estimateTokens (hits : List Hit) : ℕ :=
  ceilDiv4 ((hits.map (fun h => jsLen h.frag.content)).sum)

/-- `FragmentSearch.search`: the L1→L2→L3 cascade, dedup + ranking, token
trim, then the post-retrieval side effects (access-count bump as the
`default` scope, hot-cache repopulation). -/
def fragmentSearch (env : Env) (q : SearchQuery) (db : DBState)
    (rd : RedisState) : SearchResult × DBState × RedisState :=
  let tokenBudget := match q.tokenBudget with
    | some n => if n = 0 then 1000 else n
    | none => 1000
  let l1Ids := searchL1 q rd
  let path := if !l1Ids.isEmpty then ["L1:" ++ toString l1Ids.length] else []
  let cached := if !l1Ids.isEmpty then tryHotCache l1Ids rd else []
  let path := path ++
    (if !l1Ids.isEmpty && !cached.isEmpty then ["HotCache:" ++ toString cached.length] else [])
  let candidates := cached
  let l2 := if candidates.length < 3 then searchL2 q l1Ids db else []
  let path := path ++ (if candidates.length < 3 && !l2.isEmpty then ["L2:" ++ toString l2.length] else [])
  let candidates := candidates ++ l2.map (fun f => ({ frag := f } : Hit))
  let l3 := if candidates.length < 3 && q.text.isSome && (q.text.getD "") ≠ "" && env.openaiKey
    then searchL3 env (q.text.getD "") db else []
  let path := path ++
    (if candidates.length < 3 && q.text.isSome && (q.text.getD "") ≠ "" && env.openaiKey && !l3.isEmpty
     then ["L3:" ++ toString l3.length] else [])
  let candidates := candidates ++ l3
  let unique := deduplicateHits env candidates q.fragmentCount
  let trimmed := trimToTokenBudget unique tokenBudget
  let totalTokens := estimateTokens trimmed
  let db := if !trimmed.isEmpty
    then incrementAccess env (trimmed.map (·.frag.fid)) "default" db else db
  let rd := if !trimmed.isEmpty
    then trimmed.foldl (fun rd h => cacheFragment h.frag.fid h rd) rd else rd
  ({ fragments := trimmed, totalTokens := totalTokens, searchPath := path,
     count := trimmed.length }, db, rd)

/-! ## MemoryManager helpers -/

/-- JS `opt || dflt` on optional strings (`undefined` and `""` are falsy). -/
def jsStrOr (o : Option String) (d : String) : String :=
  match o with
  | some s => if s = "" then d else s
  | none => d

/-- JS `opt || dflt` on optional counts. -/
def jsNatOr (o : Option ℕ) (d : ℕ) : ℕ :=
  match o with
  | some n => if n = 0 then d else n
  | none => d

/-- JS truthiness of an optional string. -/
def jsTruthyStr : Option String → Bool
  | some s => s ≠ ""
  | none => false

/-- `pattern` occurs at the head of `l`. -/
def subAt : List Char → List Char → Bool
  | [], _ => true
  | _ :: _, [] => false
  | p :: ps, c :: cs => p = c && subAt ps cs

/-- JS `String.includes`. -/
def containsSub (hay pat : String) : Bool :=
  go hay.toList
where
  go : List Char → Bool
    | [] => subAt pat.toList []
    | l@(_ :: rest) => subAt pat.toList l || go rest

/-- `FragmentStore.getLinkedFragments`: whitelist the relation filter, join
edges whose source is among `fromIds` to their (visible) target rows,
`SELECT DISTINCT`, order by relation priority (`resolved_by` < `caused_by` <
other) then importance, cap at `linkedFragmentLimit`. -/
def getLinkedFragments (fromIds : List String) (relationType : Option String)
    (agentId : String) (db : DBState) : List (Fragment × String) :=
  if fromIds.isEmpty then []
  else
    let safe : Option String := match relationType with
      | some rt =>
        if rt ≠ "" && allowedRelationTypes.contains rt then some rt else none
      | none => none
    let rows := db.links.filterMap (fun l =>
      if fromIds.contains l.fromId &&
         (match safe with
          | some rt => l.relationType = rt
          | none => ["caused_by", "resolved_by", "related"].contains l.relationType)
      then
        match db.fragments.find? (fun f =>
          visibleTo agentId f.agentId && f.fid = l.toId) with
        | some f => some (f, l.relationType)
        | none => none
      else none)
    let prio := fun (rt : String) =>
      if rt = "resolved_by" then (1 : ℕ) else if rt = "caused_by" then 2 else 3
    (stableSortBy (fun (a b : Fragment × String) =>
        prio a.2 < prio b.2 ||
        (prio a.2 = prio b.2 && a.1.importance > b.1.importance))
      (firstDedupBy id rows)).take linkedFragmentLimit

/-- One conflict warning of `_detectConflicts`. -/
structure Conflict where
  existingId : String
  existingContent : String
  similarity : ℚ
deriving DecidableEq, Repr

/-- `MemoryManager._detectConflicts`: run the cascade with the new content as
query text (token budget 500) and flag hits other than the new row whose
(L3-injected) similarity exceeds 0.8; rows without a similarity count as 0.
The method signature takes no agent, so the search runs in the default
scope. -/
def detectConflicts (env : Env) (content topic newId : String) (db : DBState)
    (rd : RedisState) : List Conflict × DBState × RedisState :=
  let (res, db, rd) := fragmentSearch env
    { text := some content, topic := some topic, tokenBudget := some 500 } db rd
  (res.fragments.filterMap (fun h =>
    if h.frag.fid = newId then none
    else
      let s := h.similarity.getD 0
      if s > 0.8 then
        some { existingId := h.frag.fid,
               existingContent := jsTake 100 h.frag.content, similarity := s }
      else none), db, rd)

/-- `MemoryManager._autoLinkOnRemember`: skip when the freshly stored row has
no embedding; otherwise take up to three same-topic peers with cosine
similarity > 0.7 and link each to the new row — `resolved_by` for an
error-resolution pair, `superseded_by` for a same-type near-duplicate when
the new row is newer (the in-memory fragment has no `created_at`, so JS
takes `Date.now()`), else `related`. -/
def autoLinkOnRemember (env : Env) (newFragment : Fragment) (agentId : String)
    (db : DBState) : DBState :=
  let hasEmb := db.fragments.any (fun r =>
    visibleTo agentId r.agentId && r.fid = newFragment.fid && r.hasEmbedding)
  if !hasEmb then db
  else
    let cands := (stableSortBy
      (fun (a b : Fragment) =>
        env.sim newFragment.fid a.fid > env.sim newFragment.fid b.fid)
      (db.fragments.filter (fun c =>
        visibleTo agentId c.agentId && c.fid ≠ newFragment.fid &&
        c.topic = newFragment.topic && c.hasEmbedding &&
        decide (env.sim newFragment.fid c.fid > 0.7)))).take 3
    cands.foldl (fun db existing =>
      let similarity := env.sim newFragment.fid existing.fid
      let rel1 :=
        if newFragment.ftype = "error" && existing.ftype = "error" &&
           (containsSub newFragment.content "[해결됨]" ||
            containsSub newFragment.content "resolved")
        then "resolved_by" else "related"
      let rel :=
        if newFragment.ftype = existing.ftype && similarity > 0.85 &&
           env.now > existing.createdAt
        then "superseded_by" else rel1
      createLink existing.fid newFragment.fid rel agentId db) db

/-! ## MemoryManager.remember -/

/-- Parameters of `remember`. -/
structure RememberParams where
  content : String
  topic : Option String := none
  ftype : Option String := none
  keywords : Option (List String) := none
  importance : Option ℚ := none
  source : Option String := none
  linkedTo : Option (List String) := none
  agentId : Option String := none
  isAnchor : Bool := false
  sessionId : Option String := none
  scope : Option String := none
deriving Repr

/-- The factory arguments `remember` forwards (the durable branch spreads
`isAnchor: params.isAnchor || false`, which equals the parameter itself). -/
def toCreateParams (p : RememberParams) : CreateParams :=
  { content := p.content, topic := p.topic, ftype := p.ftype,
    keywords := p.keywords, importance := p.importance, source := p.source,
    linkedTo := p.linkedTo, agentId := p.agentId, isAnchor := p.isAnchor }

/-- Return shape of `remember`. -/
structure RememberOutcome where
  rid : String
  keywords : List String
  ttlTier : String
  scope : String
  conflicts : List Conflict
deriving DecidableEq, Repr

/-- The durable branch of `remember` (everything after the working-memory
guard; the source never reads `scope` inside it): create, force the agent
id, insert, index, link the supplied ids, scan for conflicts, auto-link,
enqueue evaluation unless the type is excluded. -/
def rememberPermanent (env : Env) (freshId : String) (p : RememberParams)
    (db : DBState) (rd : RedisState) :
    Except String (RememberOutcome × DBState × RedisState) :=
  let agentId := jsStrOr p.agentId "default"
  match factoryCreate env freshId (toCreateParams p) with
  | .error e => .error e
  | .ok fragment0 =>
    let fragment := { fragment0 with agentId := agentId }
    let (id, db) := storeInsert env fragment db
    let rd := indexFragment env { fragment with fid := id } p.sessionId rd
    let db := fragment.linkedTo.foldl
      (fun db linkId => createLink id linkId "related" agentId db) db
    let (conflicts, db, rd) := detectConflicts env fragment.content fragment.topic id db rd
    let db := autoLinkOnRemember env { fragment with fid := id } agentId db
    let rd :=
      if !(["fact", "procedure", "error"].contains fragment.ftype) then
        pushToQueue { fragmentId := id, agentId := agentId,
                      ftype := fragment.ftype, content := fragment.content } rd
      else rd
    .ok ({ rid := id, keywords := fragment.keywords, ttlTier := fragment.ttlTier,
           scope := "permanent", conflicts := conflicts }, db, rd)

/-- `MemoryManager.remember`: `scope=session` with a (truthy) session id
writes only to working memory; every other call takes the durable branch. -/
def managerRemember (env : Env) (freshId : String) (p : RememberParams)
    (db : DBState) (rd : RedisState) :
    Except String (RememberOutcome × DBState × RedisState) :=
  let scope := jsStrOr p.scope "permanent"
  if scope = "session" && jsTruthyStr p.sessionId then
    match factoryCreate env freshId (toCreateParams p) with
    | .error e => .error e
    | .ok fragment =>
      let rd := addToWorkingMemory env (p.sessionId.getD "") fragment rd
      .ok ({ rid := fragment.fid, keywords := fragment.keywords,
             ttlTier := "session", scope := "session", conflicts := [] }, db, rd)
  else rememberPermanent env freshId p db rd

/-! ## MemoryManager.recall -/

/-- Parameters of `recall`. -/
structure RecallParams where
  keywords : List String := []
  topic : Option String := none
  ftype : Option String := none
  text : Option String := none
  tokenBudget : Option ℕ := none
  minImportance : Option ℚ := none
  includeLinks : Option Bool := none
  linkRelationType : Option String := none
  fragmentCount : ℕ := 0
  threshold : Option ℚ := none
  agentId : Option String := none
deriving Repr

/-- `MemoryManager.recall`: run the cascade, append one-hop linked fragments
(default on), re-rank the augmented list with the composite rule when the
store size reaches the activation threshold, annotate stale entries, and
apply the similarity threshold (rows without a similarity are preserved).
`totalTokens` is not recomputed after link expansion. -/
def managerRecall (env : Env) (p : RecallParams) (db : DBState)
    (rd : RedisState) : SearchResult × DBState × RedisState :=
  let agentId := jsStrOr p.agentId "default"
  let (res, db, rd) := fragmentSearch env
    { keywords := p.keywords, topic := p.topic, ftype := p.ftype,
      text := p.text, tokenBudget := some (jsNatOr p.tokenBudget 1000),
      minImportance := p.minImportance, fragmentCount := p.fragmentCount } db rd
  let res :=
    if p.includeLinks ≠ some false && !res.fragments.isEmpty then
      let existingIds := res.fragments.map (·.frag.fid)
      let linked := getLinkedFragments existingIds
        (match p.linkRelationType with
         | some rt => if rt = "" then none else some rt
         | none => none) agentId db
      let fresh := (linked.filter (fun (f, _) => !existingIds.contains f.fid))
      let fresh := firstDedupBy (fun (f, _) => f.fid) fresh
      let frags := res.fragments ++
        fresh.map (fun (f, rt) => ({ frag := f, relationType := some rt } : Hit))
      { res with fragments := frags, count := frags.length }
    else res
  let sorted :=
    if p.fragmentCount ≥ activationThreshold then
      stableSortBy (fun a b =>
        computeRankScore env a.frag > computeRankScore env b.frag) res.fragments
    else
      stableSortBy (fun a b => a.frag.importance > b.frag.importance) res.fragments
  let annotated := sorted.map (fun h =>
    let staleDays := staleThresholdFor h.frag.ftype
    let daysSince : ℤ := match h.frag.verifiedAt with
      | some v => Int.fdiv (env.now - v) dayMs
      | none => (staleDays : ℤ) + 1
    if daysSince ≥ (staleDays : ℤ) then { h with stale := true } else h)
  let final := match p.threshold with
    | some t => annotated.filter (fun h =>
        match h.similarity with
        | none => true
        | some s => decide (s ≥ t))
    | none => annotated
  ({ res with fragments := final, count := final.length }, db, rd)

/-! ## MemoryManager.link / amend / forget -/

/-- Parameters of `link`. -/
structure LinkParams where
  fromId : String
  toId : String
  relationType : Option String := none
  agentId : Option String := none
deriving Repr

/-- Result of `link`. -/
inductive LinkOutcome
  | notFound
  | linked (relationType : String)
deriving DecidableEq, Repr

/-- `MemoryManager.link`: resolve both endpoints under the caller's scope,
create the edge, and — for a `resolved_by` edge onto an `error` fragment of
importance above 0.5 — set that fragment's importance to 0.5 through
`store.update` (which also archives a version and bumps the verification
timestamps). -/
def managerLink (env : Env) (p : LinkParams) (db : DBState) :
    LinkOutcome × DBState :=
  let agentId := jsStrOr p.agentId "default"
  match storeGetById p.fromId agentId db, storeGetById p.toId agentId db with
  | some _, some toFrag =>
    let relationType := jsStrOr p.relationType "related"
    let db := createLink p.fromId p.toId relationType agentId db
    if relationType = "resolved_by" && toFrag.ftype = "error" &&
       toFrag.importance > 0.5 then
      (.linked relationType,
       (storeUpdate env p.toId { importance := some 0.5 } agentId db).2)
    else (.linked relationType, db)
  | _, _ => (.notFound, db)

/-- Parameters of `amend`. -/
structure AmendParams where
  id : String
  content : Option String := none
  topic : Option String := none
  keywords : Option (List String) := none
  ftype : Option String := none
  importance : Option ℚ := none
  isAnchor : Option Bool := none
  supersedes : Option String := none
  agentId : Option String := none
deriving Repr

/-- Result of `amend`. -/
inductive AmendOutcome
  | missingId
  | notFound
  | updateFailed
  | merged (existingId : String)
  | updated (frag : Fragment)
deriving DecidableEq, Repr

/-- Post-update tail of `amend`: optional `supersedes` handling (a `related`
edge plus an importance drop to 0.3 on the original) and the Redis
reindex. -/
def amendAfterOk (env : Env) (p : AmendParams) (agentId : String)
    (existing row : Fragment) (db : DBState) (rd : RedisState) :
    AmendOutcome × DBState × RedisState :=
  let db :=
    if jsTruthyStr p.supersedes then
      let db := createLink existing.fid row.fid "related" agentId db
      (storeUpdate env existing.fid { importance := some 0.3 } agentId db).2
    else db
  let rd := deindexFragment existing.fid existing.keywords existing.topic existing.ftype rd
  let rd := indexFragment env row none rd
  (.updated row, db, rd)

/-- `MemoryManager.amend`: truncate a new content to 300 characters,
lowercase supplied keywords, delegate to `store.update`, surface the merge
outcome, then handle `supersedes` and reindex. -/
def managerAmend (env : Env) (p : AmendParams) (db : DBState)
    (rd : RedisState) : AmendOutcome × DBState × RedisState :=
  if p.id = "" then (.missingId, db, rd)
  else
    let agentId := jsStrOr p.agentId "default"
    match storeGetById p.id agentId db with
    | none => (.notFound, db, rd)
    | some existing =>
      let upd : UpdatePatch := {
        content := p.content.map (fun c =>
          if jsLen c > 300 then jsTake 300 c ++ "..." else c)
        topic := p.topic
        keywords := p.keywords.map (·.map jsLower)
        ftype := p.ftype
        importance := p.importance
        isAnchor := p.isAnchor }
      match storeUpdate env p.id upd agentId db with
      | (.notFound, db) => (.updateFailed, db, rd)
      | (.merged eid, db) => (.merged eid, db, rd)
      | (.unchanged row, db) => amendAfterOk env p agentId existing row db rd
      | (.applied none, db) => (.updateFailed, db, rd)
      | (.applied (some row), db) => amendAfterOk env p agentId existing row db rd

/-- Parameters of `forget`. -/
structure ForgetParams where
  id : Option String := none
  topic : Option String := none
  force : Bool := false
  agentId : Option String := none
deriving Repr

/-- Return shape of `forget`. -/
structure ForgetSummary where
  deleted : ℕ
  protCount : ℕ
  failed : Bool
deriving DecidableEq, Repr

/-- `MemoryManager.forget`: by id (an absent row or a guarded permanent row
returns early), then by topic via the L1 topic set, skipping protected
permanent rows unless forced. -/
def managerForget (p : ForgetParams) (db : DBState) (rd : RedisState) :
    ForgetSummary × DBState × RedisState :=
  let agentId := jsStrOr p.agentId "default"
  let byTopic := fun (deleted0 : ℕ) (db : DBState) (rd : RedisState) =>
    if jsTruthyStr p.topic then
      let topicIds := l1SearchByTopic (p.topic.getD "") rd
      let step := fun (acc : ℕ × ℕ × DBState × RedisState) tid =>
        let (del, prot, db, rd) := acc
        match storeGetById tid agentId db with
        | none => (del, prot, db, rd)
        | some frag =>
          if frag.ttlTier = "permanent" && !p.force then (del, prot + 1, db, rd)
          else
            let rd := deindexFragment frag.fid frag.keywords frag.topic frag.ftype rd
            let (ok, db) := storeDelete frag.fid agentId db
            (if ok then del + 1 else del, prot, db, rd)
      let (del, prot, db, rd) := topicIds.foldl step (deleted0, 0, db, rd)
      (({ deleted := del, protCount := prot, failed := false } : ForgetSummary), db, rd)
    else (({ deleted := deleted0, protCount := 0, failed := false } : ForgetSummary), db, rd)
  if jsTruthyStr p.id then
    match storeGetById (p.id.getD "") agentId db with
    | none => ({ deleted := 0, protCount := 0, failed := true }, db, rd)
    | some frag =>
      if frag.ttlTier = "permanent" && !p.force then
        ({ deleted := 0, protCount := 1, failed := false }, db, rd)
      else
        let rd := deindexFragment frag.fid frag.keywords frag.topic frag.ftype rd
        let (ok, db) := storeDelete frag.fid agentId db
        byTopic (if ok then 1 else 0) db rd
  else byTopic 0 db rd

/-! ## NLIClassifier -/

/-- `detectContradiction` over a softmax score distribution, exactly the
source's threshold ladder: `contradiction ≥ 0.8` is a confirmed
contradiction with no escalation; else `entailment ≥ 0.6` clears the pair;
else `contradiction ≥ 0.5` is a suspected contradiction needing escalation;
otherwise no contradiction, escalating when `contradiction ≥ 0.2`. -/
def detectContradiction (s : NLIScores) : NLIVerdict :=
  let cScore := s.contradiction
  let eScore := s.entailment
  if cScore ≥ 0.8 then
    { contradicts := true, confidence := cScore, needsEscalation := false }
  else if eScore ≥ 0.6 then
    { contradicts := false, confidence := eScore, needsEscalation := false }
  else if cScore ≥ 0.5 then
    { contradicts := true, confidence := cScore, needsEscalation := true }
  else
    { contradicts := false, confidence := s.neutral,
      needsEscalation := decide (cScore ≥ 0.2) }

/-! ## MemoryConsolidator -/

/-- The `system`-scoped importance halving of `_resolveContradiction`. -/
def halveImportance (fid : String) (db : DBState) : DBState :=
  { db with fragments := db.fragments.map (fun r =>
    if r.fid = fid then { r with importance := r.importance * 0.5 } else r) }

/-- `MemoryConsolidator._resolveContradiction`: record a `contradicts` edge,
then apply the time-ordering heuristic.  When the new fragment is strictly
newer, the (non-anchored) candidate is halved and gains an old→new
`superseded_by` edge; otherwise the new fragment itself is halved — with no
anchor check — and the new→candidate `superseded_by` upsert lands on the
same ordered pair as the `contradicts` edge just created, overwriting it. -/
def resolveContradiction (newFrag candidate : Fragment) (db : DBState) :
    DBState :=
  let db := createLink newFrag.fid candidate.fid "contradicts" "system" db
  if newFrag.createdAt > candidate.createdAt then
    let db := if !candidate.isAnchor then halveImportance candidate.fid db else db
    createLink candidate.fid newFrag.fid "superseded_by" "system" db
  else
    let db := halveImportance newFrag.fid db
    createLink newFrag.fid candidate.fid "superseded_by" "system" db

/-- Whether a `contradicts` edge already joins the pair in either
direction. -/
def hasContradictsLink (db : DBState) (a b : String) : Bool :=
  db.links.any (fun l =>
    ((l.fromId = a && l.toId = b) || (l.fromId = b && l.toId = a)) &&
    l.relationType = "contradicts")

/-- What happened to one candidate pair inside `_detectContradictions`. -/
inductive PairOutcome
  | alreadyLinked
  | nliResolved
  | nliSkipped
  | geminiResolved
  | geminiNegative
  | flagged
  | dropped
deriving DecidableEq, Repr

/-- State after processing one pair; `llmCalled` records whether the Gemini
CLI was invoked. -/
structure PairResult where
  db : DBState
  rd : RedisState
  llmCalled : Bool
  outcome : PairOutcome

/-- The candidate-loop body of `_detectContradictions` for a single pair:
skip already-linked pairs; classify with the NLI model when available —
a confident contradiction resolves immediately and a confident
non-contradiction is skipped, both without the LLM; everything else falls to
stage 3, which asks Gemini when reachable and otherwise flags
high-similarity pairs onto the pending queue. -/
def processPair (env : Env) (newFrag candidate : Fragment) (similarity : ℚ)
    (db : DBState) (rd : RedisState) : PairResult :=
  if hasContradictsLink db newFrag.fid candidate.fid then
    ⟨db, rd, false, .alreadyLinked⟩
  else
    let verdict? :=
      if env.nliAvail then (env.nli newFrag.content candidate.content).map detectContradiction
      else none
    let stage3 : PairResult :=
      if !env.cliAvail then
        if similarity > 0.92 then
          if rd.ready then
            ⟨db, { rd with pendingContradictions := rd.pendingContradictions ++
                [{ idA := newFrag.fid, idB := candidate.fid,
                   contentA := newFrag.content, contentB := candidate.content }] },
             false, .flagged⟩
          else ⟨db, rd, false, .flagged⟩
        else ⟨db, rd, false, .dropped⟩
      else
        let verdict := env.gemini newFrag.content candidate.content
        if verdict.contradicts then
          ⟨resolveContradiction newFrag candidate db, rd, true, .geminiResolved⟩
        else ⟨db, rd, true, .geminiNegative⟩
    match verdict? with
    | some v =>
      if v.contradicts && !v.needsEscalation then
        ⟨resolveContradiction newFrag candidate db, rd, false, .nliResolved⟩
      else if !v.contradicts && !v.needsEscalation then
        ⟨db, rd, false, .nliSkipped⟩
      else stage3
    | none => stage3

/-- `MemoryConsolidator._detectContradictions`: take up to 20 embedded rows
created since the last check (newest first, watermark read from Redis), and
for each one up to three same-topic peers above 0.85 cosine similarity; run
`processPair` on every pair, tracking the counters and the watermark update
rule of the source (no update for already-linked, flagged or dropped
pairs). -/
def detectContradictionsStage (env : Env) (db : DBState) (rd : RedisState) :
    DBState × RedisState × ℕ × ℕ × ℕ :=
  let lastCheckAt := if rd.ready then rd.contradictionCheckAt else none
  let newFrags := (stableSortBy (fun (a b : Fragment) => a.createdAt > b.createdAt)
    (db.fragments.filter (fun r => r.hasEmbedding &&
      (match lastCheckAt with
       | some t => decide (r.createdAt > t)
       | none => true)))).take 20
  if newFrags.isEmpty then (db, rd, 0, 0, 0)
  else
    let bump := fun (createdAt : ℤ) (lt : Option ℤ) =>
      if (match lt with | none => true | some t => createdAt > t)
      then some createdAt else lt
    let step := fun (st : DBState × RedisState × ℕ × ℕ × ℕ × Option ℤ)
        (newFrag : Fragment) =>
      let (db, rd, found, res, skip, latest) := st
      let cands := (stableSortBy
        (fun (a b : Fragment) => env.sim newFrag.fid a.fid > env.sim newFrag.fid b.fid)
        (db.fragments.filter (fun c =>
          c.fid ≠ newFrag.fid && c.topic = newFrag.topic && c.hasEmbedding &&
          decide (env.sim newFrag.fid c.fid > 0.85)))).take 3
      cands.foldl (fun st2 candidate =>
        let (db, rd, found, res, skip, latest) := st2
        let pr := processPair env newFrag candidate
          (env.sim newFrag.fid candidate.fid) db rd
        match pr.outcome with
        | .nliResolved =>
          (pr.db, pr.rd, found + 1, res + 1, skip, bump newFrag.createdAt latest)
        | .nliSkipped =>
          (pr.db, pr.rd, found, res, skip + 1, bump newFrag.createdAt latest)
        | .geminiResolved =>
          (pr.db, pr.rd, found + 1, res, skip, bump newFrag.createdAt latest)
        | .geminiNegative =>
          (pr.db, pr.rd, found, res, skip, bump newFrag.createdAt latest)
        | _ => (pr.db, pr.rd, found, res, skip, latest))
        (db, rd, found, res, skip, latest)
    let (db, rd, found, res, skip, latest) :=
      newFrags.foldl step (db, rd, 0, 0, 0, none)
    let rd := match latest with
      | some t => if rd.ready then { rd with contradictionCheckAt := some t } else rd
      | none => rd
    (db, rd, found, res, skip)

/-- Loop body of `_processPendingContradictions` (up to 10 `LPOP`s; a
confirmed verdict re-reads both rows and resolves when both still exist). -/
def processPendingLoop (env : Env) : ℕ → DBState → RedisState → ℕ →
    DBState × RedisState × ℕ
  | 0, db, rd, acc => (db, rd, acc)
  | n + 1, db, rd, acc =>
    match rd.pendingContradictions with
    | [] => (db, rd, acc)
    | e :: rest =>
      let rd := { rd with pendingContradictions := rest }
      let verdict := env.gemini e.contentA e.contentB
      if verdict.contradicts then
        match db.fragments.find? (·.fid = e.idA),
              db.fragments.find? (·.fid = e.idB) with
        | some fa, some fb =>
          processPendingLoop env n (resolveContradiction fa fb db) rd (acc + 1)
        | _, _ => processPendingLoop env n db rd acc
      else processPendingLoop env n db rd acc

/-- `MemoryConsolidator._processPendingContradictions`. -/
def processPendingContradictions (env : Env) (db : DBState) (rd : RedisState) :
    DBState × RedisState × ℕ :=
  if !env.cliAvail then (db, rd, 0)
  else if !rd.ready then (db, rd, 0)
  else processPendingLoop env 10 db rd 0

/-- `MemoryConsolidator._updateUtilityScores`:
`utility_score := importance · (1 + LN(GREATEST(access_count, 1)))` for rows
where the stored value differs, returning the affected row count. -/
def updateUtilityScores (env : Env) (db : DBState) : ℕ × DBState :=
  let target := fun (r : Fragment) =>
    r.importance * (1 + env.ln (max (r.accessCount : ℚ) 1))
  ((db.fragments.filter (fun r => r.utilityScore ≠ target r)).length,
   { db with fragments := db.fragments.map (fun r =>
      if r.utilityScore ≠ target r then { r with utilityScore := target r } else r) })

/-- `MemoryConsolidator._promoteAnchors`: rows with `access_count ≥ 10` and
`importance ≥ 0.8` become anchors. -/
def promoteAnchors (db : DBState) : ℕ × DBState :=
  let pred := fun (r : Fragment) =>
    !r.isAnchor && r.accessCount ≥ 10 && decide (r.importance ≥ 0.8)
  ((db.fragments.filter pred).length,
   { db with fragments := db.fragments.map (fun r =>
      if pred r then { r with isAnchor := true } else r) })

/-- `ORDER BY importance DESC, created_at ASC` — the survivor ordering of
`_mergeDuplicates`'s `array_agg`. -/
def dupOrderLt (a b : Fragment) : Bool :=
  a.importance > b.importance ||
  (a.importance = b.importance && a.createdAt < b.createdAt)

/-- The per-loser body of `_mergeDuplicates`: append the survivor id to the
loser's own `linked_to` (the first quoted UPDATE targets `id = ANY([rid])`),
replace the loser id by the survivor id inside every `linked_to` array, then
`store.delete(rid, "system")` — the effective row-only delete plus the DDL
cascades.  No edge is rewritten to the survivor and no access count moves. -/
def mergeOne (keepId rid : String) (db : DBState) : DBState :=
  let frags := db.fragments.map (fun r =>
    if r.fid = rid && !(r.linkedTo.contains keepId)
    then { r with linkedTo := r.linkedTo ++ [keepId] } else r)
  let frags := frags.map (fun r =>
    if r.linkedTo.contains rid
    then { r with linkedTo := r.linkedTo.map (fun x => if x = rid then keepId else x) }
    else r)
  (storeDelete rid "system" { db with fragments := frags }).2

/-- `MemoryConsolidator._mergeDuplicates`: group all rows by `content_hash`
(up to 50 groups), order each group by importance descending then creation
ascending, keep the head and merge every other member into it. -/
def mergeDuplicates (db0 : DBState) : ℕ × DBState :=
  let dups := ((firstDedupBy id (db0.fragments.map (·.contentHash))).filterMap
    (fun h =>
      let g := db0.fragments.filter (·.contentHash = h)
      if g.length > 1 then some ((stableSortBy dupOrderLt g).map (·.fid))
      else none)).take 50
  dups.foldl (fun acc ids =>
    match ids with
    | [] => acc
    | keepId :: removeIds =>
      removeIds.foldl (fun (acc2 : ℕ × DBState) rid =>
        (acc2.1 + 1, mergeOne keepId rid acc2.2)) acc) (0, db0)

/-- Tier histogram (`GROUP BY ttl_tier`). -/
def tierCounts (db : DBState) : List (String × ℕ) :=
  (firstDedupBy id (db.fragments.map (·.ttlTier))).map (fun t =>
    (t, (db.fragments.filter (·.ttlTier = t)).length))

/-- `MemoryConsolidator._transitionWithCount`: diff the tier histograms
around `transitionTTL` and halve the total absolute change. -/
def transitionWithCount (env : Env) (db : DBState) : ℕ × DBState :=
  let before := tierCounts db
  let db := transitionTTL env db
  let after := tierCounts db
  let transitions := (after.map (fun (t, cnt) =>
    (((cnt : ℤ) - (((before.find? (·.1 = t)).map (·.2)).getD 0 : ℕ))).natAbs)).sum
  (transitions / 2, db)

/-- `MemoryConsolidator._collectStaleFragments`: rows whose `verified_at`
exceeded the per-type staleness window, most-stale first, top 20 (`NULL`
timestamps never satisfy the SQL comparison). -/
def collectStaleFragments (env : Env) (db : DBState) : List Fragment :=
  let daysSince := fun (r : Fragment) =>
    match r.verifiedAt with
    | some v => Int.fdiv (env.now - v) dayMs
    | none => 0
  let pred := fun (r : Fragment) =>
    match r.verifiedAt with
    | some v => decide (v < env.now - ((staleThresholdFor r.ftype : ℕ) : ℤ) * dayMs)
    | none => false
  (stableSortBy (fun a b => daysSince a > daysSince b)
    (db.fragments.filter pred)).take 20

/-- The per-stage counters `consolidate` returns. -/
structure ConsolidateCounters where
  ttlTransitions : ℕ
  importanceDecay : Bool
  expiredDeleted : ℕ
  duplicatesMerged : ℕ
  embeddingsAdded : ℕ
  utilityUpdated : ℕ
  anchorsPromoted : ℕ
  contradictionsFound : ℕ
  nliResolvedDirectly : ℕ
  nliSkippedAsNonContra : ℕ
  pendingProcessed : ℕ
  feedbackReportGenerated : Bool
  indexesPruned : Bool
  staleFragments : List Fragment
deriving Repr

/-- `MemoryConsolidator.consolidate`: the ordered pipeline — TTL transitions,
decay, expiry, dedup merge, embedding backfill, utility recompute, anchor
promotion, hybrid contradiction detection, pending-queue drain, feedback
report, index pruning and stale gathering.  The feedback report aggregates
the `tool_feedback`/`task_feedback` tables, which are outside the modelled
state; with no feedback rows the source returns `false` before any state
effect, which is how the stage is rendered here. -/
def consolidate (env : Env) (db : DBState) (rd : RedisState) :
    ConsolidateCounters × DBState × RedisState :=
  let (ttl, db) := transitionWithCount env db
  let db := decayImportance env db
  let (expired, db) := deleteExpired env db
  let (merged, db) := mergeDuplicates db
  let (emb, db) := generateMissingEmbeddings env 5 db
  let (util, db) := updateUtilityScores env db
  let (anch, db) := promoteAnchors db
  let (db, rd, found, res, skip) := detectContradictionsStage env db rd
  let (db, rd, pend) := processPendingContradictions env db rd
  let rd := pruneKeywordIndexes env rd
  let stale := collectStaleFragments env db
  ({ ttlTransitions := ttl, importanceDecay := true, expiredDeleted := expired,
     duplicatesMerged := merged, embeddingsAdded := emb, utilityUpdated := util,
     anchorsPromoted := anch, contradictionsFound := found,
     nliResolvedDirectly := res, nliSkippedAsNonContra := skip,
     pendingProcessed := pend, feedbackReportGenerated := false,
     indexesPruned := true, staleFragments := stale }, db, rd)

/-! ## Concrete evaluation fixtures -/

/-- Equality on `Except` values is decidable componentwise. -/
instance exceptDecEq {ε α : Type} [DecidableEq ε] [DecidableEq α] :
    DecidableEq (Except ε α)
  | .error a, .error b =>
    if h : a = b then .isTrue (by rw [h]) else .isFalse (by simp [h])
  | .error _, .ok _ => .isFalse (by simp)
  | .ok _, .error _ => .isFalse (by simp)
  | .ok a, .ok b =>
    if h : a = b then .isTrue (by rw [h]) else .isFalse (by simp [h])

/-- A fully-stubbed environment for concrete evaluations: no external
collaborator is reachable and content hashing is the identity (the code only
ever compares hashes for equality). -/
def testEnv : Env where
  now := 100
  hash := fun s => s
  enc := none
  openaiKey := false
  embedOk := false
  sim := fun _ _ => 0
  qsim := fun _ _ => 0
  nliAvail := false
  nli := fun _ _ => none
  cliAvail := false
  gemini := fun _ _ => { contradicts := false }
  ln := fun _ => 0
  sample := fun _ _ => []

/-- An unreachable in-memory store (every Redis operation is a no-op). -/
def redisDown : RedisState where
  ready := false
  kwSets := []
  topicSets := []
  typeSets := []
  recent := []
  hotCache := []
  sessSets := []
  wm := []
  evalQueue := []
  pendingContradictions := []
  contradictionCheckAt := none

/-- A template row with the database defaults. -/
def baseFrag : Fragment where
  fid := "f"
  content := "c"
  topic := "t"
  keywords := []
  ftype := "fact"
  importance := 0.5
  contentHash := "h"
  source := none
  linkedTo := []
  agentId := "default"
  accessCount := 0
  accessedAt := none
  createdAt := 0
  ttlTier := "warm"
  estimatedTokens := 1
  utilityScore := 1
  verifiedAt := none
  hasEmbedding := false
  isAnchor := false

/-- The already-stored fragment of the C1 failing input. -/
def c1Stored : Fragment :=
  { baseFrag with
      fid := "r1", content := "Node 20 is required.",
      contentHash := "Node 20 is required.", importance := 0.5 }

/-- Store holding exactly the C1 duplicate target. -/
def c1Db : DBState := ⟨[c1Stored], [], []⟩

/-- The second `remember` call of the C1 failing input: identical content,
same (default) agent, but importance 1. -/
def c1Params : RememberParams :=
  { content := "Node 20 is required.", topic := some "stack",
    ftype := some "fact", importance := some 1 }

/-- The anchored warm fragment of the C2 failing input (importance 0.2,
recently accessed, utility already consistent). -/
def c2Anchor : Fragment :=
  { baseFrag with
      fid := "a1", importance := 0.2, ttlTier := "warm",
      isAnchor := true, accessedAt := some testEnv.now,
      createdAt := testEnv.now, verifiedAt := some testEnv.now,
      accessCount := 1, utilityScore := 0.2 }

/-- Store holding exactly the C2 anchored fragment. -/
def c2Db : DBState := ⟨[c2Anchor], [], []⟩

/-- A 40-character content (10 tokens under the char/4 rule). -/
def content40 : String := "0123456789012345678901234567890123456789"

/-- C3 primary hit: matches the query keyword and exactly fills the
character budget of a 10-token call. -/
def c3A : Fragment :=
  { baseFrag with
      fid := "a", content := content40, contentHash := "ha",
      keywords := ["redis"], importance := 0.5, estimatedTokens := 10,
      verifiedAt := some testEnv.now, createdAt := testEnv.now,
      linkedTo := ["b"] }

/-- C3 linked neighbour (10 further stored tokens). -/
def c3B : Fragment :=
  { baseFrag with
      fid := "b", content := content40, contentHash := "hb",
      importance := 0.9, estimatedTokens := 10,
      verifiedAt := some testEnv.now, createdAt := testEnv.now,
      linkedTo := ["a"] }

/-- Store with the C3 pair and their `related` edge. -/
def c3Db : DBState := ⟨[c3A, c3B], [⟨"a", "b", "related"⟩], []⟩

/-- The C3 recall: keyword hit, token budget 10, `includeLinks` left at its
default (true). -/
def c3Params : RecallParams := { keywords := ["redis"], tokenBudget := some 10 }

/-- C4 earliest-created duplicate (importance 0.5, 3 accesses). -/
def c4Early : Fragment :=
  { baseFrag with
      fid := "f1", contentHash := "hdup", importance := 0.5,
      createdAt := 0, accessCount := 3 }

/-- C4 later-created duplicate (importance 0.9, 5 accesses). -/
def c4Late : Fragment :=
  { baseFrag with
      fid := "f2", contentHash := "hdup", importance := 0.9,
      createdAt := 5, accessCount := 5 }

/-- Store with the C4 duplicate pair. -/
def c4Db : DBState := ⟨[c4Early, c4Late], [], []⟩

/-- C6 surviving fragment, whose `linked_to` names the victim. -/
def c6A : Fragment :=
  { baseFrag with
      fid := "a", contentHash := "ha", linkedTo := ["b"],
      accessedAt := some testEnv.now, createdAt := testEnv.now,
      verifiedAt := some testEnv.now, utilityScore := 0.5 }

/-- C6 victim fragment. -/
def c6B : Fragment :=
  { baseFrag with
      fid := "b", contentHash := "hb", linkedTo := ["a"],
      accessedAt := some testEnv.now, createdAt := testEnv.now,
      verifiedAt := some testEnv.now, utilityScore := 0.5 }

/-- Store with the C6 pair and their edge. -/
def c6Db : DBState := ⟨[c6A, c6B], [⟨"a", "b", "related"⟩], []⟩

/-- The C2 store after the demotion (what `consolidate` actually leaves). -/
def c2Cold : DBState := ⟨[{ c2Anchor with ttlTier := "cold" }], [], []⟩

/-- The C6 store once the victim row is gone. -/
def c6Alone : DBState := ⟨[c6A], [], []⟩

/-- C5 fragment being amended. -/
def c5A : Fragment :=
  { baseFrag with fid := "a", content := "old text", contentHash := "old text" }

/-- C5 fragment already holding the amended content's hash. -/
def c5B : Fragment :=
  { baseFrag with fid := "b", content := "new text", contentHash := "new text" }

/-- Store with the C5 pair. -/
def c5Db : DBState := ⟨[c5A, c5B], [], []⟩

/-- C8 source fragment of the `resolved_by` edge. -/
def c8F : Fragment := { baseFrag with fid := "f0", contentHash := "hf" }

/-- C8 target: an `error` fragment of importance 0.9. -/
def c8E : Fragment :=
  { baseFrag with
      fid := "e", ftype := "error", importance := 0.9, contentHash := "he" }

/-- Store with the C8 pair. -/
def c8Db : DBState := ⟨[c8F, c8E], [], []⟩

/-- The C8 `link` call. -/
def c8P : LinkParams :=
  { fromId := "f0", toId := "e", relationType := some "resolved_by" }

/-- C7 counterexample: the new fragment (same timestamp as the candidate). -/
def c7N : Fragment :=
  { baseFrag with
      fid := "n", content := "cn", contentHash := "hn", createdAt := 5,
      hasEmbedding := true }

/-- C7 counterexample: the candidate fragment. -/
def c7C : Fragment :=
  { baseFrag with
      fid := "c", content := "cc", contentHash := "hc", createdAt := 5,
      hasEmbedding := true }

/-- Store with the C7 counterexample pair. -/
def c7Db : DBState := ⟨[c7N, c7C], [], []⟩

/-- Environment whose NLI model scores the C7 pair 0.9 contradiction. -/
def c7Env : Env :=
  { testEnv with
      nliAvail := true,
      nli := fun a b =>
        if a = "cn" && b = "cc" then
          some { entailment := 0.05, neutral := 0.05, contradiction := 0.9 }
        else none }

/-- The spec's threshold table, written from its words: (contradicts,
escalate) per score distribution, rows evaluated in order.  Compared against
the source's `detectContradiction` in the C7 theorem. -/
def nliSpecTable (s : NLIScores) : Bool × Bool :=
  if s.contradiction ≥ 0.8 then (true, false)
  else if s.entailment ≥ 0.6 then (false, false)
  else if s.contradiction ≥ 0.5 then (true, true)
  else if s.contradiction ≥ 0.2 then (false, true)
  else (false, false)

/-- C7 witness pair: the new fragment is strictly newer here. -/
def c7N2 : Fragment :=
  { baseFrag with
      fid := "n2", content := "cn", contentHash := "hn2", createdAt := 6,
      hasEmbedding := true }

/-- C7 witness candidate. -/
def c7C2 : Fragment :=
  { baseFrag with
      fid := "c2", content := "cc", contentHash := "hc2", createdAt := 5,
      hasEmbedding := true }

/-- Store with the C7 witness pair. -/
def c7Db2 : DBState := ⟨[c7N2, c7C2], [], []⟩

/-- C10 `remember` call: session scope but no session id. -/
def c10P : RememberParams :=
  { content := "hello world", topic := some "t", scope := some "session" }

/-- An empty durable store. -/
def emptyDb : DBState := ⟨[], [], []⟩

/-! ## C9 framework: the scan relation and its definitions -/

inductive ScanOut (m : List Char → Option (ℕ × List Char)) :
    List Char → List Char → Prop
  | nil : ScanOut m [] []
  | copy {c : Char} {rest out : List Char} :
      m (c :: rest) = none → ScanOut m rest out →
      ScanOut m (c :: rest) (c :: out)
  | repl {c : Char} {rest out : List Char} {n : ℕ} {r : List Char} :
      m (c :: rest) = some (n, r) → ScanOut m (rest.drop (n - 1)) out →
      ScanOut m (c :: rest) (r ++ out)

/-- A scan position where the matcher either fails or would replace the
matched text by itself. -/
def IdOrNone (m : List Char → Option (ℕ × List Char)) (t : List Char) : Prop :=
  ∀ n r, m t = some (n, r) → 1 ≤ n ∧ r = t.take n

/-- No match at any position. -/
def NoMatch (m : List Char → Option (ℕ × List Char)) (l : List Char) : Prop :=
  ∀ p, m (l.drop p) = none

/-- The replacements of `m` diverge from the input only at a `bl`-char:
each replacement re-emits an input prefix, then hits a blocked char, while
the input continues with a suffix satisfying `Pd`. -/
def TokOk (m : List Char → Option (ℕ × List Char)) (bl : Char → Bool)
    (Pd : List Char → Prop) : Prop :=
  ∀ l n r, m l = some (n, r) →
    ∃ i c rest, i ≤ l.length ∧ r = l.take i ++ c :: rest ∧ bl c = true ∧
      Pd (l.drop i)

def TokOkP (m : List Char → Option (ℕ × List Char)) (bl : Char → Bool)
    (Pd : ℕ → List Char → Prop) : Prop :=
  ∀ l n r, m l = some (n, r) →
    ∃ i c rest, i ≤ l.length ∧ r = l.take i ++ c :: rest ∧ bl c = true ∧
      Pd i l

/-- Payload of a rule-3 replacement: the block position (the emitted colon)
sits right after a keyword whose rule-3 match in the input starts
`kw.length` places before it. -/
def Pd3 (j : ℕ) (t : List Char) : Prop :=
  ∃ kw₂ n₂ r₂, kw₂ ∈ pwdKeywords ∧ kw₂.length ≤ j ∧
    pwdKeywords.find? (fun k' => ciHeadEq k' (t.drop (j - kw₂.length))) =
      some kw₂ ∧
    r3MatchAt (t.drop (j - kw₂.length)) = some (n₂, r₂)

/-! ## Claim theorems: C1–C4, C6 -/

set_option maxRecDepth 10000 in
/-- C1: the claim says a duplicate-hash `remember` returns the existing id
with `created:false` and raises the stored importance to the maximum of the
two values.  Evaluating the code at the failing input: the duplicate
pre-check returns the existing id early, so the store — including the stored
importance 0.5, despite the new call's importance 1 — is completely
unchanged, and the result (which has no `created` field at all) reports the
existing id; the `ON CONFLICT … GREATEST` importance bump is unreachable on
this path. -/
theorem c1_duplicate_remember_leaves_importance_unchanged :
    managerRemember testEnv "r2" c1Params c1Db redisDown =
      .ok ({ rid := "r1", keywords := ["node", "20", "required"],
             ttlTier := "permanent", scope := "permanent", conflicts := [] },
           c1Db, redisDown) ∧
    c1Stored.importance = 0.5 ∧ c1Params.importance = some 1 := by
  with_unfolding_all decide

set_option maxRecDepth 10000 in
/-- C2: the claim says every Consolidator mutation that would demote an
anchored fragment's tier is skipped.  Evaluating one full `consolidate` run
at the failing input: the warm→cold demotion of `transitionTTL` carries no
anchor guard, so the anchored fragment leaves the run demoted to `cold`
(its importance and existence survive only because decay and expiry do check
`is_anchor`). -/
theorem c2_consolidation_demotes_anchored_fragment :
    (consolidate testEnv c2Db redisDown).2.1 =
      ⟨[{ c2Anchor with ttlTier := "cold" }], [], []⟩ ∧
    c2Anchor.isAnchor = true ∧ c2Anchor.ttlTier = "warm" := by
  have h1 : transitionWithCount testEnv c2Db = (0, c2Cold) := by
    with_unfolding_all decide
  have h2 : decayImportance testEnv c2Cold = c2Cold := by
    with_unfolding_all decide
  have h3 : deleteExpired testEnv c2Cold = (0, c2Cold) := by
    with_unfolding_all decide
  have h4 : mergeDuplicates c2Cold = (0, c2Cold) := by
    with_unfolding_all decide
  have h5 : generateMissingEmbeddings testEnv 5 c2Cold = (0, c2Cold) := by
    with_unfolding_all decide
  have h6 : updateUtilityScores testEnv c2Cold = (0, c2Cold) := by
    with_unfolding_all decide
  have h7 : promoteAnchors c2Cold = (0, c2Cold) := by
    with_unfolding_all decide
  have h8 : detectContradictionsStage testEnv c2Cold redisDown =
      (c2Cold, redisDown, 0, 0, 0) := by with_unfolding_all decide
  have h9 : processPendingContradictions testEnv c2Cold redisDown =
      (c2Cold, redisDown, 0) := by with_unfolding_all decide
  refine ⟨?_, rfl, rfl⟩
  simp only [consolidate, h1, h2, h3, h4, h5, h6, h7, h8, h9]
  with_unfolding_all decide

set_option maxRecDepth 10000 in
/-- C3: the claim says the sum of the returned fragments' `estimated_tokens`
never exceeds the caller's `tokenBudget`, the counts being charged from the
stored field.  Evaluating the code at the failing input: the budget trim
charges content length against `4·budget` characters (not
`estimated_tokens`), and the default link expansion then appends a linked
fragment with no budget charge at all, so a 10-token call returns fragments
whose stored `estimated_tokens` sum to 20 while the reported `totalTokens`
stays 10. -/
theorem c3_recall_exceeds_token_budget :
    (((managerRecall testEnv c3Params c3Db redisDown).1.fragments.map
        (·.frag.estimatedTokens)).sum = 20) ∧
    (managerRecall testEnv c3Params c3Db redisDown).1.totalTokens = 10 ∧
    jsNatOr c3Params.tokenBudget 1000 = 10 := by
  with_unfolding_all decide

/-- C4: the claim says dedup keeps the earliest-created fragment and sums
the access counts onto the survivor.  Evaluating `_mergeDuplicates` at the
failing input: the group is ordered `importance DESC, created_at ASC`, so
the *later-created* higher-importance fragment survives, wholly untouched —
its access count stays 5 rather than 3 + 5 = 8 (and edges are only
cascade-deleted, never rewritten). -/
theorem c4_merge_keeps_highest_importance_not_earliest :
    mergeDuplicates c4Db = (1, ⟨[c4Late], [], []⟩) ∧
    c4Early.createdAt < c4Late.createdAt ∧
    c4Late.accessCount = 5 ∧ c4Early.accessCount + c4Late.accessCount = 8 := by
  with_unfolding_all decide

set_option maxRecDepth 10000 in
/-- C6: the claim says that after a delete no surviving fragment's
`linked_to` still contains the deleted id, at the latest after the next
consolidation.  Evaluating `forget` (which reaches the effective row-only
`delete`) followed by a full `consolidate` at the failing input: the edge
disappears through the DDL cascade, but the survivor's `linked_to` still
names the deleted fragment even after the consolidation run — no pipeline
stage prunes dangling references (the cleanup variant of `delete` earlier in
the class body is shadowed by the later row-only definition). -/
theorem c6_dangling_linked_to_survives_consolidation :
    (managerForget { id := some "b" } c6Db redisDown).1 =
      { deleted := 1, protCount := 0, failed := false } ∧
    ((managerForget { id := some "b" } c6Db redisDown).2.1.links = []) ∧
    ((consolidate testEnv (managerForget { id := some "b" } c6Db redisDown).2.1
        redisDown).2.1.fragments = [c6A]) ∧
    c6A.linkedTo = ["b"] := by
  have hf : managerForget { id := some "b" } c6Db redisDown =
      ({ deleted := 1, protCount := 0, failed := false }, c6Alone, redisDown) := by
    with_unfolding_all decide
  have h1 : transitionWithCount testEnv c6Alone = (0, c6Alone) := by
    with_unfolding_all decide
  have h2 : decayImportance testEnv c6Alone = c6Alone := by
    with_unfolding_all decide
  have h3 : deleteExpired testEnv c6Alone = (0, c6Alone) := by
    with_unfolding_all decide
  have h4 : mergeDuplicates c6Alone = (0, c6Alone) := by
    with_unfolding_all decide
  have h5 : generateMissingEmbeddings testEnv 5 c6Alone = (0, c6Alone) := by
    with_unfolding_all decide
  have h6 : updateUtilityScores testEnv c6Alone = (0, c6Alone) := by
    with_unfolding_all decide
  have h7 : promoteAnchors c6Alone = (0, c6Alone) := by
    with_unfolding_all decide
  have h8 : detectContradictionsStage testEnv c6Alone redisDown =
      (c6Alone, redisDown, 0, 0, 0) := by with_unfolding_all decide
  have h9 : processPendingContradictions testEnv c6Alone redisDown =
      (c6Alone, redisDown, 0) := by with_unfolding_all decide
  refine ⟨by rw [hf], by rw [hf]; rfl, ?_, rfl⟩
  simp only [hf, consolidate, h1, h2, h3, h4, h5, h6, h7, h8, h9]
  with_unfolding_all decide

/-! ## Claim theorems: C5 -/

/-- C5 counterexample: the claim says a hash-colliding amend creates no new
row in `fragment_versions`.  At the concrete input the update returns
`merged` with the existing id and mutates neither fragment row, but the
store leaves the call with one **more** version row than it had: `update`
archives the pre-amendment state before the collision check. -/
theorem c5_merge_creates_version_row :
    storeUpdate testEnv "a" { content := some "new text" } "default" c5Db =
      (.merged "b",
       ⟨[c5A, c5B], [],
        [{ fragmentId := "a", content := "old text", topic := "t",
           keywords := [], ftype := "fact", importance := 0.5,
           amendedAt := 100, amendedBy := "default" }]⟩) ∧
    c5Db.versions = [] := by with_unfolding_all decide

/-- C5 (amended): for every amend whose new content hashes to a different
visible row's `content_hash`, `update` returns `merged` with that row's id
and mutates no fragment row — but it first archives the old state, so
exactly one snapshot row of the amended fragment is appended to
`fragment_versions` (the claim's "no new version row" part is what fails). -/
theorem c5_amended_general (env : Env) (db : DBState) (agentId id c : String)
    (A B : Fragment) (u : UpdatePatch)
    (hA : storeGetById id agentId db = some A)
    (hc : u.content = some c)
    (hB : (db.fragments.filter (fun r =>
        visibleTo agentId r.agentId && r.contentHash = env.hash c &&
        r.fid ≠ id)).head? = some B) :
    storeUpdate env id u agentId db =
      (.merged B.fid, archiveVersion env A agentId db) ∧
    (archiveVersion env A agentId db).fragments = db.fragments ∧
    (archiveVersion env A agentId db).versions = db.versions ++
      [{ fragmentId := A.fid, content := A.content, topic := A.topic,
         keywords := A.keywords, ftype := A.ftype, importance := A.importance,
         amendedAt := env.now, amendedBy := agentId }] := by
  refine ⟨?_, rfl, rfl⟩
  simp only [storeUpdate, hA, hc, archiveVersion, hB, Option.map]

/-- C5 witness: the amended theorem applied at the concrete collision. -/
theorem c5_amended_witness :
    storeUpdate testEnv "a" { content := some "new text" } "default" c5Db =
      (.merged "b", archiveVersion testEnv c5A "default" c5Db) :=
  (c5_amended_general testEnv c5Db "default" "a" "new text" c5A c5B
    { content := some "new text" } (by with_unfolding_all decide) rfl
    (by with_unfolding_all decide)).1

/-! ## Claim theorems: C8 -/

/-- C8 counterexample: the claim says a `resolved_by` link pointing at an
`error` fragment of importance > 0.5 *halves* that importance.  At the
concrete input (importance 0.9) the stored importance after the call is the
constant 0.5 — not 0.9 · 0.5 = 0.45. -/
theorem c8_resolved_by_sets_half_constant :
    (((managerLink testEnv c8P c8Db).2.fragments.find? (·.fid = "e")).map
        (·.importance)) = some 0.5 ∧
    c8E.importance = 0.9 ∧ ¬ ((0.5 : ℚ) = 0.9 * 0.5) := by
  with_unfolding_all decide

theorem head_filter_map (g : Fragment → Fragment) (p : Fragment → Bool)
    (hp : ∀ r, p (g r) = p r) (l : List Fragment) :
    ((l.map g).filter p).head? = ((l.filter p).head?).map g := by
  induction l with
  | nil => rfl
  | cons y ys ih =>
    by_cases h : p y = true
    · simp [List.filter_cons, hp, h]
    · simp [List.filter_cons, hp, h, ih]

theorem getById_createLink_some (f t rel a q id : String) (db : DBState)
    (E : Fragment) (h : storeGetById id q db = some E) :
    ∃ E1, storeGetById id q (createLink f t rel a db) = some E1 := by
  unfold createLink
  split
  · unfold storeGetById at h ⊢
    simp only
    rw [head_filter_map, head_filter_map, h]
    · exact ⟨_, rfl⟩
    · intro r; dsimp only; split <;> rfl
    · intro r; dsimp only; split <;> rfl
  · exact ⟨E, h⟩

/-- C8 (amended): a `link` call creating a `resolved_by` edge onto a visible
`error` fragment of importance > 0.5 reports the link and **sets** every
visible row of that fragment id to the constant importance 0.5 — it does not
halve the stored value. -/
theorem c8_amended_general (env : Env) (p : LinkParams) (db : DBState)
    (F E : Fragment)
    (hF : storeGetById p.fromId (jsStrOr p.agentId "default") db = some F)
    (hE : storeGetById p.toId (jsStrOr p.agentId "default") db = some E)
    (ht : E.ftype = "error") (hi : E.importance > 0.5)
    (hr : jsStrOr p.relationType "related" = "resolved_by") :
    (managerLink env p db).1 = .linked "resolved_by" ∧
    ∀ r ∈ (managerLink env p db).2.fragments,
      r.fid = p.toId → visibleTo (jsStrOr p.agentId "default") r.agentId = true →
      r.importance = 0.5 := by
  obtain ⟨E1, hE1⟩ := getById_createLink_some p.fromId p.toId "resolved_by"
    (jsStrOr p.agentId "default") (jsStrOr p.agentId "default") p.toId db E hE
  simp only [managerLink, hF, hE, hr, ht, hi, decide_True, Bool.and_true,
    Bool.and_self, if_true, reduceIte, storeUpdate, hE1]
  refine ⟨trivial, ?_⟩
  intro r hr2 hfid hvis
  rw [if_neg (by decide)] at hr2
  dsimp only at hr2
  obtain ⟨r0, hr0, hre⟩ := List.mem_map.mp hr2
  by_cases hcond : (visibleTo (jsStrOr p.agentId "default") r0.agentId &&
      decide (r0.fid = p.toId)) = true
  · rw [if_pos hcond] at hre
    rw [← hre]
    rfl
  · rw [if_neg hcond] at hre
    rw [← hre] at hfid hvis
    exact absurd (by rw [hvis, decide_eq_true hfid]; rfl) hcond

/-- C8 witness: the amended theorem applied at the concrete fixture. -/
theorem c8_amended_witness :
    (managerLink testEnv c8P c8Db).1 = .linked "resolved_by" ∧
    ∀ r ∈ (managerLink testEnv c8P c8Db).2.fragments,
      r.fid = c8P.toId →
      visibleTo (jsStrOr c8P.agentId "default") r.agentId = true →
      r.importance = 0.5 :=
  c8_amended_general testEnv c8P c8Db c8F c8E (by with_unfolding_all decide)
    (by with_unfolding_all decide) rfl (by with_unfolding_all decide) rfl

/-! ## Claim theorems: C7 -/

/-- C7 counterexample: the claim says that for `contradiction ≥ 0.8` the
Consolidator always records a `contradicts` edge without invoking the LLM.
At the concrete input (equal `created_at` timestamps, NLI contradiction
score 0.9) no LLM is called and the pair is "resolved", but the
`superseded_by` upsert of `_resolveContradiction`'s else-branch lands on the
same ordered pair and overwrites the just-created `contradicts` edge: the
store ends with no `contradicts` edge at all. -/
theorem c7_equal_timestamps_lose_contradicts_edge :
    (0.8 : ℚ) ≤ 0.9 ∧
    (processPair c7Env c7N c7C 0 c7Db redisDown).llmCalled = false ∧
    (processPair c7Env c7N c7C 0 c7Db redisDown).outcome = .nliResolved ∧
    hasContradictsLink (processPair c7Env c7N c7C 0 c7Db redisDown).db
      "n" "c" = false ∧
    (processPair c7Env c7N c7C 0 c7Db redisDown).db.links =
      [⟨"n", "c", "superseded_by"⟩] := by
  with_unfolding_all decide

theorem createLink_establishes (f t rel a : String) (db : DBState)
    (hf : db.fragments.any (·.fid = f) = true)
    (ht : db.fragments.any (·.fid = t) = true)
    (hrel : allowedRelationTypes.contains rel = true) :
    (createLink f t rel a db).links.any (fun l =>
      l.fromId = f && l.toId = t && l.relationType = rel) = true := by
  unfold createLink
  rw [if_pos (by rw [hf, ht, hrel]; rfl)]
  by_cases hdup : db.links.any (fun l => l.fromId = f && l.toId = t) = true
  · rw [if_pos hdup]
    obtain ⟨l, hl, hlp⟩ := List.any_eq_true.mp hdup
    refine List.any_eq_true.mpr ⟨_, List.mem_map_of_mem _ hl, ?_⟩
    rw [if_pos hlp]
    have h1 := (Bool.and_eq_true _ _).mp hlp
    simp [h1.1, h1.2]
  · rw [if_neg hdup]
    simp [List.any_append]

theorem createLink_preserves (f t rel a f' t' rel' : String) (db : DBState)
    (hne : f' ≠ f ∨ t' ≠ t)
    (h : db.links.any (fun l =>
      l.fromId = f' && l.toId = t' && l.relationType = rel') = true) :
    (createLink f t rel a db).links.any (fun l =>
      l.fromId = f' && l.toId = t' && l.relationType = rel') = true := by
  unfold createLink
  split
  · obtain ⟨l, hl, hlp⟩ := List.any_eq_true.mp h
    have h1 := (Bool.and_eq_true _ _).mp hlp
    have h2 := (Bool.and_eq_true _ _).mp h1.1
    have hfrom : l.fromId = f' := of_decide_eq_true h2.1
    have hto : l.toId = t' := of_decide_eq_true h2.2
    split
    · refine List.any_eq_true.mpr ⟨_, List.mem_map_of_mem _ hl, ?_⟩
      rw [if_neg ?_]
      · exact hlp
      · intro hcontra
        have h3 := (Bool.and_eq_true _ _).mp hcontra
        rcases hne with hne | hne
        · exact hne (hfrom ▸ of_decide_eq_true h3.1)
        · exact hne (hto ▸ of_decide_eq_true h3.2)
    · exact List.any_eq_true.mpr ⟨l, List.mem_append_left _ hl, hlp⟩
  · exact h

theorem halveImportance_links (x : String) (db : DBState) :
    (halveImportance x db).links = db.links := rfl

theorem hasContradicts_of_any (db : DBState) (a b : String)
    (h : db.links.any (fun l =>
      l.fromId = a && l.toId = b && l.relationType = "contradicts") = true) :
    hasContradictsLink db a b = true := by
  unfold hasContradictsLink
  obtain ⟨l, hl, hlp⟩ := List.any_eq_true.mp h
  have h1 := (Bool.and_eq_true _ _).mp hlp
  have h2 := (Bool.and_eq_true _ _).mp h1.1
  refine List.any_eq_true.mpr ⟨l, hl, ?_⟩
  rw [Bool.and_eq_true, Bool.or_eq_true]
  exact ⟨Or.inl (by rw [h2.1, h2.2]; rfl), h1.2⟩

/-- C7 (amended): `detectContradiction` realises the spec's threshold table
exactly (first conjunct, for every score distribution), and in the
`contradiction ≥ 0.8` case the Consolidator resolves without invoking the
LLM — but a `contradicts` edge is only guaranteed to survive when the new
fragment is strictly newer than the candidate; at equal-or-older timestamps
the `superseded_by` upsert overwrites it (see the counterexample). -/
theorem c7_amended_general :
    (∀ s : NLIScores,
      ((detectContradiction s).contradicts,
       (detectContradiction s).needsEscalation) = nliSpecTable s) ∧
    ∀ (env : Env) (nf cand : Fragment) (simv : ℚ) (db : DBState)
      (rd : RedisState) (s : NLIScores),
      env.nliAvail = true →
      env.nli nf.content cand.content = some s →
      (0.8 : ℚ) ≤ s.contradiction →
      hasContradictsLink db nf.fid cand.fid = false →
      db.fragments.any (·.fid = nf.fid) = true →
      db.fragments.any (·.fid = cand.fid) = true →
      nf.fid ≠ cand.fid →
      nf.createdAt > cand.createdAt →
      (processPair env nf cand simv db rd).llmCalled = false ∧
      (processPair env nf cand simv db rd).outcome = .nliResolved ∧
      hasContradictsLink (processPair env nf cand simv db rd).db
        nf.fid cand.fid = true := by
  constructor
  · intro s
    unfold detectContradiction nliSpecTable
    split_ifs with h1 h2 h3 h4
    · simp [h1]
    · simp [h1, h2]
    · simp [h1, h2, h3]
    · simp [h1, h2, h3, h4]
    · simp [h1, h2, h3, h4]
  · intro env nf cand simv db rd s henv hnli hc hno hf ht hne hnewer
    have hred : processPair env nf cand simv db rd =
        ⟨resolveContradiction nf cand db, rd, false, .nliResolved⟩ := by
      unfold processPair detectContradiction
      rw [if_neg (by rw [hno]; exact Bool.false_ne_true), henv, hnli]
      simp only [Option.map_some', if_true]
      rw [if_pos hc]
      rfl
    refine ⟨by rw [hred], by rw [hred], ?_⟩
    rw [hred]
    show hasContradictsLink (resolveContradiction nf cand db) nf.fid cand.fid
      = true
    unfold resolveContradiction
    rw [if_pos hnewer]
    apply hasContradicts_of_any
    apply createLink_preserves
    · exact Or.inl hne
    · have e1 := createLink_establishes nf.fid cand.fid "contradicts" "system"
        db hf ht (by decide)
      by_cases ha : (!cand.isAnchor) = true
      · rw [if_pos ha, halveImportance_links]
        exact e1
      · rw [if_neg ha]
        exact e1

/-- C7 witness: the amended theorem's second part applied at a concrete
strictly-newer pair with NLI contradiction 0.9. -/
theorem c7_amended_witness :
    (processPair c7Env c7N2 c7C2 0 c7Db2 redisDown).llmCalled = false ∧
    (processPair c7Env c7N2 c7C2 0 c7Db2 redisDown).outcome = .nliResolved ∧
    hasContradictsLink (processPair c7Env c7N2 c7C2 0 c7Db2 redisDown).db
      c7N2.fid c7C2.fid = true :=
  c7_amended_general.2 c7Env c7N2 c7C2 0 c7Db2 redisDown
    { entailment := 0.05, neutral := 0.05, contradiction := 0.9 }
    rfl rfl (by with_unfolding_all decide) rfl rfl rfl
    (by decide) (by decide)

/-! ## Claim theorems: C10 -/

theorem cacheFragment_wm (fid : String) (h : Hit) (rd : RedisState) :
    (cacheFragment fid h rd).wm = rd.wm := by
  unfold cacheFragment; split <;> rfl

theorem foldl_cacheFragment_wm (l : List Hit) (rd : RedisState) :
    (l.foldl (fun rd h => cacheFragment h.frag.fid h rd) rd).wm = rd.wm := by
  induction l generalizing rd with
  | nil => rfl
  | cons x xs ih => rw [List.foldl_cons, ih, cacheFragment_wm]

theorem wm_ite_foldl (c : Prop) [Decidable c] (l : List Hit) (rd : RedisState) :
    (if c then l.foldl (fun rd h => cacheFragment h.frag.fid h rd) rd
     else rd).wm = rd.wm := by
  split
  · exact foldl_cacheFragment_wm _ _
  · rfl

theorem fragmentSearch_wm (env : Env) (q : SearchQuery) (db : DBState)
    (rd : RedisState) : ((fragmentSearch env q db rd).2.2).wm = rd.wm := by
  unfold fragmentSearch
  dsimp only
  exact wm_ite_foldl _ _ _

theorem detectConflicts_wm (env : Env) (content topic newId : String)
    (db : DBState) (rd : RedisState) :
    ((detectConflicts env content topic newId db rd).2.2).wm = rd.wm := by
  unfold detectConflicts
  exact fragmentSearch_wm env _ db rd

theorem indexFragment_wm (env : Env) (f : Fragment) (sid : Option String)
    (rd : RedisState) : (indexFragment env f sid rd).wm = rd.wm := by
  unfold indexFragment
  split
  · rfl
  · split
    · split <;> rfl
    · rfl

theorem pushToQueue_wm (j : EvalJob) (rd : RedisState) :
    (pushToQueue j rd).wm = rd.wm := by
  unfold pushToQueue; split <;> rfl

/-- C10: a `remember` with `scope = "session"` but no session id takes the
durable branch: the call behaves exactly like the same call with
`scope = "permanent"`, on success reports scope "permanent", and leaves
working memory untouched. -/
theorem c10_sessionless_session_scope_is_permanent (env : Env)
    (freshId : String) (p : RememberParams) (db : DBState) (rd : RedisState)
    (hs : p.scope = some "session") (hsid : p.sessionId = none) :
    managerRemember env freshId p db rd =
      managerRemember env freshId { p with scope := some "permanent" } db rd ∧
    ∀ out db2 rd2, managerRemember env freshId p db rd = .ok (out, db2, rd2) →
      out.scope = "permanent" ∧ rd2.wm = rd.wm := by
  have hperm : rememberPermanent env freshId { p with scope := some "permanent" }
      db rd = rememberPermanent env freshId p db rd := by
    cases p; rfl
  have hmain : managerRemember env freshId p db rd =
      rememberPermanent env freshId p db rd := by
    unfold managerRemember
    rw [hs, hsid]
    rfl
  have hmain2 : managerRemember env freshId { p with scope := some "permanent" }
      db rd = rememberPermanent env freshId { p with scope := some "permanent" }
      db rd := by
    unfold managerRemember
    rfl
  refine ⟨hmain.trans (hmain2.trans hperm).symm, ?_⟩
  intro out db2 rd2 h
  rw [hmain] at h
  unfold rememberPermanent at h
  cases hfc : factoryCreate env freshId (toCreateParams p) with
  | error e =>
    rw [hfc] at h
    exact absurd h (by simp)
  | ok fragment0 =>
    rw [hfc] at h
    simp only [Except.ok.injEq, Prod.mk.injEq] at h
    obtain ⟨ho, hdb, hrd⟩ := h
    constructor
    · rw [← ho]
    · rw [← hrd]
      split
      · rw [pushToQueue_wm, detectConflicts_wm, indexFragment_wm]
      · rw [detectConflicts_wm, indexFragment_wm]

/-- C10 witness: the theorem applied at a concrete session-scope,
session-id-less call against an empty store. -/
theorem c10_witness :
    managerRemember testEnv "f1" c10P emptyDb redisDown =
      managerRemember testEnv "f1" { c10P with scope := some "permanent" }
        emptyDb redisDown ∧
    ∀ out db2 rd2,
      managerRemember testEnv "f1" c10P emptyDb redisDown =
        .ok (out, db2, rd2) →
      out.scope = "permanent" ∧ rd2.wm = redisDown.wm :=
  c10_sessionless_session_scope_is_permanent testEnv "f1" c10P emptyDb
    redisDown rfl rfl

theorem scanGo_scanOut (m : List Char → Option (ℕ × List Char)) :
    ∀ (fuel : ℕ) (l : List Char), l.length ≤ fuel →
      ScanOut m l (scanGo m fuel l) := by
  intro fuel
  induction fuel with
  | zero =>
    intro l hl
    have : l = [] := List.length_eq_zero.mp (Nat.le_zero.mp hl)
    subst this
    exact ScanOut.nil
  | succ f ih =>
    intro l hl
    cases l with
    | nil => exact ScanOut.nil
    | cons c rest =>
      cases hm : m (c :: rest) with
      | none =>
        have : scanGo m (f + 1) (c :: rest) = c :: scanGo m f rest := by
          simp [scanGo, hm]
        rw [this]
        exact ScanOut.copy hm (ih rest (by simpa using Nat.le_of_succ_le_succ hl))
      | some nr =>
        obtain ⟨n, r⟩ := nr
        have : scanGo m (f + 1) (c :: rest) =
            r ++ scanGo m f (rest.drop (n - 1)) := by
          simp [scanGo, hm]
        rw [this]
        refine ScanOut.repl hm (ih _ ?_)
        calc (rest.drop (n - 1)).length ≤ rest.length := by
              rw [List.length_drop]; omega
          _ ≤ f := by simpa using Nat.le_of_succ_le_succ hl

theorem scanRepl_scanOut (m : List Char → Option (ℕ × List Char))
    (l : List Char) : ScanOut m l (scanRepl m l) :=
  scanGo_scanOut m l.length l le_rfl

theorem scanGo_fix (m : List Char → Option (ℕ × List Char)) :
    ∀ (fuel : ℕ) (l : List Char), l.length ≤ fuel →
      (∀ p, IdOrNone m (l.drop p)) → scanGo m fuel l = l := by
  intro fuel
  induction fuel with
  | zero =>
    intro l hl _
    have : l = [] := List.length_eq_zero.mp (Nat.le_zero.mp hl)
    subst this; rfl
  | succ f ih =>
    intro l hl hid
    cases l with
    | nil => rfl
    | cons c rest =>
      cases hm : m (c :: rest) with
      | none =>
        have h1 : scanGo m (f + 1) (c :: rest) = c :: scanGo m f rest := by
          simp [scanGo, hm]
        rw [h1, ih rest (by simpa using Nat.le_of_succ_le_succ hl)
          (fun p => by simpa using hid (p + 1))]
      | some nr =>
        obtain ⟨n, r⟩ := nr
        obtain ⟨hn, hr⟩ := hid 0 n r (by simpa using hm)
        rw [List.drop_zero] at hr
        have h1 : scanGo m (f + 1) (c :: rest) =
            r ++ scanGo m f (rest.drop (n - 1)) := by
          simp [scanGo, hm]
        have hdrop : rest.drop (n - 1) = (c :: rest).drop n := by
          cases n with
          | zero => omega
          | succ k => simp
        rw [h1, hdrop, ih _ (by rw [List.length_drop]; simp at hl ⊢; omega)
          (fun p => by rw [List.drop_drop]; exact hid (n + p)),
          hr, List.take_append_drop]

theorem scanRepl_fix (m : List Char → Option (ℕ × List Char)) (l : List Char)
    (hid : ∀ p, IdOrNone m (l.drop p)) : scanRepl m l = l :=
  scanGo_fix m l.length l le_rfl hid

theorem scanRepl_fix_of_noMatch (m : List Char → Option (ℕ × List Char))
    (l : List Char) (hn : NoMatch m l) : scanRepl m l = l :=
  scanRepl_fix m l (fun p _ _ h => by rw [hn p] at h; cases h)

theorem runLen_le_length (p : Char → Bool) (l : List Char) :
    runLen p l ≤ l.length := by
  induction l with
  | nil => simp [runLen]
  | cons c rest ih => by_cases h : p c = true <;> simp [runLen, h] <;> omega

theorem take_runLen_all (p : Char → Bool) (l : List Char) :
    ∀ c ∈ l.take (runLen p l), p c = true := by
  induction l with
  | nil => simp
  | cons c rest ih =>
    by_cases h : p c = true
    · simp only [runLen, h, if_true, List.take_succ_cons, List.mem_cons]
      rintro x (rfl | hx)
      · exact h
      · exact ih x hx
    · simp [runLen, h]

theorem runLen_ge (p : Char → Bool) (l : List Char) (j : ℕ)
    (hlen : j ≤ l.length) (h : ∀ c ∈ l.take j, p c = true) : j ≤ runLen p l := by
  induction l generalizing j with
  | nil => simp only [List.length_nil, Nat.le_zero] at hlen; simp [hlen, runLen]
  | cons c rest ih =>
    cases j with
    | zero => exact Nat.zero_le _
    | succ j =>
      have hc : p c = true := h c (by simp)
      have : j ≤ runLen p rest :=
        ih j (by simpa using hlen) (fun x hx => h x (by simp [hx]))
      simp [runLen, hc]; omega

theorem runLen_eq (p : Char → Bool) (l : List Char) (j : ℕ) (c : Char)
    (hall : ∀ x ∈ l.take j, p x = true) (hg : l.get? j = some c)
    (hc : p c = false) : runLen p l = j := by
  induction l generalizing j with
  | nil => simp at hg
  | cons d rest ih =>
    cases j with
    | zero =>
      simp only [List.get?] at hg
      injection hg with hg
      subst hg
      simp [runLen, hc]
    | succ j =>
      have hd : p d = true := hall d (by simp)
      have := ih j (fun x hx => hall x (by simp [hx])) (by simpa using hg)
      simp [runLen, hd, this]

theorem runLen_append_blocked (p : Char → Bool) (A B : List Char)
    (hB : runLen p B = 0) : runLen p (A ++ B) ≤ runLen p A + 0 := by
  induction A with
  | nil => simpa [runLen] using Nat.le_of_eq hB
  | cons c rest ih =>
    by_cases h : p c = true <;> simp [runLen, h] <;> omega

theorem scanOut_take {m : List Char → Option (ℕ × List Char)}
    {bl : Char → Bool} {Pd : List Char → Prop} (hT : TokOk m bl Pd)
    {t t' : List Char}
    (h : ScanOut m t t') :
    ∀ j, (∀ c ∈ t'.take j, bl c = false) → t'.take j = t.take j := by
  induction h with
  | nil => intro j _; rfl
  | @copy c rest out hm hso ih =>
    intro j hbl
    cases j with
    | zero => rfl
    | succ j =>
      simp only [List.take_succ_cons]
      rw [ih j (fun x hx => hbl x (by simp [hx]))]
  | @repl c rest out n r hm hso ih =>
    intro j hbl
    obtain ⟨i, c0, rest0, hi, hr, hc0, _⟩ := hT _ _ _ hm
    have hlen' : (List.take i (c :: rest)).length = i := by
      rw [List.length_take]; omega
    by_cases hji : j ≤ i
    · subst hr
      rw [List.append_assoc,
        List.take_append_of_le_length (le_of_le_of_eq hji hlen'.symm),
        List.take_take, min_eq_left hji]
    · push_neg at hji
      exfalso
      have hget : (r ++ out)[i]? = some c0 := by
        subst hr
        rw [List.append_assoc, List.getElem?_append_right (le_of_eq hlen')]
        simp [hlen']
      have hmem : c0 ∈ (r ++ out).take j := by
        have h2 : ((r ++ out).take j)[i]? = some c0 := by
          rw [List.getElem?_take_of_lt hji]; exact hget
        obtain ⟨hlt, hEq⟩ := List.getElem?_eq_some_iff.mp h2
        exact hEq ▸ List.getElem_mem hlt
      have := hbl c0 hmem
      rw [hc0] at this
      cases this

theorem runLen_append_ge (p : Char → Bool) (A B : List Char) :
    runLen p A ≤ runLen p (A ++ B) := by
  induction A with
  | nil => simp [runLen]
  | cons c rest ih => by_cases h : p c = true <;> simp [runLen, h, ih]

/-- Either the scan changed nothing, or there is a first divergence: a common
prefix, a blocked char in the output, and a `Pd` suffix in the input. -/
theorem scanOut_exists_block {m : List Char → Option (ℕ × List Char)}
    {bl : Char → Bool} {Pd : List Char → Prop} (hT : TokOk m bl Pd)
    {t t' : List Char} (h : ScanOut m t t') :
    t' = t ∨ ∃ j cb, t'.take j = t.take j ∧ t'[j]? = some cb ∧ bl cb = true ∧
      Pd (t.drop j) := by
  induction h with
  | nil => exact Or.inl rfl
  | @copy c rest out hm hso ih =>
    rcases ih with heq | ⟨j, cb, hcom, hget, hbl, hpd⟩
    · exact Or.inl (by rw [heq])
    · refine Or.inr ⟨j + 1, cb, ?_, ?_, hbl, ?_⟩
      · simp [List.take_succ_cons, hcom]
      · simpa using hget
      · simpa using hpd
  | @repl c rest out n r hm hso ih =>
    obtain ⟨i, c0, rest0, hi, hr, hc0, hpd⟩ := hT _ _ _ hm
    have hlen' : (List.take i (c :: rest)).length = i := by
      rw [List.length_take]; omega
    refine Or.inr ⟨i, c0, ?_, ?_, hc0, hpd⟩
    · subst hr
      rw [List.append_assoc, List.take_append_of_le_length (le_of_eq hlen'.symm),
        List.take_take, min_self]
    · subst hr
      rw [List.append_assoc, List.getElem?_append_right (le_of_eq hlen')]
      simp [hlen']

/-- While the input's characters cannot start a match (their heads fail the
`Phead` shape every match head has), the scan copies them verbatim. -/
theorem scanOut_copy_prefix {m : List Char → Option (ℕ × List Char)}
    {Phead : Char → Bool}
    (hH : ∀ l n r, m l = some (n, r) → ∃ d t₀, l = d :: t₀ ∧ Phead d = true)
    {t t' : List Char} (h : ScanOut m t t') :
    ∀ j, (∀ c ∈ t.take j, Phead c = false) →
      t'.take j = t.take j ∧ ScanOut m (t.drop j) (t'.drop j) := by
  induction h with
  | nil => intro j _; exact ⟨rfl, by simpa using ScanOut.nil⟩
  | @copy c rest out hm hso ih =>
    intro j hj
    cases j with
    | zero => exact ⟨rfl, ScanOut.copy hm hso⟩
    | succ j =>
      obtain ⟨h1, h2⟩ := ih j (fun x hx => hj x (by simp [hx]))
      exact ⟨by simp [h1], by simpa using h2⟩
  | @repl c rest out n r hm hso ih =>
    intro j hj
    cases j with
    | zero => exact ⟨rfl, ScanOut.repl hm hso⟩
    | succ j =>
      obtain ⟨d, t₀, hdt, hd⟩ := hH _ _ _ hm
      exfalso
      have : d ∈ (c :: rest).take (j + 1) := by
        rw [hdt]; simp
      have := hj d this
      rw [hd] at this
      cases this

/-! ## C9: rule 1 (API keys) -/

theorem r1_inv {l : List Char} {n : ℕ} {r : List Char}
    (h : r1MatchAt l = some (n, r)) :
    r = "[REDACTED_API_KEY]".toList ∧
    ((∃ v, l = 's' :: 'k' :: '-' :: v ∧ 32 ≤ runLen isAlnumCh v ∧
        n = 3 + runLen isAlnumCh v) ∨
     (∃ v, l = 'A' :: 'I' :: 'z' :: 'a' :: v ∧ 35 ≤ runLen isApi2Ch v ∧
        n = 39)) := by
  unfold r1MatchAt at h
  split at h
  next v =>
    split at h
    next hge =>
      injection h with h'
      injection h' with h1 h2
      exact ⟨h2.symm, Or.inl ⟨v, rfl, hge, h1.symm⟩⟩
    next => exact absurd h (by simp)
  next v =>
    split at h
    next hge =>
      injection h with h'
      injection h' with h1 h2
      exact ⟨h2.symm, Or.inr ⟨v, rfl, hge, h1.symm⟩⟩
    next => exact absurd h (by simp)
  next => exact absurd h (by simp)

theorem r1_intro_sk {v : List Char} (h : 32 ≤ runLen isAlnumCh v) :
    r1MatchAt ('s' :: 'k' :: '-' :: v) ≠ none := by
  simp [r1MatchAt, h]

theorem r1_intro_ai {v : List Char} (h : 35 ≤ runLen isApi2Ch v) :
    r1MatchAt ('A' :: 'I' :: 'z' :: 'a' :: v) ≠ none := by
  simp [r1MatchAt, h]

theorem tokOk_r1 : TokOk r1MatchAt (fun c => c = '[') (fun _ => True) := by
  intro l n r h
  refine ⟨0, '[', "REDACTED_API_KEY]".toList, Nat.zero_le _, ?_, by decide,
    trivial⟩
  rw [(r1_inv h).1]
  rfl

theorem r1_tok_apikey (p : ℕ) (hp : p < 18) (tail : List Char) :
    r1MatchAt ("[REDACTED_API_KEY]".toList.drop p ++ tail) = none := by
  interval_cases p <;> rfl

theorem take_common_of_le {u u' : List Char} {j k : ℕ}
    (hcom : u'.take j = u.take j) (hk : k ≤ j) : u'.take k = u.take k := by
  have h2 := congrArg (List.take k) hcom
  simpa [List.take_take, min_eq_left hk] using h2

theorem mem_take_of_runLen_ge {p : Char → Bool} {v : List Char} {K : ℕ}
    (hK : K ≤ runLen p v) {c : Char} (hc : c ∈ v.take K) : p c = true := by
  have h7 : v.take K = (v.take (runLen p v)).take K := by
    rw [List.take_take, min_eq_left hK]
  rw [h7] at hc
  exact take_runLen_all p v _ (List.mem_of_mem_take hc)

theorem r1_reflect {u u' : List Char} {j : ℕ}
    (hcom : u'.take j = u.take j)
    (hblk : ∀ cb, u'[j]? = some cb → cb = '[' ∨ cb = ':')
    (hnone : r1MatchAt u = none) : r1MatchAt u' = none := by
  cases hx : r1MatchAt u' with
  | none => rfl
  | some nr =>
    exfalso
    obtain ⟨n, r⟩ := nr
    obtain ⟨hr, hcase⟩ := r1_inv hx
    rcases hcase with ⟨v, hu', hge, hn⟩ | ⟨v, hu', hge, hn⟩
    · have hvlen : 32 ≤ v.length := le_trans hge (runLen_le_length _ _)
      have hulen : 35 ≤ u'.length := by rw [hu']; simp; omega
      have htk : u'.take 35 = 's' :: 'k' :: '-' :: v.take 32 := by
        rw [hu']; rfl
      have hj35 : 35 ≤ j := by
        by_contra hlt
        push_neg at hlt
        have hjlen : j < u'.length := lt_of_lt_of_le hlt hulen
        have hget : u'[j]? = some (u'[j]) := List.getElem?_eq_getElem hjlen
        have hmem : u'[j] ∈ u'.take 35 := by
          have h2 : (u'.take 35)[j]? = some (u'[j]) := by
            rw [List.getElem?_take_of_lt hlt]; exact hget
          obtain ⟨hlt2, hEq⟩ := List.getElem?_eq_some_iff.mp h2
          exact hEq ▸ List.getElem_mem hlt2
        rw [htk] at hmem
        have hbl := hblk _ hget
        simp only [List.mem_cons] at hmem
        rcases hmem with h3 | h3 | h3 | h3
        · rw [h3] at hbl; rcases hbl with h4 | h4 <;> exact absurd h4 (by decide)
        · rw [h3] at hbl; rcases hbl with h4 | h4 <;> exact absurd h4 (by decide)
        · rw [h3] at hbl; rcases hbl with h4 | h4 <;> exact absurd h4 (by decide)
        · have h6 := mem_take_of_runLen_ge hge h3
          rcases hbl with h4 | h4 <;> rw [h4] at h6 <;>
            exact absurd h6 (by decide)
      have hc35 : u'.take 35 = u.take 35 := take_common_of_le hcom hj35
      have hu35 : u.take 35 = 's' :: 'k' :: '-' :: v.take 32 := by
        rw [← hc35, htk]
      have hu_dec : u = 's' :: 'k' :: '-' :: (v.take 32 ++ u.drop 35) := by
        conv_lhs => rw [← List.take_append_drop 35 u]
        rw [hu35]
        rfl
      have hrun : 32 ≤ runLen isAlnumCh (v.take 32 ++ u.drop 35) := by
        refine runLen_ge _ _ _ ?_ ?_
        · rw [List.length_append, List.length_take]
          omega
        · intro c hc
          rw [List.take_append_of_le_length (by rw [List.length_take]; omega),
            List.take_take, min_self] at hc
          exact mem_take_of_runLen_ge hge hc
      exact r1_intro_sk hrun (by rw [← hu_dec]; exact hnone)
    · have hvlen : 35 ≤ v.length := le_trans hge (runLen_le_length _ _)
      have hulen : 39 ≤ u'.length := by rw [hu']; simp; omega
      have htk : u'.take 39 = 'A' :: 'I' :: 'z' :: 'a' :: v.take 35 := by
        rw [hu']; rfl
      have hj39 : 39 ≤ j := by
        by_contra hlt
        push_neg at hlt
        have hjlen : j < u'.length := lt_of_lt_of_le hlt hulen
        have hget : u'[j]? = some (u'[j]) := List.getElem?_eq_getElem hjlen
        have hmem : u'[j] ∈ u'.take 39 := by
          have h2 : (u'.take 39)[j]? = some (u'[j]) := by
            rw [List.getElem?_take_of_lt hlt]; exact hget
          obtain ⟨hlt2, hEq⟩ := List.getElem?_eq_some_iff.mp h2
          exact hEq ▸ List.getElem_mem hlt2
        rw [htk] at hmem
        have hbl := hblk _ hget
        simp only [List.mem_cons] at hmem
        rcases hmem with h3 | h3 | h3 | h3 | h3
        · rw [h3] at hbl; rcases hbl with h4 | h4 <;> exact absurd h4 (by decide)
        · rw [h3] at hbl; rcases hbl with h4 | h4 <;> exact absurd h4 (by decide)
        · rw [h3] at hbl; rcases hbl with h4 | h4 <;> exact absurd h4 (by decide)
        · rw [h3] at hbl; rcases hbl with h4 | h4 <;> exact absurd h4 (by decide)
        · have h6 := mem_take_of_runLen_ge hge h3
          rcases hbl with h4 | h4 <;> rw [h4] at h6 <;>
            exact absurd h6 (by decide)
      have hc39 : u'.take 39 = u.take 39 := take_common_of_le hcom hj39
      have hu39 : u.take 39 = 'A' :: 'I' :: 'z' :: 'a' :: v.take 35 := by
        rw [← hc39, htk]
      have hu_dec : u = 'A' :: 'I' :: 'z' :: 'a' :: (v.take 35 ++ u.drop 39) := by
        conv_lhs => rw [← List.take_append_drop 39 u]
        rw [hu39]
        rfl
      have hrun : 35 ≤ runLen isApi2Ch (v.take 35 ++ u.drop 39) := by
        refine runLen_ge _ _ _ ?_ ?_
        · rw [List.length_append, List.length_take]
          omega
        · intro c hc
          rw [List.take_append_of_le_length (by rw [List.length_take]; omega),
            List.take_take, min_self] at hc
          exact mem_take_of_runLen_ge hge hc
      exact r1_intro_ai hrun (by rw [← hu_dec]; exact hnone)

/-! ## C9: no-match drivers -/

theorem drop_append_left {r out : List Char} {p : ℕ} (hp : p ≤ r.length) :
    (r ++ out).drop p = r.drop p ++ out := by
  rw [List.drop_append_of_le_length hp]

theorem drop_append_right2 {r out : List Char} {p : ℕ} (hp : r.length ≤ p) :
    (r ++ out).drop p = out.drop (p - r.length) := by
  rw [List.drop_append_eq_append_drop, List.drop_eq_nil_of_le hp,
    List.nil_append]

/-- Copying scan over a matcher `m` whose own matches never reappear in its
replacements: output of the scan (with the scan-time no-match facts) has no
`m`-match anywhere. -/
theorem scanOut_self_noMatch {m : List Char → Option (ℕ × List Char)}
    {bl : Char → Bool} {Pd : List Char → Prop} (hT : TokOk m bl Pd)
    (hrefl : ∀ (u u' : List Char) (j : ℕ), u'.take j = u.take j →
      (∀ cb, u'[j]? = some cb → cb = '[' ∨ cb = ':') →
      m u = none → m u' = none)
    (hbl_sub : ∀ c, bl c = true → c = '[' ∨ c = ':')
    (hnil : m [] = none)
    (htok : ∀ l n r, m l = some (n, r) →
      ∀ out₂ p, p < r.length → m (r.drop p ++ out₂) = none)
    {t t' : List Char} (h : ScanOut m t t') : NoMatch m t' := by
  induction h with
  | nil => intro p; simpa using hnil
  | @copy c rest out hm hso ih =>
    intro p
    cases p with
    | zero =>
      rw [List.drop_zero]
      rcases scanOut_exists_block hT (ScanOut.copy hm hso) with
        heq | ⟨j, cb, hcom, hget, hb, _⟩
      · rw [heq]; exact hm
      · refine hrefl _ _ j hcom ?_ hm
        intro cb' hcb'
        rw [hget] at hcb'
        injection hcb' with h'
        exact h' ▸ hbl_sub cb hb
    | succ p => simpa using ih p
  | @repl c rest out n r hm hso ih =>
    intro p
    by_cases hp : p < r.length
    · rw [drop_append_left (le_of_lt hp)]
      exact htok _ _ _ hm out p hp
    · push_neg at hp
      rw [drop_append_right2 hp]
      exact ih _

/-- A scan over producer `m_p` preserves absence of `m_t`-matches. -/
theorem scanOut_preserve_noMatch
    {m_p m_t : List Char → Option (ℕ × List Char)}
    {bl : Char → Bool} {Pd : List Char → Prop} (hT : TokOk m_p bl Pd)
    (hrefl : ∀ (u u' : List Char) (j : ℕ), u'.take j = u.take j →
      (∀ cb, u'[j]? = some cb → cb = '[' ∨ cb = ':') →
      m_t u = none → m_t u' = none)
    (hbl_sub : ∀ c, bl c = true → c = '[' ∨ c = ':')
    (hnil : m_t [] = none)
    (htok : ∀ l n r, m_p l = some (n, r) → NoMatch m_t l →
      ∀ out₂ p, p < r.length → m_t (r.drop p ++ out₂) = none)
    {t t' : List Char} (h : ScanOut m_p t t') (hN : NoMatch m_t t) :
    NoMatch m_t t' := by
  induction h with
  | nil => intro p; simpa using hnil
  | @copy c rest out hm hso ih =>
    intro p
    cases p with
    | zero =>
      rw [List.drop_zero]
      rcases scanOut_exists_block hT (ScanOut.copy hm hso) with
        heq | ⟨j, cb, hcom, hget, hb, _⟩
      · rw [heq]; simpa using hN 0
      · refine hrefl _ _ j hcom ?_ (by simpa using hN 0)
        intro cb' hcb'
        rw [hget] at hcb'
        injection hcb' with h'
        exact h' ▸ hbl_sub cb hb
    | succ p =>
      have hN' : NoMatch m_t rest := fun q => by simpa using hN (q + 1)
      simpa using ih hN' p
  | @repl c rest out n r hm hso ih =>
    intro p
    by_cases hp : p < r.length
    · rw [drop_append_left (le_of_lt hp)]
      exact htok _ _ _ hm hN out p hp
    · push_neg at hp
      rw [drop_append_right2 hp]
      have hN' : NoMatch m_t (rest.drop (n - 1)) := fun q => by
        rw [List.drop_drop]
        have := hN (q + (n - 1) + 1)
        rw [List.drop_succ_cons] at this
        rwa [Nat.add_comm (n - 1) q]
      exact ih hN' _

/-! ## C9: matcher inversions and TokOk instances -/

theorem r2_inv {l : List Char} {n : ℕ} {r : List Char}
    (h : r2MatchAt l = some (n, r)) :
    r = "[REDACTED_EMAIL]".toList ∧ 1 ≤ runLen isLclCh l ∧
    ∃ rest, l.drop (runLen isLclCh l) = '@' :: rest ∧
    ∃ d t, emailDomSplit (rest.take (runLen isDomCh rest)) = some (d, t) ∧
      1 ≤ d ∧ n = runLen isLclCh l + 1 + d + 1 + t := by
  unfold r2MatchAt at h
  dsimp only at h
  split at h
  next hL => exact absurd h (by simp)
  next hL =>
    split at h
    next rest heq =>
      split at h
      next d t hsplit =>
        split at h
        next hd =>
          injection h with h'
          injection h' with h1 h2
          exact ⟨h2.symm, Nat.one_le_iff_ne_zero.mpr hL, rest, heq,
            d, t, hsplit, hd, h1.symm⟩
        next => exact absurd h (by simp)
      next => exact absurd h (by simp)
    next => exact absurd h (by simp)

theorem r4_inv {l : List Char} {n : ℕ} {r : List Char}
    (h : r4MatchAt l = some (n, r)) :
    r = "[REDACTED_PHONE]".toList ∧
    ∃ c rest nT, l = '0' :: '1' :: c :: rest ∧
      (c = '0' ∨ c = '1' ∨ c = '6' ∨ c = '7' ∨ c = '8' ∨ c = '9') ∧
      r4Tail rest = some nT ∧ n = 3 + nT := by
  unfold r4MatchAt at h
  split at h
  next c rest =>
    split at h
    next hc =>
      split at h
      next nT htail =>
        injection h with h'
        injection h' with h1 h2
        simp only [Bool.or_eq_true, decide_eq_true_eq] at hc
        exact ⟨h2.symm, c, rest, nT, rfl, by tauto, htail, h1.symm⟩
      next => exact absurd h (by simp)
    next => exact absurd h (by simp)
  next => exact absurd h (by simp)

theorem ciHeadEq_length : ∀ (kw l : List Char), ciHeadEq kw l = true →
    kw.length ≤ l.length := by
  intro kw
  induction kw with
  | nil => intro l _; simp
  | cons kc kws ih =>
    intro l h
    cases l with
    | nil => exact absurd h (by simp [ciHeadEq])
    | cons c cs =>
      simp only [ciHeadEq, Bool.and_eq_true] at h
      simpa using ih cs h.2

theorem ciHeadEq_take_congr : ∀ (kw l₁ l₂ : List Char) (k : ℕ),
    kw.length ≤ k → l₁.take k = l₂.take k →
    ciHeadEq kw l₁ = ciHeadEq kw l₂ := by
  intro kw
  induction kw with
  | nil => intro l₁ l₂ k _ _; rfl
  | cons kc kws ih =>
    intro l₁ l₂ k hk hcom
    cases k with
    | zero => simp at hk
    | succ k =>
      cases l₁ with
      | nil =>
        cases l₂ with
        | nil => rfl
        | cons a₂ t₂ => simp at hcom
      | cons a₁ t₁ =>
        cases l₂ with
        | nil => simp at hcom
        | cons a₂ t₂ =>
          simp only [List.take_succ_cons, List.cons.injEq] at hcom
          obtain ⟨rfl, hcom'⟩ := hcom
          simp only [ciHeadEq]
          rw [ih t₁ t₂ k (by simpa using hk) hcom']

theorem r3_inv {l : List Char} {n : ℕ} {r : List Char}
    (h : r3MatchAt l = some (n, r)) :
    ∃ kw, pwdKeywords.find? (fun kw => ciHeadEq kw l) = some kw ∧
      r = l.take kw.length ++ ": [REDACTED_PWD]".toList ∧
      2 ≤ kw.length ∧ kw.length ≤ l.length ∧
      ∃ w1 c w2 v,
        w1 = runLen jsWsCh (l.drop kw.length) ∧
        (l.drop (kw.length + w1)).head? = some c ∧ (c = ':' ∨ c = '=') ∧
        w2 = runLen jsWsCh (l.drop (kw.length + w1 + 1)) ∧
        v = runLen isValCh (l.drop (kw.length + w1 + 1 + w2)) ∧ 1 ≤ v ∧
        n = kw.length + w1 + 1 + w2 + v := by
  unfold r3MatchAt at h
  split at h
  next => exact absurd h (by simp)
  next kw hfind =>
    have hmem := List.mem_of_find?_eq_some hfind
    have hci := List.find?_some hfind
    have hlen := ciHeadEq_length _ _ hci
    have hkw2 : 2 ≤ kw.length := by
      simp only [pwdKeywords, List.mem_cons] at hmem
      rcases hmem with rfl | rfl | rfl | rfl | rfl | h0
      · decide
      · decide
      · decide
      · decide
      · decide
      · simp at h0
    dsimp only at h
    split at h
    next c rest2 heq =>
      split at h
      next hc =>
        split at h
        next hv =>
          injection h with h'
          injection h' with h1 h2
          have hrest : rest2 =
              l.drop (kw.length + runLen jsWsCh (l.drop kw.length) + 1) := by
            have h4 : (l.drop (kw.length + runLen jsWsCh (l.drop kw.length))).tail
                = rest2 := by rw [heq]; rfl
            rw [← h4, ← List.drop_one, List.drop_drop]
          simp only [Bool.or_eq_true, decide_eq_true_eq] at hc
          refine ⟨kw, hfind, h2.symm, hkw2, hlen,
            runLen jsWsCh (l.drop kw.length), c, runLen jsWsCh rest2,
            runLen isValCh (rest2.drop (runLen jsWsCh rest2)),
            rfl, (by rw [heq]; rfl), hc, (by rw [hrest]),
            (by rw [hrest, List.drop_drop]), hv, h1.symm⟩
        next => exact absurd h (by simp)
      next => exact absurd h (by simp)
    next => exact absurd h (by simp)

/-! ## C9: no rule-1 match survives any stage -/

theorem tokOk_r2 : TokOk r2MatchAt (fun c => c = '[') (fun _ => True) := by
  intro l n r h
  refine ⟨0, '[', "REDACTED_EMAIL]".toList, Nat.zero_le _, ?_, by decide,
    trivial⟩
  rw [(r2_inv h).1]
  rfl

theorem tokOk_r4 : TokOk r4MatchAt (fun c => c = '[') (fun _ => True) := by
  intro l n r h
  refine ⟨0, '[', "REDACTED_PHONE]".toList, Nat.zero_le _, ?_, by decide,
    trivial⟩
  rw [(r4_inv h).1]
  rfl

theorem tokOk_r3 : TokOk r3MatchAt (fun c => c = ':') (fun _ => True) := by
  intro l n r h
  obtain ⟨kw, _, hr, _, hklen, _⟩ := r3_inv h
  exact ⟨kw.length, ':', " [REDACTED_PWD]".toList, hklen, hr, by decide,
    trivial⟩

theorem blsub_bracket : ∀ c : Char, (fun c => decide (c = '[')) c = true →
    c = '[' ∨ c = ':' := fun _ h => Or.inl (of_decide_eq_true h)

theorem blsub_colon : ∀ c : Char, (fun c => decide (c = ':')) c = true →
    c = '[' ∨ c = ':' := fun _ h => Or.inr (of_decide_eq_true h)

theorem r1_tok_email (p : ℕ) (hp : p < 16) (tail : List Char) :
    r1MatchAt ("[REDACTED_EMAIL]".toList.drop p ++ tail) = none := by
  interval_cases p <;> rfl

theorem r1_tok_phone (p : ℕ) (hp : p < 16) (tail : List Char) :
    r1MatchAt ("[REDACTED_PHONE]".toList.drop p ++ tail) = none := by
  interval_cases p <;> rfl

theorem r1_tok_pwdTail (p : ℕ) (hp : p < 16) (tail : List Char) :
    r1MatchAt (": [REDACTED_PWD]".toList.drop p ++ tail) = none := by
  interval_cases p <;> rfl

theorem noMatch_r1_self {t t' : List Char} (h : ScanOut r1MatchAt t t') :
    NoMatch r1MatchAt t' := by
  refine scanOut_self_noMatch tokOk_r1
    (fun u u' j hcom hblk hnone => r1_reflect hcom hblk hnone)
    blsub_bracket rfl ?_ h
  intro l n r hm out₂ p hp
  rw [(r1_inv hm).1] at hp ⊢
  exact r1_tok_apikey p (by simpa using hp) out₂

theorem noMatch_r1_after_r2 {t t' : List Char} (h : ScanOut r2MatchAt t t')
    (hN : NoMatch r1MatchAt t) : NoMatch r1MatchAt t' := by
  refine scanOut_preserve_noMatch tokOk_r2
    (fun u u' j hcom hblk hnone => r1_reflect hcom hblk hnone)
    blsub_bracket rfl ?_ h hN
  intro l n r hm _ out₂ p hp
  rw [(r2_inv hm).1] at hp ⊢
  exact r1_tok_email p (by simpa using hp) out₂

theorem noMatch_r1_after_r4 {t t' : List Char} (h : ScanOut r4MatchAt t t')
    (hN : NoMatch r1MatchAt t) : NoMatch r1MatchAt t' := by
  refine scanOut_preserve_noMatch tokOk_r4
    (fun u u' j hcom hblk hnone => r1_reflect hcom hblk hnone)
    blsub_bracket rfl ?_ h hN
  intro l n r hm _ out₂ p hp
  rw [(r4_inv hm).1] at hp ⊢
  exact r1_tok_phone p (by simpa using hp) out₂

theorem noMatch_r1_after_r3 {t t' : List Char} (h : ScanOut r3MatchAt t t')
    (hN : NoMatch r1MatchAt t) : NoMatch r1MatchAt t' := by
  refine scanOut_preserve_noMatch tokOk_r3
    (fun u u' j hcom hblk hnone => r1_reflect hcom hblk hnone)
    blsub_colon rfl ?_ h hN
  intro l n r hm hNl out₂ p hp
  obtain ⟨kw, hfind, hr, hkw2, hklen, _⟩ := r3_inv hm
  have hlenk : (l.take kw.length).length = kw.length := by
    rw [List.length_take]; omega
  have hrlen : r.length = kw.length + 16 := by
    rw [hr, List.length_append, hlenk]; rfl
  by_cases hpk : p < kw.length
  · have hdec : r.drop p ++ out₂ =
        (l.drop p).take (kw.length - p) ++
          (": [REDACTED_PWD]".toList ++ out₂) := by
      rw [hr, drop_append_left (by omega : p ≤ (l.take kw.length).length),
        List.drop_take, List.append_assoc]
    have hlen2 : (kw.length - p) ≤ (l.drop p).length := by
      rw [List.length_drop]; omega
    refine r1_reflect (u := l.drop p) (j := kw.length - p) ?_ ?_ (hNl p)
    · rw [hdec, List.take_append_of_le_length
        (by rw [List.length_take, List.length_drop]; omega),
        List.take_take, min_self]
    · intro cb hcb
      rw [hdec, List.getElem?_append_right
        (by rw [List.length_take, List.length_drop]; omega)] at hcb
      rw [List.length_take] at hcb
      have h0 : kw.length - p - min (kw.length - p) (l.length - p) = 0 := by
        rw [List.length_drop] at hlen2
        omega
      rw [List.length_drop, h0] at hcb
      injection hcb with h5
      exact Or.inr h5.symm
  · push_neg at hpk
    have hdec : r.drop p ++ out₂ =
        ": [REDACTED_PWD]".toList.drop (p - kw.length) ++ out₂ := by
      rw [hr, drop_append_right2 (by omega : (l.take kw.length).length ≤ p),
        hlenk]
    rw [hdec]
    exact r1_tok_pwdTail (p - kw.length) (by omega) out₂

theorem noMatch_r1_redacted (x : List Char) :
    NoMatch r1MatchAt (scanRepl r4MatchAt (scanRepl r3MatchAt
      (scanRepl r2MatchAt (scanRepl r1MatchAt x)))) := by
  exact noMatch_r1_after_r4 (scanRepl_scanOut _ _)
    (noMatch_r1_after_r3 (scanRepl_scanOut _ _)
      (noMatch_r1_after_r2 (scanRepl_scanOut _ _)
        (noMatch_r1_self (scanRepl_scanOut _ _))))

theorem scanOut_exists_block_pos {m : List Char → Option (ℕ × List Char)}
    {bl : Char → Bool} {Pd : ℕ → List Char → Prop} (hT : TokOkP m bl Pd)
    (hshift : ∀ j c t, Pd j t → Pd (j + 1) (c :: t))
    {t t' : List Char} (h : ScanOut m t t') :
    t' = t ∨ ∃ j cb, t'.take j = t.take j ∧ t'[j]? = some cb ∧ bl cb = true ∧
      Pd j t := by
  induction h with
  | nil => exact Or.inl rfl
  | @copy c rest out hm hso ih =>
    rcases ih with heq | ⟨j, cb, hcom, hget, hbl, hpd⟩
    · exact Or.inl (by rw [heq])
    · refine Or.inr ⟨j + 1, cb, ?_, ?_, hbl, hshift j c rest hpd⟩
      · simp [List.take_succ_cons, hcom]
      · simpa using hget
  | @repl c rest out n r hm hso ih =>
    obtain ⟨i, c0, rest0, hi, hr, hc0, hpd⟩ := hT _ _ _ hm
    have hlen' : (List.take i (c :: rest)).length = i := by
      rw [List.length_take]; omega
    refine Or.inr ⟨i, c0, ?_, ?_, hc0, hpd⟩
    · subst hr
      rw [List.append_assoc, List.take_append_of_le_length (le_of_eq hlen'.symm),
        List.take_take, min_self]
    · subst hr
      rw [List.append_assoc, List.getElem?_append_right (le_of_eq hlen')]
      simp [hlen']

theorem pd3_shift : ∀ (j : ℕ) (c : Char) (t : List Char),
    Pd3 j t → Pd3 (j + 1) (c :: t) := by
  intro j c t ⟨kw₂, n₂, r₂, hmem, hle, hfind, hm⟩
  refine ⟨kw₂, n₂, r₂, hmem, by omega, ?_, ?_⟩
  · rw [show j + 1 - kw₂.length = (j - kw₂.length) + 1 by omega,
      List.drop_succ_cons]
    exact hfind
  · rw [show j + 1 - kw₂.length = (j - kw₂.length) + 1 by omega,
      List.drop_succ_cons]
    exact hm

theorem tokOkP_r3 : TokOkP r3MatchAt (fun c => c = ':') Pd3 := by
  intro l n r h
  obtain ⟨kw, hfind, hr, hkw2, hklen, _⟩ := r3_inv h
  refine ⟨kw.length, ':', " [REDACTED_PWD]".toList, hklen, ?_, by decide, ?_⟩
  · rw [hr]; rfl
  · exact ⟨kw, n, r, List.mem_of_find?_eq_some hfind, le_rfl,
      by simpa using hfind, by simpa using h⟩

theorem tokOk_r4P : TokOk r4MatchAt (fun c => c = '[')
    (fun t => t.head? = some '0') := by
  intro l n r h
  obtain ⟨hr, c, rest, nT, hl, hc, htail, hn⟩ := r4_inv h
  refine ⟨0, '[', "REDACTED_PHONE]".toList, Nat.zero_le _, ?_, by decide, ?_⟩
  · rw [hr]; rfl
  · rw [List.drop_zero, hl]; rfl

/-! ## C9: rule 4 (phone numbers) -/

theorem sepOpts_zero (l : List Char) : 0 ∈ sepOpts l := by
  cases l with
  | nil => simp [sepOpts]
  | cons c t => by_cases hs : isSepCh c = true <;> simp [sepOpts, hs]

theorem sepOpts_one {c : Char} {t : List Char} (h : isSepCh c = true) :
    1 ∈ sepOpts (c :: t) := by
  simp [sepOpts, h]

theorem sepOpts_mem {l : List Char} {s : ℕ} (h : s ∈ sepOpts l) :
    s = 0 ∨ (s = 1 ∧ ∃ c₀ t₀, l = c₀ :: t₀ ∧ isSepCh c₀ = true) := by
  cases l with
  | nil => simp [sepOpts] at h; exact Or.inl h
  | cons c t =>
    by_cases hs : isSepCh c = true
    · simp [sepOpts, hs] at h
      rcases h with rfl | rfl
      · exact Or.inr ⟨rfl, c, t, rfl, hs⟩
      · exact Or.inl rfl
    · simp [sepOpts, hs] at h; exact Or.inl h

theorem r4Tail_some {v : List Char} {nT : ℕ} (h : r4Tail v = some nT) :
    ∃ s1 n1 s2, s1 ∈ sepOpts v ∧ (n1 = 4 ∨ n1 = 3) ∧
      n1 ≤ runLen Char.isDigit (v.drop s1) ∧
      s2 ∈ sepOpts ((v.drop s1).drop n1) ∧
      4 ≤ runLen Char.isDigit (((v.drop s1).drop n1).drop s2) ∧
      nT = s1 + n1 + s2 + 4 := by
  unfold r4Tail at h
  obtain ⟨s1, hs1, h2⟩ := List.exists_of_findSome?_eq_some h
  obtain ⟨n1, hn1, h3⟩ := List.exists_of_findSome?_eq_some h2
  by_cases hrun1 : n1 ≤ runLen Char.isDigit (v.drop s1)
  · simp only [ge_iff_le, if_pos hrun1] at h3
    obtain ⟨s2, hs2, h4⟩ := List.exists_of_findSome?_eq_some h3
    by_cases hrun2 : 4 ≤ runLen Char.isDigit (((v.drop s1).drop n1).drop s2)
    · simp only [ge_iff_le, if_pos hrun2] at h4
      injection h4 with h5
      refine ⟨s1, n1, s2, hs1, ?_, hrun1, hs2, hrun2, h5.symm⟩
      simp only [List.mem_cons] at hn1
      rcases hn1 with rfl | h6
      · exact Or.inl rfl
      · simp at h6
        exact Or.inr h6
    · simp only [ge_iff_le, if_neg hrun2] at h4
      exact Option.noConfusion h4
  · simp only [ge_iff_le, if_neg hrun1] at h3
    exact Option.noConfusion h3

theorem r4Tail_intro {v : List Char} {s1 n1 s2 : ℕ}
    (hs1 : s1 ∈ sepOpts v) (hn1 : n1 = 4 ∨ n1 = 3)
    (hrun1 : n1 ≤ runLen Char.isDigit (v.drop s1))
    (hs2 : s2 ∈ sepOpts ((v.drop s1).drop n1))
    (hrun2 : 4 ≤ runLen Char.isDigit (((v.drop s1).drop n1).drop s2)) :
    r4Tail v ≠ none := by
  intro hnone
  unfold r4Tail at hnone
  rw [List.findSome?_eq_none_iff] at hnone
  have h2 := hnone s1 hs1
  rw [List.findSome?_eq_none_iff] at h2
  have h3 := h2 n1 (by rcases hn1 with rfl | rfl <;> simp)
  simp only [ge_iff_le, if_pos hrun1, List.findSome?_eq_none_iff] at h3
  have h4 := h3 s2 hs2
  simp only [ge_iff_le, if_pos hrun2] at h4
  exact Option.noConfusion h4

theorem runLen_ge_of_take_eq {p : Char → Bool} {a b : List Char} {K : ℕ}
    (hcom : b.take K = a.take K) (hK : K ≤ runLen p b) : K ≤ runLen p a := by
  have hKb : K ≤ b.length := le_trans hK (runLen_le_length _ _)
  refine runLen_ge p a K ?_ ?_
  · have := congrArg List.length hcom
    rw [List.length_take, List.length_take] at this
    omega
  · intro c hc
    rw [← hcom] at hc
    exact mem_take_of_runLen_ge hK hc

theorem take_drop_common {u u' : List Char} {J d : ℕ}
    (hcom : u'.take J = u.take J) (hd : d ≤ J) :
    (u'.drop d).take (J - d) = (u.drop d).take (J - d) := by
  rw [List.take_drop, List.take_drop, show d + (J - d) = J by omega, hcom]

theorem getElem?_common {u u' : List Char} {J d : ℕ}
    (hcom : u'.take J = u.take J) (hd : d < J) : u'[d]? = u[d]? := by
  rw [← List.getElem?_take_of_lt (l := u') hd, hcom,
    List.getElem?_take_of_lt hd]

/-! ## C9: rule-4 reflection along a common prefix -/

theorem digit_not_blocked {c : Char} (h : c.isDigit = true) :
    ¬(c = '[' ∨ c = ':') := by
  rintro (rfl | rfl) <;> exact absurd h (by decide)

theorem sep_not_blocked {c : Char} (h : isSepCh c = true) :
    ¬(c = '[' ∨ c = ':') := by
  rintro (rfl | rfl) <;> exact absurd h (by decide)

theorem sep_take_not_blocked {l : List Char} {s : ℕ} (hs : s ∈ sepOpts l)
    {c' : Char} (hc : c' ∈ l.take s) : ¬(c' = '[' ∨ c' = ':') := by
  rcases sepOpts_mem hs with rfl | ⟨rfl, c₀, t₀, rfl, hsep⟩
  · simp at hc
  · simp only [List.take_succ_cons, List.take_zero, List.mem_singleton] at hc
    subst hc
    exact sep_not_blocked hsep

theorem digit_take_not_blocked {l : List Char} {K : ℕ}
    (hK : K ≤ runLen Char.isDigit l) {c' : Char} (hc : c' ∈ l.take K) :
    ¬(c' = '[' ∨ c' = ':') :=
  digit_not_blocked (mem_take_of_runLen_ge hK hc)

theorem take_succ_cons_inv {l : List Char} {n : ℕ} {a : Char} {t : List Char}
    (h : l.take (n + 1) = a :: t) : ∃ l₂, l = a :: l₂ ∧ l₂.take n = t := by
  cases l with
  | nil => simp at h
  | cons b l₂ =>
    rw [List.take_succ_cons] at h
    injection h with h1 h2
    exact ⟨l₂, by rw [h1], h2⟩

theorem r4_none_inv {c : Char} {ru : List Char}
    (hc : c = '0' ∨ c = '1' ∨ c = '6' ∨ c = '7' ∨ c = '8' ∨ c = '9')
    (h : r4MatchAt ('0' :: '1' :: c :: ru) = none) : r4Tail ru = none := by
  have hcb : (c = '0' || c = '1' || c = '6' || c = '7' || c = '8' || c = '9')
      = true := by
    simp only [Bool.or_eq_true, decide_eq_true_eq]
    tauto
  simp only [r4MatchAt, hcb, if_true] at h
  cases htail : r4Tail ru with
  | none => rfl
  | some nn =>
    rw [htail] at h
    exact absurd h (by simp)

theorem r4_reflect {u u' : List Char} {j : ℕ}
    (hcom : u'.take j = u.take j)
    (hblk : ∀ cb, u'[j]? = some cb → cb = '[' ∨ cb = ':')
    (hnone : r4MatchAt u = none) : r4MatchAt u' = none := by
  cases hx : r4MatchAt u' with
  | none => rfl
  | some nr =>
    exfalso
    obtain ⟨n, r⟩ := nr
    obtain ⟨hr, c, rest, nT, hu', hc, htail, hn⟩ := r4_inv hx
    obtain ⟨s1, n1, s2, hs1, hn1or, hrun1, hs2, hrun2, hnT⟩ := r4Tail_some htail
    have hrl : nT ≤ rest.length := by
      have h4 := le_trans hrun2 (runLen_le_length _ _)
      simp only [List.length_drop] at h4
      omega
    have hulen : nT + 1 + 1 + 1 ≤ u'.length := by
      rw [hu']
      simp
      omega
    have htk0 : u'.take (nT + 1 + 1 + 1) = '0' :: '1' :: c :: rest.take nT := by
      rw [hu']
      simp only [List.take_succ_cons]
    have hsplit : rest.take nT = rest.take s1 ++ ((rest.drop s1).take n1 ++
        (((rest.drop s1).drop n1).take s2 ++
          (((rest.drop s1).drop n1).drop s2).take 4)) := by
      rw [show nT = s1 + (n1 + (s2 + 4)) by omega, List.take_add,
        List.take_add, List.take_add]
    have hjJ : nT + 1 + 1 + 1 ≤ j := by
      by_contra hlt
      push_neg at hlt
      have hjlen : j < u'.length := lt_of_lt_of_le hlt hulen
      have hget : u'[j]? = some (u'[j]) := List.getElem?_eq_getElem hjlen
      have hmem : u'[j] ∈ u'.take (nT + 1 + 1 + 1) := by
        have h2 : (u'.take (nT + 1 + 1 + 1))[j]? = some (u'[j]) := by
          rw [List.getElem?_take_of_lt hlt]
          exact hget
        obtain ⟨hlt2, hEq⟩ := List.getElem?_eq_some_iff.mp h2
        exact hEq ▸ List.getElem_mem hlt2
      rw [htk0, hsplit] at hmem
      have hbl := hblk _ hget
      simp only [List.mem_cons, List.mem_append] at hmem
      rcases hmem with h3 | h3 | h3 | h3 | h3 | h3 | h3
      · rw [h3] at hbl
        rcases hbl with h4 | h4 <;> exact absurd h4 (by decide)
      · rw [h3] at hbl
        rcases hbl with h4 | h4 <;> exact absurd h4 (by decide)
      · rw [h3] at hbl
        rcases hc with rfl | rfl | rfl | rfl | rfl | rfl <;>
          rcases hbl with h4 | h4 <;> exact absurd h4 (by decide)
      · exact sep_take_not_blocked hs1 h3 hbl
      · exact digit_take_not_blocked hrun1 h3 hbl
      · exact sep_take_not_blocked hs2 h3 hbl
      · exact digit_take_not_blocked hrun2 h3 hbl
    have hcJ : u'.take (nT + 1 + 1 + 1) = u.take (nT + 1 + 1 + 1) :=
      take_common_of_le hcom hjJ
    have huJ : u.take (nT + 1 + 1 + 1) = '0' :: '1' :: c :: rest.take nT := by
      rw [← hcJ, htk0]
    obtain ⟨u1, hd1, h1⟩ := take_succ_cons_inv huJ
    obtain ⟨u2, hd2, h2⟩ := take_succ_cons_inv h1
    obtain ⟨ru, hd3, hw⟩ := take_succ_cons_inv h2
    have hru : u = '0' :: '1' :: c :: ru := by rw [hd1, hd2, hd3]
    have hA : (ru.drop s1).take (nT - s1) = (rest.drop s1).take (nT - s1) :=
      take_drop_common hw (by omega)
    have hB : ((ru.drop s1).drop n1).take (nT - s1 - n1) =
        ((rest.drop s1).drop n1).take (nT - s1 - n1) :=
      take_drop_common hA (by omega)
    have hC : (((ru.drop s1).drop n1).drop s2).take (nT - s1 - n1 - s2) =
        (((rest.drop s1).drop n1).drop s2).take (nT - s1 - n1 - s2) :=
      take_drop_common hB (by omega)
    rw [show nT - s1 - n1 - s2 = 4 by omega] at hC
    have hs1' : s1 ∈ sepOpts ru := by
      rcases sepOpts_mem hs1 with rfl | ⟨rfl, c₀, t₀, hrest, hsep⟩
      · exact sepOpts_zero ru
      · have hh : ru[0]? = rest[0]? := getElem?_common hw (by omega)
        rw [hrest] at hh
        simp only [List.getElem?_cons_zero] at hh
        cases ru with
        | nil => simp at hh
        | cons a t₂ =>
          simp only [List.getElem?_cons_zero, Option.some.injEq] at hh
          subst hh
          exact sepOpts_one hsep
    have hrun1' : n1 ≤ runLen Char.isDigit (ru.drop s1) :=
      runLen_ge_of_take_eq (take_common_of_le hA (by omega)).symm hrun1
    have hs2' : s2 ∈ sepOpts ((ru.drop s1).drop n1) := by
      rcases sepOpts_mem hs2 with rfl | ⟨rfl, c₀, t₀, hrest, hsep⟩
      · exact sepOpts_zero _
      · have hh : ((ru.drop s1).drop n1)[0]? = ((rest.drop s1).drop n1)[0]? :=
          getElem?_common hB (by omega)
        rw [hrest] at hh
        simp only [List.getElem?_cons_zero] at hh
        cases hv : (ru.drop s1).drop n1 with
        | nil => rw [hv] at hh; simp at hh
        | cons a t₂ =>
          rw [hv] at hh
          simp only [List.getElem?_cons_zero, Option.some.injEq] at hh
          subst hh
          exact sepOpts_one hsep
    have hrun2' : 4 ≤ runLen Char.isDigit (((ru.drop s1).drop n1).drop s2) :=
      runLen_ge_of_take_eq hC.symm hrun2
    rw [hru] at hnone
    exact absurd (r4_none_inv hc hnone)
      (r4Tail_intro hs1' hn1or hrun1' hs2' hrun2')

theorem r4_tok_phone (p : ℕ) (hp : p < 16) (tail : List Char) :
    r4MatchAt ("[REDACTED_PHONE]".toList.drop p ++ tail) = none := by
  interval_cases p <;> rfl

theorem noMatch_r4_self {t t' : List Char} (h : ScanOut r4MatchAt t t') :
    NoMatch r4MatchAt t' := by
  refine scanOut_self_noMatch tokOk_r4
    (fun u u' j hcom hblk hnone => r4_reflect hcom hblk hnone)
    blsub_bracket rfl ?_ h
  intro l n r hm out₂ p hp
  rw [(r4_inv hm).1] at hp ⊢
  exact r4_tok_phone p (by simpa using hp) out₂

theorem noMatch_r4_redacted (x : List Char) :
    NoMatch r4MatchAt (scanRepl r4MatchAt (scanRepl r3MatchAt
      (scanRepl r2MatchAt (scanRepl r1MatchAt x)))) :=
  noMatch_r4_self (scanRepl_scanOut _ _)

/-! ## C9: rule-2 reflection along a common prefix -/

theorem emailDomSplit_mono {A : List Char} {d t : ℕ} (B : List Char)
    (h : emailDomSplit A = some (d, t)) :
    ∃ d₂ t₂, emailDomSplit (A ++ B) = some (d₂, t₂) ∧ d ≤ d₂ := by
  induction A generalizing d t with
  | nil =>
    rw [show emailDomSplit [] = none from rfl] at h
    exact Option.noConfusion h
  | cons c rest ih =>
    cases hrec : emailDomSplit rest with
    | some dt =>
      obtain ⟨d₁, t₁⟩ := dt
      have hdv : d₁ + 1 = d ∧ t₁ = t := by
        unfold emailDomSplit at h
        rw [hrec] at h
        injection h with h2
        rw [Prod.mk.injEq] at h2
        exact h2
      obtain ⟨d₂, t₂, hB, hle⟩ := ih hrec
      refine ⟨d₂ + 1, t₂, ?_, by omega⟩
      rw [List.cons_append]
      unfold emailDomSplit
      rw [hB]
    | none =>
      simp only [emailDomSplit, hrec] at h
      split at h
      next hcond =>
        injection h with h2
        rw [Prod.mk.injEq] at h2
        obtain ⟨hd0, ht0⟩ := h2
        simp only [Bool.and_eq_true, decide_eq_true_eq, ge_iff_le] at hcond
        obtain ⟨hdot, hrun2⟩ := hcond
        cases hrecB : emailDomSplit (rest ++ B) with
        | some dt₂ =>
          obtain ⟨d₂, t₂⟩ := dt₂
          refine ⟨d₂ + 1, t₂, ?_, by omega⟩
          rw [List.cons_append]
          simp only [emailDomSplit, hrecB]
        | none =>
          refine ⟨0, runLen isLtrCh (rest ++ B), ?_, by omega⟩
          rw [List.cons_append]
          simp only [emailDomSplit, hrecB]
          rw [if_pos]
          simp only [Bool.and_eq_true, decide_eq_true_eq, ge_iff_le]
          exact ⟨hdot, le_trans hrun2 (runLen_append_ge _ _ _)⟩
      next => exact absurd h (by simp)

theorem r2_intro {u rest : List Char} {d t : ℕ}
    (hL : 1 ≤ runLen isLclCh u)
    (hdrop : u.drop (runLen isLclCh u) = '@' :: rest)
    (hsplit : emailDomSplit (rest.take (runLen isDomCh rest)) = some (d, t))
    (hd : 1 ≤ d) : r2MatchAt u ≠ none := by
  intro hnone
  unfold r2MatchAt at hnone
  dsimp only at hnone
  rw [if_neg (by omega : ¬ runLen isLclCh u = 0)] at hnone
  split at hnone
  next rest₂ heq =>
    rw [hdrop] at heq
    injection heq with h1 h2
    subst h2
    split at hnone
    next d₂ t₂ hsp2 =>
      rw [hsplit] at hsp2
      injection hsp2 with h3
      rw [Prod.mk.injEq] at h3
      obtain ⟨hd2, ht2⟩ := h3
      rw [if_pos (show d₂ ≥ 1 by omega)] at hnone
      exact Option.noConfusion hnone
    next hsp2 =>
      rw [hsplit] at hsp2
      exact Option.noConfusion hsp2
  next hne => exact hne _ hdrop

theorem r2_reflect {u u' : List Char} {j : ℕ}
    (hcom : u'.take j = u.take j)
    (hblk : ∀ cb, u'[j]? = some cb → cb = '[' ∨ cb = ':')
    (hnone : r2MatchAt u = none) : r2MatchAt u' = none := by
  cases hx : r2MatchAt u' with
  | none => rfl
  | some nr =>
    exfalso
    obtain ⟨n, r⟩ := nr
    obtain ⟨hr, hL1, rest, hdropEq, d, t, hsplit, hd1, hn⟩ := r2_inv hx
    have hrlen : u'.length - runLen isLclCh u' = rest.length + 1 := by
      have h0 := congrArg List.length hdropEq
      simpa [List.length_drop] using h0
    have hLle : runLen isLclCh u' ≤ u'.length := runLen_le_length _ _
    have hDle : runLen isDomCh rest ≤ rest.length := runLen_le_length _ _
    have hJlen : runLen isLclCh u' + 1 + runLen isDomCh rest ≤ u'.length := by
      omega
    have htkJ : u'.take (runLen isLclCh u' + 1 + runLen isDomCh rest) =
        u'.take (runLen isLclCh u') ++
          '@' :: rest.take (runLen isDomCh rest) := by
      rw [show runLen isLclCh u' + 1 + runLen isDomCh rest =
        runLen isLclCh u' + (runLen isDomCh rest + 1) by omega, List.take_add,
        hdropEq, List.take_succ_cons]
    have hjJ : runLen isLclCh u' + 1 + runLen isDomCh rest ≤ j := by
      by_contra hlt
      push_neg at hlt
      have hjlen : j < u'.length := lt_of_lt_of_le hlt hJlen
      have hget : u'[j]? = some (u'[j]) := List.getElem?_eq_getElem hjlen
      have hmem : u'[j] ∈
          u'.take (runLen isLclCh u' + 1 + runLen isDomCh rest) := by
        have h2 : (u'.take (runLen isLclCh u' + 1 +
            runLen isDomCh rest))[j]? = some (u'[j]) := by
          rw [List.getElem?_take_of_lt hlt]
          exact hget
        obtain ⟨hlt2, hEq⟩ := List.getElem?_eq_some_iff.mp h2
        exact hEq ▸ List.getElem_mem hlt2
      rw [htkJ] at hmem
      have hbl := hblk _ hget
      simp only [List.mem_append, List.mem_cons] at hmem
      rcases hmem with h3 | h3 | h3
      · have h6 : isLclCh (u'[j]) = true :=
          mem_take_of_runLen_ge (le_refl _) h3
        rcases hbl with h4 | h4 <;> rw [h4] at h6 <;> exact absurd h6 (by decide)
      · rw [h3] at hbl
        rcases hbl with h4 | h4 <;> exact absurd h4 (by decide)
      · have h6 : isDomCh (u'[j]) = true :=
          mem_take_of_runLen_ge (le_refl _) h3
        rcases hbl with h4 | h4 <;> rw [h4] at h6 <;> exact absurd h6 (by decide)
    have hcomJ := take_common_of_le hcom hjJ
    have hL_at : u'[runLen isLclCh u']? = some '@' := by
      have h0 := congrArg (fun l => l[0]?) hdropEq
      simpa [List.getElem?_drop] using h0
    have hLu_at : u[runLen isLclCh u']? = some '@' := by
      rw [← getElem?_common hcomJ (by omega)]
      exact hL_at
    have hLu : runLen isLclCh u = runLen isLclCh u' := by
      refine runLen_eq _ _ _ '@' ?_ ?_ (by decide)
      · intro x hxmem
        have hcL : u'.take (runLen isLclCh u') =
            u.take (runLen isLclCh u') :=
          take_common_of_le hcomJ (by omega)
        rw [← hcL] at hxmem
        exact mem_take_of_runLen_ge (le_refl _) hxmem
      · rw [List.get?_eq_getElem?]
        exact hLu_at
    have hLlt : runLen isLclCh u' < u.length :=
      (List.getElem?_eq_some_iff.mp hLu_at).1
    have hdrop_u : u.drop (runLen isLclCh u') =
        '@' :: u.drop (runLen isLclCh u' + 1) := by
      rw [List.drop_eq_getElem_cons hLlt]
      congr 1
      exact (List.getElem?_eq_some_iff.mp hLu_at).2
    have hrest_eq : rest = u'.drop (runLen isLclCh u' + 1) := by
      have h0 := congrArg List.tail hdropEq
      have h1 : u'.drop (runLen isLclCh u' + 1) = rest := by
        simpa [List.tail_drop] using h0
      exact h1.symm
    have hDcom : rest.take (runLen isDomCh rest) =
        (u.drop (runLen isLclCh u' + 1)).take (runLen isDomCh rest) := by
      have h5 := take_drop_common (d := runLen isLclCh u' + 1) hcomJ (by omega)
      rw [show runLen isLclCh u' + 1 + runLen isDomCh rest -
        (runLen isLclCh u' + 1) = runLen isDomCh rest by omega,
        ← hrest_eq] at h5
      exact h5
    have hDu : runLen isDomCh rest ≤
        runLen isDomCh (u.drop (runLen isLclCh u' + 1)) :=
      runLen_ge_of_take_eq hDcom (le_refl _)
    have htake_u : (u.drop (runLen isLclCh u' + 1)).take
        (runLen isDomCh (u.drop (runLen isLclCh u' + 1))) =
        rest.take (runLen isDomCh rest) ++
        ((u.drop (runLen isLclCh u' + 1)).drop (runLen isDomCh rest)).take
          (runLen isDomCh (u.drop (runLen isLclCh u' + 1)) -
            runLen isDomCh rest) := by
      nth_rewrite 1 [show runLen isDomCh (u.drop (runLen isLclCh u' + 1)) =
        runLen isDomCh rest + (runLen isDomCh (u.drop (runLen isLclCh u' + 1))
          - runLen isDomCh rest) by omega]
      rw [List.take_add, ← hDcom]
    obtain ⟨d₂, t₂, hmono, hdle⟩ := emailDomSplit_mono _ hsplit
    rw [← htake_u] at hmono
    have hL1u : 1 ≤ runLen isLclCh u := by rw [hLu]; exact hL1
    have hdrop_u' : u.drop (runLen isLclCh u) =
        '@' :: u.drop (runLen isLclCh u' + 1) := by
      rw [hLu]
      exact hdrop_u
    exact r2_intro hL1u hdrop_u' hmono (by omega) hnone

/-! ## C9: rule-2 matcher finds nothing in fully redacted text -/

theorem r2_tok_apikey (p : ℕ) (hp : p < 18) (tail : List Char) :
    r2MatchAt ("[REDACTED_API_KEY]".toList.drop p ++ tail) = none := by
  interval_cases p <;> rfl

theorem r2_tok_email (p : ℕ) (hp : p < 16) (tail : List Char) :
    r2MatchAt ("[REDACTED_EMAIL]".toList.drop p ++ tail) = none := by
  interval_cases p <;> rfl

theorem r2_tok_phone (p : ℕ) (hp : p < 16) (tail : List Char) :
    r2MatchAt ("[REDACTED_PHONE]".toList.drop p ++ tail) = none := by
  interval_cases p <;> rfl

theorem r2_tok_pwdTail (p : ℕ) (hp : p < 16) (tail : List Char) :
    r2MatchAt (": [REDACTED_PWD]".toList.drop p ++ tail) = none := by
  interval_cases p <;> rfl

theorem noMatch_r2_self {t t' : List Char} (h : ScanOut r2MatchAt t t') :
    NoMatch r2MatchAt t' := by
  refine scanOut_self_noMatch tokOk_r2
    (fun u u' j hcom hblk hnone => r2_reflect hcom hblk hnone)
    blsub_bracket rfl ?_ h
  intro l n r hm out₂ p hp
  rw [(r2_inv hm).1] at hp ⊢
  exact r2_tok_email p (by simpa using hp) out₂

theorem noMatch_r2_after_r3 {t t' : List Char} (h : ScanOut r3MatchAt t t')
    (hN : NoMatch r2MatchAt t) : NoMatch r2MatchAt t' := by
  refine scanOut_preserve_noMatch tokOk_r3
    (fun u u' j hcom hblk hnone => r2_reflect hcom hblk hnone)
    blsub_colon rfl ?_ h hN
  intro l n r hm hNl out₂ p hp
  obtain ⟨kw, hfind, hr, hkw2, hklen, _⟩ := r3_inv hm
  have hlenk : (l.take kw.length).length = kw.length := by
    rw [List.length_take]; omega
  have hrlen : r.length = kw.length + 16 := by
    rw [hr, List.length_append, hlenk]; rfl
  by_cases hpk : p < kw.length
  · have hdec : r.drop p ++ out₂ =
        (l.drop p).take (kw.length - p) ++
          (": [REDACTED_PWD]".toList ++ out₂) := by
      rw [hr, drop_append_left (by omega : p ≤ (l.take kw.length).length),
        List.drop_take, List.append_assoc]
    have hlen2 : (kw.length - p) ≤ (l.drop p).length := by
      rw [List.length_drop]; omega
    refine r2_reflect (u := l.drop p) (j := kw.length - p) ?_ ?_ (hNl p)
    · rw [hdec, List.take_append_of_le_length
        (by rw [List.length_take, List.length_drop]; omega),
        List.take_take, min_self]
    · intro cb hcb
      rw [hdec, List.getElem?_append_right
        (by rw [List.length_take, List.length_drop]; omega)] at hcb
      rw [List.length_take] at hcb
      have h0 : kw.length - p - min (kw.length - p) (l.length - p) = 0 := by
        rw [List.length_drop] at hlen2
        omega
      rw [List.length_drop, h0] at hcb
      injection hcb with h5
      exact Or.inr h5.symm
  · push_neg at hpk
    have hdec : r.drop p ++ out₂ =
        ": [REDACTED_PWD]".toList.drop (p - kw.length) ++ out₂ := by
      rw [hr, drop_append_right2 (by omega : (l.take kw.length).length ≤ p),
        hlenk]
    rw [hdec]
    exact r2_tok_pwdTail (p - kw.length) (by omega) out₂

theorem noMatch_r2_after_r4 {t t' : List Char} (h : ScanOut r4MatchAt t t')
    (hN : NoMatch r2MatchAt t) : NoMatch r2MatchAt t' := by
  refine scanOut_preserve_noMatch tokOk_r4
    (fun u u' j hcom hblk hnone => r2_reflect hcom hblk hnone)
    blsub_bracket rfl ?_ h hN
  intro l n r hm _ out₂ p hp
  rw [(r4_inv hm).1] at hp ⊢
  exact r2_tok_phone p (by simpa using hp) out₂

theorem noMatch_r2_redacted (x : List Char) :
    NoMatch r2MatchAt (scanRepl r4MatchAt (scanRepl r3MatchAt
      (scanRepl r2MatchAt (scanRepl r1MatchAt x)))) := by
  exact noMatch_r2_after_r4 (scanRepl_scanOut _ _)
    (noMatch_r2_after_r3 (scanRepl_scanOut _ _)
      (noMatch_r2_self (scanRepl_scanOut _ _)))

/-! ## C9: shared helpers for the rule-3 identity development -/

theorem runLen_head_false {p : Char → Bool} {c : Char} (t : List Char)
    (h : p c = false) : runLen p (c :: t) = 0 := by
  simp [runLen, h]

theorem runLen_pos_of_head {p : Char → Bool} {c : Char} (t : List Char)
    (h : p c = true) : 1 ≤ runLen p (c :: t) := by
  simp [runLen, h]

theorem runLen_zero_of_head {p : Char → Bool} {t : List Char}
    (h : t = [] ∨ ∃ c rest, t = c :: rest ∧ p c = false) : runLen p t = 0 := by
  rcases h with rfl | ⟨c, rest, rfl, hc⟩
  · rfl
  · exact runLen_head_false rest hc

theorem runLen_append_all {p : Char → Bool} {A : List Char} (B : List Char)
    (h : ∀ c ∈ A, p c = true) :
    runLen p (A ++ B) = A.length + runLen p B := by
  induction A with
  | nil => simp
  | cons c rest ih =>
    have hc : p c = true := h c (by simp)
    have ih2 := ih (fun x hx => h x (by simp [hx]))
    have h1 : runLen p (c :: (rest ++ B)) = runLen p (rest ++ B) + 1 := by
      simp [runLen, hc]
    rw [List.cons_append, h1, ih2, List.length_cons]
    omega

theorem runLen_terminator (p : Char → Bool) (t : List Char) :
    t.drop (runLen p t) = [] ∨
    ∃ c rest, t.drop (runLen p t) = c :: rest ∧ p c = false := by
  induction t with
  | nil => exact Or.inl rfl
  | cons c rest ih =>
    by_cases hc : p c = true
    · simp only [runLen, hc, if_true, List.drop_succ_cons]
      exact ih
    · have hc' : p c = false := by simpa using hc
      simp only [runLen, hc', if_false, List.drop_zero]
      exact Or.inr ⟨c, rest, rfl, hc'⟩

theorem ciHeadEq_chars : ∀ (kw l : List Char), ciHeadEq kw l = true →
    ∀ (i : ℕ) (ck cl : Char), kw[i]? = some ck → l[i]? = some cl →
      ck.toLower = cl.toLower := by
  intro kw
  induction kw with
  | nil => intro l _ i ck cl hk hl; simp at hk
  | cons k ks ih =>
    intro l h i ck cl hk hl
    cases l with
    | nil => exact absurd h (by simp [ciHeadEq])
    | cons c cs =>
      simp only [ciHeadEq, Bool.and_eq_true, decide_eq_true_eq] at h
      cases i with
      | zero =>
        simp only [List.getElem?_cons_zero, Option.some.injEq] at hk hl
        rw [← hk, ← hl]
        exact h.1
      | succ i =>
        simp only [List.getElem?_cons_succ] at hk hl
        exact ih cs h.2 i ck cl hk hl

theorem jsWsCh_cases {c : Char} (h : jsWsCh c = true) :
    c = ' ' ∨ c = '\t' ∨ c = '\r' ∨ c = '\n' := by
  unfold jsWsCh Char.isWhitespace at h
  simp only [Bool.or_eq_true, decide_eq_true_eq] at h
  tauto

theorem scanOut_head {m : List Char → Option (ℕ × List Char)}
    (hHead : ∀ l n r, m l = some (n, r) → r.head? = l.head?)
    {t t' : List Char} (h : ScanOut m t t') : t.head? = t'.head? := by
  cases h with
  | nil => rfl
  | copy hm hso => rfl
  | @repl c rest out n r hm hso =>
    cases r with
    | nil =>
      have h0 := hHead _ _ _ hm
      simp at h0
    | cons rc rrest =>
      have h0 := hHead _ _ _ hm
      simpa using h0.symm

theorem r3_head_eq : ∀ (l : List Char) (n : ℕ) (r : List Char),
    r3MatchAt l = some (n, r) → r.head? = l.head? := by
  intro l n r h
  obtain ⟨kw, hfind, hr, hkw2, hklen, _⟩ := r3_inv h
  cases l with
  | nil =>
    simp only [List.length_nil, Nat.le_zero] at hklen
    omega
  | cons c cs =>
    rw [hr]
    obtain ⟨m, hm⟩ : ∃ m, kw.length = m + 1 := ⟨kw.length - 1, by omega⟩
    rw [hm, List.take_succ_cons]
    rfl

/-! ## C9: keyword discrimination and the shape of identity matches -/

theorem ciHeadEq_excl {kwA kwB l : List Char} {i : ℕ} {ca cb : Char}
    (hA : ciHeadEq kwA l = true) (hka : kwA[i]? = some ca)
    (hkb : kwB[i]? = some cb) (hne : ¬ ca.toLower = cb.toLower) :
    ciHeadEq kwB l = false := by
  by_contra h'
  have h'' : ciHeadEq kwB l = true := by simpa using h'
  have hilen : i < l.length := by
    have h1 := ciHeadEq_length _ _ hA
    have h2 := (List.getElem?_eq_some_iff.mp hka).1
    omega
  have h1 := ciHeadEq_chars _ _ hA i ca (l[i]) hka
    (List.getElem?_eq_getElem hilen)
  have h2 := ciHeadEq_chars _ _ h'' i cb (l[i]) hkb
    (List.getElem?_eq_getElem hilen)
  exact hne (h1.trans h2.symm)

theorem find?_ci_unique {kw l : List Char} (hmem : kw ∈ pwdKeywords)
    (hci : ciHeadEq kw l = true) :
    pwdKeywords.find? (fun k' => ciHeadEq k' l) = some kw := by
  simp only [pwdKeywords, List.mem_cons, List.not_mem_nil, or_false] at hmem
  rcases hmem with rfl | rfl | rfl | rfl | rfl
  · simp only [pwdKeywords, List.find?, hci]
  · have e1 : ciHeadEq "password".toList l = false :=
      ciHeadEq_excl hci (show ("passwd".toList)[5]? = some 'd' from rfl)
        (show ("password".toList)[5]? = some 'o' from rfl) (by decide)
    simp only [pwdKeywords, List.find?, e1, hci]
  · have e1 : ciHeadEq "password".toList l = false :=
      ciHeadEq_excl hci (show ("pwd".toList)[1]? = some 'w' from rfl)
        (show ("password".toList)[1]? = some 'a' from rfl) (by decide)
    have e2 : ciHeadEq "passwd".toList l = false :=
      ciHeadEq_excl hci (show ("pwd".toList)[1]? = some 'w' from rfl)
        (show ("passwd".toList)[1]? = some 'a' from rfl) (by decide)
    simp only [pwdKeywords, List.find?, e1, e2, hci]
  · have e1 : ciHeadEq "password".toList l = false :=
      ciHeadEq_excl hci (show ("비밀번호".toList)[0]? = some '비' from rfl)
        (show ("password".toList)[0]? = some 'p' from rfl) (by decide)
    have e2 : ciHeadEq "passwd".toList l = false :=
      ciHeadEq_excl hci (show ("비밀번호".toList)[0]? = some '비' from rfl)
        (show ("passwd".toList)[0]? = some 'p' from rfl) (by decide)
    have e3 : ciHeadEq "pwd".toList l = false :=
      ciHeadEq_excl hci (show ("비밀번호".toList)[0]? = some '비' from rfl)
        (show ("pwd".toList)[0]? = some 'p' from rfl) (by decide)
    simp only [pwdKeywords, List.find?, e1, e2, e3, hci]
  · have e1 : ciHeadEq "password".toList l = false :=
      ciHeadEq_excl hci (show ("비번".toList)[0]? = some '비' from rfl)
        (show ("password".toList)[0]? = some 'p' from rfl) (by decide)
    have e2 : ciHeadEq "passwd".toList l = false :=
      ciHeadEq_excl hci (show ("비번".toList)[0]? = some '비' from rfl)
        (show ("passwd".toList)[0]? = some 'p' from rfl) (by decide)
    have e3 : ciHeadEq "pwd".toList l = false :=
      ciHeadEq_excl hci (show ("비번".toList)[0]? = some '비' from rfl)
        (show ("pwd".toList)[0]? = some 'p' from rfl) (by decide)
    have e4 : ciHeadEq "비밀번호".toList l = false :=
      ciHeadEq_excl hci (show ("비번".toList)[1]? = some '번' from rfl)
        (show ("비밀번호".toList)[1]? = some '밀' from rfl) (by decide)
    simp only [pwdKeywords, List.find?, e1, e2, e3, e4, hci]

theorem r3_intro {l kw : List Char} {w1 : ℕ} {c : Char}
    (hfind : pwdKeywords.find? (fun k' => ciHeadEq k' l) = some kw)
    (hw1 : runLen jsWsCh (l.drop kw.length) = w1)
    (hdrop : l.drop (kw.length + w1) = c :: l.drop (kw.length + w1 + 1))
    (hc : (c = ':' || c = '=') = true)
    (hv : 1 ≤ runLen isValCh ((l.drop (kw.length + w1 + 1)).drop
      (runLen jsWsCh (l.drop (kw.length + w1 + 1))))) :
    ∃ n r, r3MatchAt l = some (n, r) := by
  refine ⟨kw.length + w1 + 1 + runLen jsWsCh (l.drop (kw.length + w1 + 1)) +
    runLen isValCh ((l.drop (kw.length + w1 + 1)).drop
      (runLen jsWsCh (l.drop (kw.length + w1 + 1)))),
    l.take kw.length ++ ": [REDACTED_PWD]".toList, ?_⟩
  unfold r3MatchAt
  rw [hfind]
  dsimp only
  rw [hw1, hdrop]
  dsimp only
  rw [if_pos hc, if_pos (by omega : runLen isValCh
    ((l.drop (kw.length + w1 + 1)).drop
      (runLen jsWsCh (l.drop (kw.length + w1 + 1)))) ≥ 1)]

theorem id_match_shape {l : List Char} {n : ℕ} {r : List Char}
    (hid : IdOrNone r3MatchAt l) (hm : r3MatchAt l = some (n, r)) :
    ∃ kw, pwdKeywords.find? (fun k' => ciHeadEq k' l) = some kw ∧
      2 ≤ kw.length ∧ n = kw.length + 16 ∧ kw.length + 16 ≤ l.length ∧
      l.take n = l.take kw.length ++ ": [REDACTED_PWD]".toList ∧
      runLen isValCh (l.drop (kw.length + 16)) = 0 ∧
      (l.drop (kw.length + 2)).take 14 = "[REDACTED_PWD]".toList ∧
      (∀ i, i < 16 → l[kw.length + i]? = ": [REDACTED_PWD]".toList[i]?) := by
  obtain ⟨kw, hfind, hr, hkw2, hklen, w1, c, w2, v, hw1, hchead, hcor, hw2,
    hv, hv1, hn⟩ := r3_inv hm
  obtain ⟨hn1, hrtake⟩ := hid n r hm
  have hstar : l.take n = l.take kw.length ++ ": [REDACTED_PWD]".toList := by
    rw [← hrtake, hr]
  have hlen0 := congrArg List.length hstar
  rw [List.length_take, List.length_append, List.length_take] at hlen0
  have htok16 : (": [REDACTED_PWD]".toList).length = 16 := by decide
  rw [htok16] at hlen0
  have hmins : min kw.length l.length = kw.length := by omega
  rw [hmins] at hlen0
  have hnge : kw.length + 16 ≤ n := by omega
  have hlge : kw.length + 16 ≤ l.length := by omega
  have hpos : ∀ i, i < 16 → l[kw.length + i]? = ": [REDACTED_PWD]".toList[i]? := by
    intro i hi
    have h1 : (l.take n)[kw.length + i]? = l[kw.length + i]? :=
      List.getElem?_take_of_lt (by omega)
    rw [hstar] at h1
    rw [← h1, List.getElem?_append_right
      (by rw [List.length_take, hmins]; omega)]
    rw [List.length_take, hmins]
    congr 1
    omega
  have hw1z : w1 = 0 := by
    rw [hw1]
    apply runLen_zero_of_head
    right
    have h2 := hpos 0 (by omega)
    have h2' : l[kw.length]? = some ':' := by simpa using h2
    refine ⟨':', l.drop (kw.length + 1), ?_, by decide⟩
    rw [List.drop_eq_getElem_cons (List.getElem?_eq_some_iff.mp h2').1]
    rw [(List.getElem?_eq_some_iff.mp h2').2]
  have hw2o : w2 = 1 := by
    have h2 := hpos 1 (by omega)
    have h2' : l[kw.length + 1]? = some ' ' := by simpa using h2
    have h3 := hpos 2 (by omega)
    have h3' : l[kw.length + 2]? = some '[' := by simpa using h3
    have hd1 : l.drop (kw.length + 1) = ' ' :: l.drop (kw.length + 2) := by
      rw [List.drop_eq_getElem_cons (List.getElem?_eq_some_iff.mp h2').1,
        (List.getElem?_eq_some_iff.mp h2').2]
    have hd2 : l.drop (kw.length + 2) = '[' :: l.drop (kw.length + 3) := by
      rw [List.drop_eq_getElem_cons (List.getElem?_eq_some_iff.mp h3').1,
        (List.getElem?_eq_some_iff.mp h3').2]
    have hr1 : runLen jsWsCh (l.drop (kw.length + 1)) = 1 := by
      rw [hd1]
      simp only [runLen, show jsWsCh ' ' = true from rfl, if_true, hd2]
      simp [show jsWsCh '[' = false from rfl]
    rw [hw2, hw1z, Nat.add_zero]
    exact hr1
  have hveq : v = n - kw.length - 2 := by omega
  have hv14 : v = 14 := by
    by_contra hvne
    have hvgt : 14 < v := by omega
    have hlenv : l.length = kw.length + 16 := by omega
    have hvle : v ≤ runLen isValCh (l.drop (kw.length + w1 + 1 + w2)) := by omega
    have h5 := runLen_le_length isValCh (l.drop (kw.length + w1 + 1 + w2))
    rw [List.length_drop] at h5
    rw [hw1z, hw2o] at hvle
    omega
  have hn16 : n = kw.length + 16 := by omega
  have htake14 : (l.drop (kw.length + 2)).take 14 =
      "[REDACTED_PWD]".toList := by
    have h6 : (l.take n).drop (kw.length + 2) =
        (l.drop (kw.length + 2)).take (n - (kw.length + 2)) := by
      rw [List.drop_take]
    rw [hstar, drop_append_right2 (by rw [List.length_take, hmins]; omega),
      List.length_take, hmins] at h6
    rw [show kw.length + 2 - kw.length = 2 by omega] at h6
    rw [hn16, show kw.length + 16 - (kw.length + 2) = 14 by omega] at h6
    rw [← h6]
    rfl
  have hdec : l.drop (kw.length + 2) =
      "[REDACTED_PWD]".toList ++ l.drop (kw.length + 16) := by
    conv_lhs => rw [← List.take_append_drop 14 (l.drop (kw.length + 2))]
    rw [htake14, List.drop_drop, show kw.length + 2 + 14 = kw.length + 16
      by omega]
  have hrun0 : runLen isValCh (l.drop (kw.length + 16)) = 0 := by
    have h7 : runLen isValCh (l.drop (kw.length + 2)) = 14 +
        runLen isValCh (l.drop (kw.length + 16)) := by
      rw [hdec, runLen_append_all _ (by decide),
        show ("[REDACTED_PWD]".toList).length = 14 from rfl]
    have h8 : runLen isValCh (l.drop (kw.length + 2)) = 14 := by
      rw [← hv14, hv, hw1z, hw2o, show kw.length + 0 + 1 + 1 = kw.length + 2
        by omega]
    omega
  exact ⟨kw, hfind, hkw2, hn16, hlge, hstar, hrun0, htake14, hpos⟩

/-! ## C9: character batteries and run-transfer helpers -/

theorem kw_char_facts : ∀ kw ∈ pwdKeywords, ∀ ch ∈ kw,
    ch.toLower ≠ ':' ∧ ch.toLower ≠ '[' ∧ jsWsCh ch.toLower = false := by
  decide

theorem kw_len2 : ∀ kw ∈ pwdKeywords, 2 ≤ kw.length := by decide

theorem no_proper_ci_suffix : ∀ kw ∈ pwdKeywords, ∀ kw₂ ∈ pwdKeywords,
    kw₂.length < kw.length →
    (kw.drop (kw.length - kw₂.length)).map Char.toLower ≠
      kw₂.map Char.toLower := by
  decide

theorem ws_toLower_ws {c : Char} (h : jsWsCh c = true) :
    jsWsCh c.toLower = true := by
  rcases jsWsCh_cases h with rfl | rfl | rfl | rfl <;> decide

theorem run_char {p : Char → Bool} {t : List Char} {w i : ℕ} {cb : Char}
    (hw : w ≤ runLen p t) (hi : i < w) (h : t[i]? = some cb) : p cb = true := by
  have h2 : (t.take w)[i]? = some cb := by
    rw [List.getElem?_take_of_lt hi]
    exact h
  obtain ⟨hlt2, hEq⟩ := List.getElem?_eq_some_iff.mp h2
  exact hEq ▸ mem_take_of_runLen_ge hw (List.getElem_mem hlt2)

theorem runLen_one_head {p : Char → Bool} {t : List Char}
    (h : 1 ≤ runLen p t) : ∃ c t₂, t = c :: t₂ ∧ p c = true := by
  cases t with
  | nil => simp [runLen] at h
  | cons c t₂ =>
    by_cases hc : p c = true
    · exact ⟨c, t₂, rfl, hc⟩
    · rw [runLen_head_false _ (by simpa using hc)] at h
      omega

theorem head?_drop_getElem (l : List Char) (n : ℕ) :
    (l.drop n).head? = l[n]? := by
  rw [List.head?_eq_getElem?, List.getElem?_drop, Nat.add_zero]

theorem drop_cons_of_getElem {l : List Char} {m : ℕ} {a : Char}
    (h : l[m]? = some a) : l.drop m = a :: l.drop (m + 1) := by
  obtain ⟨hlt, hEq⟩ := List.getElem?_eq_some_iff.mp h
  rw [List.drop_eq_getElem_cons hlt, hEq]

theorem runLen_eq_transfer {p : Char → Bool} {A B : List Char} {w : ℕ}
    {e : Char} (hB : ∀ x ∈ B.take w, p x = true) (hterm : B[w]? = some e)
    (he : p e = false) (hcom : B.take (w + 1) = A.take (w + 1)) :
    runLen p A = w := by
  refine runLen_eq p A w e ?_ ?_ he
  · intro x hx
    apply hB
    rw [take_common_of_le hcom (by omega : w ≤ w + 1)]
    exact hx
  · rw [List.get?_eq_getElem?, ← getElem?_common hcom (by omega : w < w + 1)]
    exact hterm

/-! ## C9: a rule-3 match cannot start at a copied position of the
rule-3 scan output -/

theorem val_not_ws {c : Char} (h : isValCh c = true) : jsWsCh c = false := by
  unfold isValCh at h
  simp only [Bool.and_eq_true, Bool.not_eq_true'] at h
  exact h.1

theorem idOrNone_copy_r3 {l l' : List Char}
    (hblock : l' = l ∨ ∃ j, l'.take j = l.take j ∧ l'[j]? = some ':' ∧
      Pd3 j l)
    (hnone : r3MatchAt l = none) : IdOrNone r3MatchAt l' := by
  intro n' r' hm'
  exfalso
  rcases hblock with rfl | ⟨j, hcom, hget, hpd⟩
  · rw [hnone] at hm'
    exact Option.noConfusion hm'
  obtain ⟨kw, hfind, hr, hkw2, hklen', w1, c, w2, v, hw1, hchead, hcor, hw2,
    hv, hv1, hn⟩ := r3_inv hm'
  have hci : ciHeadEq kw l' = true := by simpa using List.find?_some hfind
  have hkmem : kw ∈ pwdKeywords := List.mem_of_find?_eq_some hfind
  rcases Nat.lt_or_ge j kw.length with hc1 | hge1
  · -- inside the keyword text: keyword letters never ci-equal the colon
    obtain ⟨ck, hck⟩ : ∃ ck, kw[j]? = some ck :=
      ⟨kw[j], List.getElem?_eq_getElem hc1⟩
    have h1 := ciHeadEq_chars _ _ hci j ck ':' hck hget
    have hmemc : ck ∈ kw := by
      obtain ⟨hb, he⟩ := List.getElem?_eq_some_iff.mp hck
      exact he ▸ List.getElem_mem hb
    exact (kw_char_facts kw hkmem ck hmemc).1 (h1.trans (by decide))
  rcases Nat.lt_or_ge j (kw.length + w1) with hc2 | hge2
  · -- inside the first whitespace run: the colon is not whitespace
    have h1 : (l'.drop kw.length)[j - kw.length]? = some ':' := by
      rw [List.getElem?_drop, show kw.length + (j - kw.length) = j by omega]
      exact hget
    exact absurd (run_char (le_of_eq hw1) (by omega) h1) (by decide)
  rcases Nat.eq_or_lt_of_le hge2 with hc3 | hgt3
  · -- exactly at the separator position: the emitted colon sits right
    -- after an input keyword, which is impossible here
    obtain ⟨kw₂, n₂, r₂, hmem₂, hk₂le, hfind₂, hm₂⟩ := hpd
    by_cases hq0 : j - kw₂.length = 0
    · rw [hq0, List.drop_zero] at hm₂
      rw [hnone] at hm₂
      exact Option.noConfusion hm₂
    have hd1 : 1 ≤ j - kw₂.length := by omega
    have hci₂ : ciHeadEq kw₂ (l.drop (j - kw₂.length)) = true := by
      simpa using List.find?_some hfind₂
    have hk₂2 : 2 ≤ kw₂.length := kw_len2 kw₂ hmem₂
    have hlen₂ := ciHeadEq_length _ _ hci₂
    have hb₂ : kw₂.length - 1 < kw₂.length := by omega
    obtain ⟨ck₂, hck₂⟩ : ∃ x, kw₂[kw₂.length - 1]? = some x :=
      ⟨kw₂[kw₂.length - 1], List.getElem?_eq_getElem hb₂⟩
    have hmemc₂ : ck₂ ∈ kw₂ := by
      obtain ⟨hb, he⟩ := List.getElem?_eq_some_iff.mp hck₂
      exact he ▸ List.getElem_mem hb
    have hlb : kw₂.length - 1 < (l.drop (j - kw₂.length)).length := by omega
    have hcl : (l.drop (j - kw₂.length))[kw₂.length - 1]? =
        some ((l.drop (j - kw₂.length))[kw₂.length - 1]) :=
      List.getElem?_eq_getElem hlb
    have h2 := ciHeadEq_chars _ _ hci₂ (kw₂.length - 1) ck₂
      ((l.drop (j - kw₂.length))[kw₂.length - 1]) hck₂ hcl
    rw [List.getElem?_drop,
      show j - kw₂.length + (kw₂.length - 1) = j - 1 by omega] at hcl
    by_cases hw1pos : 1 ≤ w1
    · have hj1 : l'[j - 1]? = l[j - 1]? := getElem?_common hcom (by omega)
      have h3 : (l'.drop kw.length)[j - 1 - kw.length]? =
          some ((l.drop (j - kw₂.length))[kw₂.length - 1]) := by
        rw [List.getElem?_drop,
          show kw.length + (j - 1 - kw.length) = j - 1 by omega, hj1]
        exact hcl
      have h4 := run_char (le_of_eq hw1) (by omega) h3
      have h5 := ws_toLower_ws h4
      rw [← h2] at h5
      exact absurd h5 (by
        rw [(kw_char_facts kw₂ hmem₂ ck₂ hmemc₂).2.2]
        simp)
    · have hw10 : w1 = 0 := by omega
      have hk₂lt : kw₂.length < kw.length := by omega
      apply no_proper_ci_suffix kw hkmem kw₂ hmem₂ hk₂lt
      apply List.ext_getElem?
      intro i
      rw [List.getElem?_map, List.getElem?_map, List.getElem?_drop]
      by_cases hik : i < kw₂.length
      · have hdi : kw.length - kw₂.length + i < kw.length := by omega
        have e1 : kw[kw.length - kw₂.length + i]? =
            some (kw[kw.length - kw₂.length + i]) :=
          List.getElem?_eq_getElem hdi
        have hdilt : kw.length - kw₂.length + i < l'.length := by omega
        have e2 : l'[kw.length - kw₂.length + i]? =
            some (l'[kw.length - kw₂.length + i]) :=
          List.getElem?_eq_getElem hdilt
        have t1 := ciHeadEq_chars _ _ hci (kw.length - kw₂.length + i)
          (kw[kw.length - kw₂.length + i])
          (l'[kw.length - kw₂.length + i]) e1 e2
        have e3 : l'[kw.length - kw₂.length + i]? =
            l[kw.length - kw₂.length + i]? :=
          getElem?_common hcom (by omega)
        have e4 : kw₂[i]? = some (kw₂[i]) := List.getElem?_eq_getElem hik
        have e6 : (l.drop (j - kw₂.length))[i]? =
            some (l'[kw.length - kw₂.length + i]) := by
          rw [List.getElem?_drop,
            show j - kw₂.length + i = kw.length - kw₂.length + i by omega,
            ← e3]
          exact e2
        have t2 := ciHeadEq_chars _ _ hci₂ i (kw₂[i])
          (l'[kw.length - kw₂.length + i]) e4 e6
        rw [e1, e4]
        simp only [Option.map_some']
        rw [t1.trans t2.symm]
      · rw [List.getElem?_eq_none (by omega : kw.length ≤
          kw.length - kw₂.length + i),
          List.getElem?_eq_none (by omega : kw₂.length ≤ i)]
  rcases Nat.lt_or_ge j (kw.length + w1 + 1 + w2) with hc4 | hge4
  · -- inside the second whitespace run
    have h1 : (l'.drop (kw.length + w1 + 1))[j - (kw.length + w1 + 1)]? =
        some ':' := by
      rw [List.getElem?_drop,
        show kw.length + w1 + 1 + (j - (kw.length + w1 + 1)) = j by omega]
      exact hget
    exact absurd (run_char (le_of_eq hw2) (by omega) h1) (by decide)
  -- j ≥ kw.length + w1 + 1 + w2: the match transfers back to the input,
  -- contradicting the no-match fact there
  have hl'len : j < l'.length := (List.getElem?_eq_some_iff.mp hget).1
  have hllen : j ≤ l.length := by
    have h0 := congrArg List.length hcom
    rw [List.length_take, List.length_take] at h0
    omega
  have hcil : ciHeadEq kw l = true := by
    rw [ciHeadEq_take_congr kw l l' j (by omega) hcom.symm]
    exact hci
  have hfindl := find?_ci_unique hkmem hcil
  have hcpos' : l'[kw.length + w1]? = some c := by
    rw [← head?_drop_getElem]
    exact hchead
  have hcpos : l[kw.length + w1]? = some c := by
    rw [← getElem?_common hcom (by omega)]
    exact hcpos'
  have hw1l : runLen jsWsCh (l.drop kw.length) = w1 := by
    refine runLen_eq_transfer (e := c) (B := l'.drop kw.length) ?_ ?_ ?_ ?_
    · intro x hx
      exact mem_take_of_runLen_ge (le_of_eq hw1) hx
    · rw [List.getElem?_drop]
      exact hcpos'
    · rcases hcor with rfl | rfl <;> decide
    · have h5 := take_drop_common (d := kw.length) hcom (by omega)
      exact take_common_of_le h5 (by omega)
  have hdropl : l.drop (kw.length + w1) = c :: l.drop (kw.length + w1 + 1) :=
    drop_cons_of_getElem hcpos
  have hcb : (c = ':' || c = '=') = true := by
    rcases hcor with rfl | rfl <;> decide
  rcases Nat.eq_or_lt_of_le hge4 with hc5 | hgt5
  · -- j is exactly the first value position: the input continues with the
    -- blocked keyword match, whose own separator provides the value run
    obtain ⟨kw₂, n₂, r₂, hmem₂, hk₂le, hfind₂, hm₂⟩ := hpd
    obtain ⟨kw₂', hfind₂', hr₂, hk₂2', hk₂len', w1₂, c₂, w2₂, v₂, hw1₂,
      hc₂head, hcor₂, hw2₂, hv₂, hv₂1, hn₂⟩ := r3_inv hm₂
    have hkeq : kw₂' = kw₂ := by
      rw [hfind₂'] at hfind₂
      injection hfind₂
    rw [hkeq] at hw1₂ hc₂head
    have hdj : (l.drop (j - kw₂.length)).drop kw₂.length = l.drop j := by
      rw [List.drop_drop, show j - kw₂.length + kw₂.length = j by omega]
    rw [hdj] at hw1₂
    have hw2l : runLen jsWsCh (l.drop (kw.length + w1 + 1)) = w2 + w1₂ := by
      have hsplit : l.drop (kw.length + w1 + 1) =
          (l.drop (kw.length + w1 + 1)).take w2 ++ l.drop j := by
        conv_lhs => rw [← List.take_append_drop w2
          (l.drop (kw.length + w1 + 1))]
        rw [List.drop_drop, show kw.length + w1 + 1 + w2 = j by omega]
      rw [hsplit, runLen_append_all _ ?ws, List.length_take,
        min_eq_left (by rw [List.length_drop]; omega), ← hw1₂]
      case ws =>
        intro x hx
        have h5 := take_drop_common (d := kw.length + w1 + 1) hcom (by omega)
        rw [show j - (kw.length + w1 + 1) = w2 by omega] at h5
        rw [← h5] at hx
        exact mem_take_of_runLen_ge (le_of_eq hw2) hx
    have hc₂pos : l[j + w1₂]? = some c₂ := by
      rw [← head?_drop_getElem,
        show l.drop (j + w1₂) =
          (l.drop (j - kw₂.length)).drop (kw₂.length + w1₂) from by
            rw [List.drop_drop]
            congr 1
            omega]
      exact hc₂head
    have hvl : 1 ≤ runLen isValCh ((l.drop (kw.length + w1 + 1)).drop
        (runLen jsWsCh (l.drop (kw.length + w1 + 1)))) := by
      rw [hw2l, List.drop_drop,
        show kw.length + w1 + 1 + (w2 + w1₂) = j + w1₂ by omega,
        drop_cons_of_getElem hc₂pos]
      refine runLen_pos_of_head _ ?_
      rcases hcor₂ with rfl | rfl <;> decide
    obtain ⟨nl, rl, hml⟩ := r3_intro hfindl hw1l hdropl hcb hvl
    rw [hnone] at hml
    exact Option.noConfusion hml
  · -- j past the first value character: the whole match head is common
    obtain ⟨cv, t₂, hLv, hcv⟩ := runLen_one_head (le_trans hv1 (le_of_eq hv))
    have hq₀' : l'[kw.length + w1 + 1 + w2]? = some cv := by
      rw [← head?_drop_getElem, hLv]
      rfl
    have hq₀ : l[kw.length + w1 + 1 + w2]? = some cv := by
      rw [← getElem?_common hcom (by omega)]
      exact hq₀'
    have hw2l : runLen jsWsCh (l.drop (kw.length + w1 + 1)) = w2 := by
      refine runLen_eq_transfer (e := cv)
        (B := l'.drop (kw.length + w1 + 1)) ?_ ?_ ?_ ?_
      · intro x hx
        exact mem_take_of_runLen_ge (le_of_eq hw2) hx
      · rw [List.getElem?_drop]
        exact hq₀'
      · rw [val_not_ws hcv]
      · have h5 := take_drop_common (d := kw.length + w1 + 1) hcom (by omega)
        exact take_common_of_le h5 (by omega)
    have hvl : 1 ≤ runLen isValCh ((l.drop (kw.length + w1 + 1)).drop
        (runLen jsWsCh (l.drop (kw.length + w1 + 1)))) := by
      rw [hw2l, List.drop_drop,
        show kw.length + w1 + 1 + w2 = kw.length + w1 + 1 + w2 from rfl,
        drop_cons_of_getElem hq₀]
      exact runLen_pos_of_head _ hcv
    obtain ⟨nl, rl, hml⟩ := r3_intro hfindl hw1l hdropl hcb hvl
    rw [hnone] at hml
    exact Option.noConfusion hml

/-! ## C9: rule-3 matches inside rule-3 replacement tokens -/

theorem idOrNone_of_none {m : List Char → Option (ℕ × List Char)}
    {t : List Char} (h : m t = none) : IdOrNone m t := by
  intro n r hm
  rw [h] at hm
  exact Option.noConfusion hm

theorem runLen_zero_head {p : Char → Bool} {t : List Char}
    (h : runLen p t = 0) : t = [] ∨ ∃ c₀ t₀, t = c₀ :: t₀ ∧ p c₀ = false := by
  cases t with
  | nil => exact Or.inl rfl
  | cons c₀ t₀ =>
    by_cases hc : p c₀ = true
    · simp [runLen, hc] at h
    · exact Or.inr ⟨c₀, t₀, rfl, by simpa using hc⟩

theorem r3_none_of_find {t : List Char}
    (h : pwdKeywords.find? (fun k' => ciHeadEq k' t) = none) :
    r3MatchAt t = none := by
  unfold r3MatchAt
  rw [h]

theorem kw_head_chars : ∀ kw ∈ pwdKeywords, ∀ ch, kw[0]? = some ch →
    ch.toLower = 'p' ∨ ch.toLower = '비' := by decide

theorem kw_tail_chars : ∀ kw ∈ pwdKeywords, ∀ ch ∈ kw.drop 1,
    ch.toLower ≠ 'p' ∧ ch.toLower ≠ '비' := by decide

theorem r3_none_of_head_char {d : Char} {t₀ : List Char}
    (h1 : d.toLower ≠ 'p') (h2 : d.toLower ≠ '비') :
    r3MatchAt (d :: t₀) = none := by
  apply r3_none_of_find
  rw [List.find?_eq_none]
  intro kw' hmem'
  intro h'
  have hk0 : ∃ ch, kw'[0]? = some ch := by
    have hl2 := kw_len2 kw' hmem'
    exact ⟨kw'[0], List.getElem?_eq_getElem (by omega)⟩
  obtain ⟨ch, hch⟩ := hk0
  have h3 := ciHeadEq_chars _ _ h' 0 ch d hch (by rw [List.getElem?_cons_zero])
  rcases kw_head_chars kw' hmem' ch hch with h4 | h4
  · exact h1 (h3 ▸ h4)
  · exact h2 (h3 ▸ h4)

theorem r3_tok_pwdTail (p : ℕ) (hp : p < 16) (tail : List Char) :
    r3MatchAt (": [REDACTED_PWD]".toList.drop p ++ tail) = none := by
  interval_cases p <;> rfl

theorem idOrNone_token_r3 {c : Char} {rest out : List Char} {n : ℕ}
    {r : List Char} (hm : r3MatchAt (c :: rest) = some (n, r))
    (hso : ScanOut r3MatchAt (rest.drop (n - 1)) out)
    {p : ℕ} (hp : p < r.length) : IdOrNone r3MatchAt (r.drop p ++ out) := by
  obtain ⟨kw, hfind, hr, hkw2, hklen, w1, cc, w2, v, hw1, hchead, hcor, hw2,
    hv, hv1, hn⟩ := r3_inv hm
  have hcil : ciHeadEq kw (c :: rest) = true := by
    simpa using List.find?_some hfind
  have hkmem : kw ∈ pwdKeywords := List.mem_of_find?_eq_some hfind
  have hlenk : ((c :: rest).take kw.length).length = kw.length := by
    rw [List.length_take]
    omega
  have hrlen : r.length = kw.length + 16 := by
    rw [hr, List.length_append, hlenk]
    rfl
  rcases Nat.lt_or_ge p 1 with hp0 | hp1
  · -- token start: the token re-matches itself exactly
    have hpz : p = 0 := by omega
    subst hpz
    rw [List.drop_zero]
    -- follower of the original value run is not a value character
    have hfol : runLen isValCh ((c :: rest).drop n) = 0 := by
      have ht := runLen_terminator isValCh
        ((c :: rest).drop (kw.length + w1 + 1 + w2))
      rw [← hv, List.drop_drop,
        show kw.length + w1 + 1 + w2 + v = n by omega] at ht
      exact runLen_zero_of_head ht
    have hout0 : runLen isValCh out = 0 := by
      have hhead : (rest.drop (n - 1)).head? = out.head? :=
        scanOut_head r3_head_eq hso
      have hdn : (c :: rest).drop n = rest.drop (n - 1) := by
        nth_rewrite 1 [show n = (n - 1) + 1 by omega]
        rw [List.drop_succ_cons]
      rcases runLen_zero_head hfol with hnil | ⟨c₀, t₀, hco, hval⟩
      · rw [hdn] at hnil
        rw [hnil] at hhead
        have hog : out = [] := by
          cases out with
          | nil => rfl
          | cons o t => exact absurd hhead.symm (by simp)
        rw [hog]
        rfl
      · rw [hdn] at hco
        rw [hco] at hhead
        cases out with
        | nil => exact absurd hhead (by simp)
        | cons o t =>
          have ho : o = c₀ := by
            simp only [List.head?_cons, Option.some.injEq] at hhead
            exact hhead.symm
          rw [ho]
          exact runLen_head_false _ hval
    have htakek : (r ++ out).take kw.length = (c :: rest).take kw.length := by
      rw [hr, List.append_assoc,
        List.take_append_of_le_length (le_of_eq hlenk.symm), List.take_take,
        min_self]
    intro n₀ r₀ h₀
    obtain ⟨kw₀, hfind₀, hr₀, hkw₀2, hklen₀, w1₀, c₀, w2₀, v₀, hw1₀, hchead₀,
      hcor₀, hw2₀, hv₀, hv₀1, hn₀⟩ := r3_inv h₀
    have hfind' : pwdKeywords.find? (fun k' => ciHeadEq k' (r ++ out)) =
        some kw := by
      refine find?_ci_unique hkmem ?_
      rw [ciHeadEq_take_congr kw (r ++ out) (c :: rest) kw.length le_rfl
        htakek]
      exact hcil
    have hk₀ : kw₀ = kw := by
      rw [hfind₀] at hfind'
      injection hfind'
    rw [hk₀] at hw1₀ hchead₀ hw2₀ hv₀ hn₀ hr₀ hklen₀
    have hd0 : (r ++ out).drop kw.length =
        ':' :: (" [REDACTED_PWD]".toList ++ out) := by
      rw [hr, List.append_assoc, drop_append_right2 (le_of_eq hlenk),
        show kw.length - ((c :: rest).take kw.length).length = 0 from by
          rw [hlenk]; omega,
        List.drop_zero]
      rfl
    have hw1₀0 : w1₀ = 0 := by
      rw [hw1₀, hd0, runLen_head_false _ (show jsWsCh ':' = false from rfl)]
    have hd1 : (r ++ out).drop (kw.length + 1) =
        ' ' :: ('[' :: ("REDACTED_PWD]".toList ++ out)) := by
      have h9 := congrArg List.tail hd0
      rw [List.tail_drop] at h9
      rw [h9]
      rfl
    have hw2₀1 : w2₀ = 1 := by
      rw [hw2₀, hw1₀0, Nat.add_zero, hd1,
        show runLen jsWsCh (' ' :: ('[' :: ("REDACTED_PWD]".toList ++ out))) =
          runLen jsWsCh ('[' :: ("REDACTED_PWD]".toList ++ out)) + 1 from by
            simp [runLen, show jsWsCh ' ' = true from rfl],
        runLen_head_false _ (show jsWsCh '[' = false from rfl)]
    have hd2 : (r ++ out).drop (kw.length + 2) =
        "[REDACTED_PWD]".toList ++ out := by
      have h9 := congrArg List.tail hd1
      rw [List.tail_drop] at h9
      rw [show kw.length + 1 + 1 = kw.length + 2 from rfl] at h9
      rw [h9]
      rfl
    have hv₀14 : v₀ = 14 := by
      rw [hv₀, hw1₀0, hw2₀1, show kw.length + 0 + 1 + 1 = kw.length + 2 by
        omega, hd2, runLen_append_all _ (by decide), hout0]
      rfl
    have hn₀16 : n₀ = kw.length + 16 := by omega
    refine ⟨by omega, ?_⟩
    rw [hr₀, hn₀16, htakek, ← hr, show kw.length + 16 = r.length from
      hrlen.symm, List.take_append_of_le_length le_rfl, List.take_length]
  rcases Nat.lt_or_ge p kw.length with hpk | hpk
  · -- inside the re-emitted keyword text: no keyword can start there
    have hchp : (c :: rest)[p]? = some ((c :: rest)[p]) :=
      List.getElem?_eq_getElem (by omega)
    have hchp' : ((c :: rest).take kw.length)[p]? = some ((c :: rest)[p]) := by
      rw [List.getElem?_take_of_lt hpk]
      exact hchp
    have hdecomp : r.drop p ++ out = (c :: rest)[p] ::
        (((c :: rest).take kw.length).drop (p + 1) ++
          (": [REDACTED_PWD]".toList ++ out)) := by
      rw [hr, drop_append_left (by rw [hlenk]; omega),
        drop_cons_of_getElem hchp']
      simp [List.cons_append, List.append_assoc]
    rw [hdecomp]
    have hkp : kw[p]? = some (kw[p]) := List.getElem?_eq_getElem (by omega)
    have hlow := ciHeadEq_chars _ _ hcil p (kw[p]) ((c :: rest)[p]) hkp hchp
    have hmem2 : kw[p] ∈ kw.drop 1 := by
      have h8 : (kw.drop 1)[p - 1]? = some (kw[p]) := by
        rw [List.getElem?_drop, show 1 + (p - 1) = p by omega]
        exact hkp
      obtain ⟨hb, he⟩ := List.getElem?_eq_some_iff.mp h8
      exact he ▸ List.getElem_mem hb
    obtain ⟨hne1, hne2⟩ := kw_tail_chars kw hkmem (kw[p]) hmem2
    exact idOrNone_of_none (r3_none_of_head_char (by rw [← hlow]; exact hne1)
      (by rw [← hlow]; exact hne2))
  · -- inside the emitted ": [REDACTED_PWD]" text
    have hrd : r.drop p = ": [REDACTED_PWD]".toList.drop (p - kw.length) := by
      rw [hr, drop_append_right2 (by rw [hlenk]; omega), hlenk]
    rw [hrd]
    exact idOrNone_of_none (r3_tok_pwdTail (p - kw.length) (by omega) out)

theorem good3_self {t t' : List Char} (h : ScanOut r3MatchAt t t') :
    ∀ p, IdOrNone r3MatchAt (t'.drop p) := by
  induction h with
  | nil =>
    intro p
    exact idOrNone_of_none (by rw [List.drop_nil]; rfl)
  | @copy c rest out hm hso ih =>
    intro p
    cases p with
    | zero =>
      rw [List.drop_zero]
      have hnode : ScanOut r3MatchAt (c :: rest) (c :: out) :=
        ScanOut.copy hm hso
      refine idOrNone_copy_r3 ?_ hm
      rcases scanOut_exists_block_pos tokOkP_r3 pd3_shift hnode with
        heq | ⟨j, cb, hcom, hget, hbl, hpd⟩
      · exact Or.inl heq
      · refine Or.inr ⟨j, hcom, ?_, hpd⟩
        rw [of_decide_eq_true hbl] at hget
        exact hget
    | succ p =>
      rw [List.drop_succ_cons]
      exact ih p
  | @repl c rest out n r hm hso ih =>
    intro p
    by_cases hp : p < r.length
    · rw [drop_append_left (le_of_lt hp)]
      exact idOrNone_token_r3 hm hso hp
    · push_neg at hp
      rw [drop_append_right2 hp]
      exact ih (p - r.length)

/-! ## C9: rule-3 identity survives the rule-4 scan -/

theorem tok16_no_zero : ∀ i, i < 16 →
    ¬ (": [REDACTED_PWD]".toList[i]? = some '0') := by decide

theorem r3_tok_phone (p : ℕ) (hp : p < 16) (tail : List Char) :
    r3MatchAt ("[REDACTED_PHONE]".toList.drop p ++ tail) = none := by
  interval_cases p <;> rfl

theorem idOrNone_copy_r4 {l l' : List Char}
    (hblock : l' = l ∨ ∃ j, l'.take j = l.take j ∧ l'[j]? = some '[' ∧
      (l.drop j).head? = some '0')
    (hid : IdOrNone r3MatchAt l) : IdOrNone r3MatchAt l' := by
  rcases hblock with rfl | ⟨j, hcom, hget, hpd⟩
  · exact hid
  intro n' r' hm'
  obtain ⟨kw, hfind, hr, hkw2, hklen', w1, c, w2, v, hw1, hchead, hcor, hw2,
    hv, hv1, hn⟩ := r3_inv hm'
  have hci : ciHeadEq kw l' = true := by simpa using List.find?_some hfind
  have hkmem : kw ∈ pwdKeywords := List.mem_of_find?_eq_some hfind
  rcases Nat.lt_or_ge j kw.length with hc1 | hge1
  · exfalso
    obtain ⟨ck, hck⟩ : ∃ ck, kw[j]? = some ck :=
      ⟨kw[j], List.getElem?_eq_getElem hc1⟩
    have h1 := ciHeadEq_chars _ _ hci j ck '[' hck hget
    have hmemc : ck ∈ kw := by
      obtain ⟨hb, he⟩ := List.getElem?_eq_some_iff.mp hck
      exact he ▸ List.getElem_mem hb
    exact (kw_char_facts kw hkmem ck hmemc).2.1 (h1.trans (by decide))
  rcases Nat.lt_or_ge j (kw.length + w1) with hc2 | hge2
  · exfalso
    have h1 : (l'.drop kw.length)[j - kw.length]? = some '[' := by
      rw [List.getElem?_drop, show kw.length + (j - kw.length) = j by omega]
      exact hget
    exact absurd (run_char (le_of_eq hw1) (by omega) h1) (by decide)
  rcases Nat.eq_or_lt_of_le hge2 with hc3 | hgt3
  · exfalso
    have hcpos' : l'[kw.length + w1]? = some c := by
      rw [← head?_drop_getElem]
      exact hchead
    rw [← hc3] at hget
    rw [hcpos'] at hget
    injection hget with h1
    rcases hcor with rfl | rfl <;> exact absurd h1 (by decide)
  rcases Nat.lt_or_ge j (kw.length + w1 + 1 + w2) with hc4 | hge4
  · exfalso
    have h1 : (l'.drop (kw.length + w1 + 1))[j - (kw.length + w1 + 1)]? =
        some '[' := by
      rw [List.getElem?_drop,
        show kw.length + w1 + 1 + (j - (kw.length + w1 + 1)) = j by omega]
      exact hget
    exact absurd (run_char (le_of_eq hw2) (by omega) h1) (by decide)
  -- j at or past the first value character
  have hl'len : j < l'.length := (List.getElem?_eq_some_iff.mp hget).1
  have hllen : j ≤ l.length := by
    have h0 := congrArg List.length hcom
    rw [List.length_take, List.length_take] at h0
    omega
  have hcil : ciHeadEq kw l = true := by
    rw [ciHeadEq_take_congr kw l l' j (by omega) hcom.symm]
    exact hci
  have hfindl := find?_ci_unique hkmem hcil
  have hcpos' : l'[kw.length + w1]? = some c := by
    rw [← head?_drop_getElem]
    exact hchead
  have hcpos : l[kw.length + w1]? = some c := by
    rw [← getElem?_common hcom (by omega)]
    exact hcpos'
  have hw1l : runLen jsWsCh (l.drop kw.length) = w1 := by
    refine runLen_eq_transfer (e := c) (B := l'.drop kw.length) ?_ ?_ ?_ ?_
    · intro x hx
      exact mem_take_of_runLen_ge (le_of_eq hw1) hx
    · rw [List.getElem?_drop]
      exact hcpos'
    · rcases hcor with rfl | rfl <;> decide
    · have h5 := take_drop_common (d := kw.length) hcom (by omega)
      exact take_common_of_le h5 (by omega)
  have hdropl : l.drop (kw.length + w1) = c :: l.drop (kw.length + w1 + 1) :=
    drop_cons_of_getElem hcpos
  have hcb : (c = ':' || c = '=') = true := by
    rcases hcor with rfl | rfl <;> decide
  have hval0 : ∃ cv, l[kw.length + w1 + 1 + w2]? = some cv ∧
      isValCh cv = true := by
    rcases Nat.eq_or_lt_of_le hge4 with hc5 | hgt5
    · refine ⟨'0', ?_, by decide⟩
      rw [hc5, ← head?_drop_getElem]
      exact hpd
    · obtain ⟨cv, t₂, hLv, hcv⟩ := runLen_one_head (le_trans hv1 (le_of_eq hv))
      refine ⟨cv, ?_, hcv⟩
      rw [← getElem?_common hcom (by omega), ← head?_drop_getElem, hLv]
      rfl
  obtain ⟨cv, hcvpos, hcv⟩ := hval0
  have hw2l : runLen jsWsCh (l.drop (kw.length + w1 + 1)) = w2 := by
    refine runLen_eq _ _ _ cv ?_ ?_ (val_not_ws hcv)
    · intro x hx
      have h5 := take_drop_common (d := kw.length + w1 + 1) hcom (by omega)
      have h6 := take_common_of_le h5 (by omega : w2 ≤ j - (kw.length + w1 + 1))
      rw [← h6] at hx
      exact mem_take_of_runLen_ge (le_of_eq hw2) hx
    · rw [List.get?_eq_getElem?, List.getElem?_drop]
      exact hcvpos
  have hvl : 1 ≤ runLen isValCh ((l.drop (kw.length + w1 + 1)).drop
      (runLen jsWsCh (l.drop (kw.length + w1 + 1)))) := by
    rw [hw2l, List.drop_drop, drop_cons_of_getElem hcvpos]
    exact runLen_pos_of_head _ hcv
  obtain ⟨nl, rl, hml⟩ := r3_intro hfindl hw1l hdropl hcb hvl
  obtain ⟨kwS, hfindS, hkS2, hnS, hlgeS, hstarS, hrun0S, htake14S, hposS⟩ :=
    id_match_shape hid hml
  have hkSeq : kwS = kw := by
    rw [hfindS] at hfindl
    injection hfindl
  rw [hkSeq] at hnS hlgeS hstarS hrun0S htake14S hposS
  have hj17 : kw.length + 17 ≤ j := by
    by_contra hlt
    push_neg at hlt
    have h0j : l[j]? = some '0' := by
      rw [← head?_drop_getElem]
      exact hpd
    rcases Nat.lt_or_ge j (kw.length + 16) with hj16 | hj16'
    · have h1 := hposS (j - kw.length) (by omega)
      rw [show kw.length + (j - kw.length) = j by omega, h0j] at h1
      exact tok16_no_zero (j - kw.length) (by omega) h1.symm
    · have hj16e : j = kw.length + 16 := by omega
      rcases runLen_zero_head hrun0S with hnil | ⟨c₀, t₀, hco, hvalc⟩
      · have h2 := congrArg List.length hnil
        rw [List.length_drop] at h2
        simp only [List.length_nil] at h2
        have h3 : l[j]? = none := List.getElem?_eq_none (by omega)
        rw [h3] at h0j
        exact Option.noConfusion h0j
      · have h4 : l[kw.length + 16]? = some c₀ := by
          rw [← head?_drop_getElem, hco]
          rfl
        rw [← hj16e, h0j] at h4
        injection h4 with h5
        rw [← h5] at hvalc
        exact absurd hvalc (by decide)
  -- the whole identity token region is common to l and l'
  have e0 : l'[kw.length]? = some ':' := by
    rw [getElem?_common hcom (by omega)]
    have h1 := hposS 0 (by omega)
    rw [Nat.add_zero] at h1
    rw [h1]
    rfl
  have e1 : l'[kw.length + 1]? = some ' ' := by
    rw [getElem?_common hcom (by omega)]
    have h1 := hposS 1 (by omega)
    rw [h1]
    rfl
  have e2 : l'[kw.length + 2]? = some '[' := by
    rw [getElem?_common hcom (by omega)]
    have h1 := hposS 2 (by omega)
    rw [h1]
    rfl
  have hw1z : w1 = 0 := by
    rw [hw1, drop_cons_of_getElem e0]
    exact runLen_head_false _ (by decide)
  have hw2o : w2 = 1 := by
    rw [hw2, hw1z, Nat.add_zero, drop_cons_of_getElem e1,
      show runLen jsWsCh (' ' :: l'.drop (kw.length + 1 + 1)) =
        runLen jsWsCh (l'.drop (kw.length + 1 + 1)) + 1 from by
          simp [runLen, show jsWsCh ' ' = true from rfl],
      show kw.length + 1 + 1 = kw.length + 2 from rfl,
      drop_cons_of_getElem e2,
      runLen_head_false _ (show jsWsCh '[' = false from rfl)]
  have htk14' : (l'.drop (kw.length + 2)).take 14 =
      "[REDACTED_PWD]".toList := by
    have h5 := take_drop_common (d := kw.length + 2) hcom (by omega)
    have h6 := take_common_of_le h5
      (by omega : 14 ≤ j - (kw.length + 2))
    rw [h6, htake14S]
  have e16 : l'[kw.length + 16]? = l[kw.length + 16]? :=
    getElem?_common hcom (by omega)
  have hdec' : l'.drop (kw.length + 2) =
      "[REDACTED_PWD]".toList ++ l'.drop (kw.length + 16) := by
    conv_lhs => rw [← List.take_append_drop 14 (l'.drop (kw.length + 2))]
    rw [htk14', List.drop_drop,
      show kw.length + 2 + 14 = kw.length + 16 by omega]
  have hrun0' : runLen isValCh (l'.drop (kw.length + 16)) = 0 := by
    rcases runLen_zero_head hrun0S with hnil | ⟨c₀, t₀, hco, hvalc⟩
    · exfalso
      have h2 := congrArg List.length hnil
      rw [List.length_drop] at h2
      simp only [List.length_nil] at h2
      omega
    · have h4 : l[kw.length + 16]? = some c₀ := by
        rw [← head?_drop_getElem, hco]
        rfl
      apply runLen_zero_of_head
      right
      refine ⟨c₀, l'.drop (kw.length + 16 + 1), ?_, hvalc⟩
      rw [drop_cons_of_getElem (by rw [e16]; exact h4)]
  have hv14 : v = 14 := by
    rw [hv, hw1z, hw2o, show kw.length + 0 + 1 + 1 = kw.length + 2 by omega,
      hdec', runLen_append_all _ (by decide), hrun0']
    rfl
  have hn'16 : n' = kw.length + 16 := by omega
  refine ⟨by omega, ?_⟩
  rw [hr, hn'16, take_common_of_le hcom (by omega : kw.length ≤ j),
    take_common_of_le hcom (by omega : kw.length + 16 ≤ j)]
  rw [hnS] at hstarS
  exact hstarS.symm

theorem good3_preserve_r4 {t t' : List Char} (h : ScanOut r4MatchAt t t')
    (hG : ∀ q, IdOrNone r3MatchAt (t.drop q)) :
    ∀ p, IdOrNone r3MatchAt (t'.drop p) := by
  induction h with
  | nil =>
    intro p
    exact idOrNone_of_none (by rw [List.drop_nil]; rfl)
  | @copy c rest out hm hso ih =>
    intro p
    cases p with
    | zero =>
      rw [List.drop_zero]
      have hnode : ScanOut r4MatchAt (c :: rest) (c :: out) :=
        ScanOut.copy hm hso
      refine idOrNone_copy_r4 ?_ (by simpa using hG 0)
      rcases scanOut_exists_block tokOk_r4P hnode with
        heq | ⟨j, cb, hcom, hget, hbl, hpd⟩
      · exact Or.inl heq
      · refine Or.inr ⟨j, hcom, ?_, hpd⟩
        rw [of_decide_eq_true hbl] at hget
        exact hget
    | succ p =>
      have hG' : ∀ q, IdOrNone r3MatchAt (rest.drop q) := fun q => by
        simpa using hG (q + 1)
      rw [List.drop_succ_cons]
      exact ih hG' p
  | @repl c rest out n r hm hso ih =>
    intro p
    obtain ⟨hrphone, cx, restx, nT, hlx, hcx, htailx, hnx⟩ := r4_inv hm
    by_cases hp : p < r.length
    · rw [drop_append_left (le_of_lt hp), hrphone]
      refine idOrNone_of_none (r3_tok_phone p ?_ out)
      rw [hrphone] at hp
      simpa using hp
    · push_neg at hp
      rw [drop_append_right2 hp]
      have hG' : ∀ q, IdOrNone r3MatchAt ((rest.drop (n - 1)).drop q) := by
        intro q
        rw [List.drop_drop]
        have h9 := hG (n + q)
        have h10 : (c :: rest).drop (n + q) = rest.drop (n - 1 + q) := by
          nth_rewrite 1 [show n + q = (n - 1 + q) + 1 by omega]
          rw [List.drop_succ_cons]
        rw [h10] at h9
        exact h9
      exact ih hG' (p - r.length)

theorem good3_redacted (x : List Char) :
    ∀ p, IdOrNone r3MatchAt ((scanRepl r4MatchAt (scanRepl r3MatchAt
      (scanRepl r2MatchAt (scanRepl r1MatchAt x)))).drop p) :=
  good3_preserve_r4 (scanRepl_scanOut _ _) (good3_self (scanRepl_scanOut _ _))

/-- C9: `FragmentFactory._redactPII` is idempotent: for every input string,
applying the four ordered substitutions (API keys, e-mails, password
key/value pairs, Korean phone numbers) a second time leaves the
once-redacted text unchanged, i.e. `redactPII (redactPII s) = redactPII s`. -/
theorem c9_redact_idempotent (s : String) :
    redactPII (redactPII s) = redactPII s := by
  unfold redactPII
  rw [show (String.mk (scanRepl r4MatchAt (scanRepl r3MatchAt
    (scanRepl r2MatchAt (scanRepl r1MatchAt s.toList))))).toList =
    scanRepl r4MatchAt (scanRepl r3MatchAt
      (scanRepl r2MatchAt (scanRepl r1MatchAt s.toList))) from rfl]
  rw [scanRepl_fix_of_noMatch _ _ (noMatch_r1_redacted s.toList),
    scanRepl_fix_of_noMatch _ _ (noMatch_r2_redacted s.toList),
    scanRepl_fix _ _ (good3_redacted s.toList),
    scanRepl_fix_of_noMatch _ _ (noMatch_r4_redacted s.toList)]
